import Mathlib

/-!
Job pipeline of the `mantis` CLI (`cli/pkg/digger/digger.go`)

A shallow embedding of `RunJobs`, `run` and their helpers.  Every call the Go
code makes to a collaborator (policy checker, reporter, PR service, executor,
backend API, environment, ...) is a node of a program tree `Prog`; an
arbitrary, stateful handler answers the calls and `exec` records them, with
their answers, in a trace.  Go panics (index out of range, nil dereference)
and `log.Fatalf` exits are explicit outcomes.  Log output and the timestamps
passed to the backend are not modelled.
-/

namespace Mantis

/-! ## Data model -/

/-- The fields of `orchestrator.Job` that `digger.go` reads. -/
structure Job where
  Namespace : String
  ProjectName : String
  ProjectDir : String
  ProjectWorkspace : String
  ProjectWorkflow : String
  Terragrunt : Bool
  OpenTofu : Bool
  Commands : List String
  EventName : String
  PullRequestNumber : Option Int
  RequestedBy : String
deriving DecidableEq, Repr

/-- The plan summary a plan produces (`terraform_utils.TerraformSummary`); its
fields are not read by the pipeline. -/
structure TerraformSummary where
  ResourcesCreated : Nat
  ResourcesUpdated : Nat
  ResourcesDeleted : Nat
deriving DecidableEq, Repr

/-- Go `execution.DiggerExecutorPlanResult`. -/
structure DiggerExecutorPlanResult where
  PlanSummary : TerraformSummary
  TerraformJson : String
deriving DecidableEq, Repr

/-- Go `execution.DiggerExecutorResult`; the zero value has both pointers nil. -/
structure DiggerExecutorResult where
  TerraformOutput : String := ""
  PlanResult : Option DiggerExecutorPlanResult := none
  ApplyResult : Option Unit := none
deriving DecidableEq, Repr

/-- Go `backend.RunDetails`. -/
structure RunDetails where
  Id : Int := 0
  StartedAt : String := ""
  EndedAt : String := ""
  Status : String := ""
  Command : String := ""
  Output : String := ""
deriving DecidableEq, Repr

/-- Go `scheduler.SerializedBatch`, of which only `Jobs` is read. -/
structure SerializedBatch where
  Jobs : List String
deriving DecidableEq, Repr

/-- The formatter handed to `reporter.Report`. -/
inductive Formatter where
  | AsCollapsibleComment (summary : String) (isOpen : Bool)
  | AsComment (summary : String)
  | GetTerraformOutputAsCollapsibleComment (summary : String) (isOpen : Bool)
  | GetTerraformOutputAsComment (summary : String)
  | identityFormatter
deriving DecidableEq, Repr

/-- A Go `error` value built by the pipeline.  `text s` is an error whose
message is `s` (`errors.New(s)`, or `fmt.Errorf` with a constant format);
`format s` is `fmt.Errorf(s)`, where the computed string `s` is used as the
format with no operands; `wrapped pre err` is `fmt.Errorf(pre + "%v", err)`. -/
inductive GoError where
  | text (s : String)
  | format (s : String)
  | wrapped (pre : String) (err : GoError)
deriving DecidableEq, Repr

/-- The message of the error where it does not depend on how `fmt` renders a
verb without operand: the message of `fmt.Errorf(s)` is `s` when `s` has no
`%`, and is left open (`none`) otherwise. -/
def GoError.message : GoError → Option String
  | .text s => some s
  | .format s => if '%' ∈ s.data then none else some s
  | .wrapped pre err => err.message.map (fun m => pre ++ m)

/-- Answer of `diggerExecutor.Plan()`. -/
structure PlanAnswer where
  planSummary : Option TerraformSummary
  planPerformed : Bool
  isNonEmptyPlan : Bool
  plan : String
  planJsonOutput : String
  err : Option String
deriving DecidableEq, Repr

/-- Answer of `diggerExecutor.Apply()`. -/
structure ApplyAnswer where
  applyPerformed : Bool
  output : String
  err : Option String
deriving DecidableEq, Repr

/-! ## Collaborator calls -/

/-- The calls the pipeline makes to its collaborators, with the arguments the
source passes.  Executor calls carry the namespace and name of the project the
executor was built for. -/
inductive Call where
  | CheckAccessPolicy (SCMOrganisation SCMrepository projectName projectDir command : String)
      (prNumber : Option Int) (requestedBy : String) (planPolicyViolations : List String)
  | CheckPlanPolicy (SCMrepository SCMOrganisation projectName projectDir planOutput : String)
  | CheckDriftPolicy (SCMOrganisation SCMrepository projectName : String)
  | SupportsMarkdown
  | Report (body : String) (formatter : Formatter)
  | Flush
  | Suppress
  | SetStatus (prNumber : Int) (status statusContext : String)
  | IsMerged (prNumber : Int)
  | IsMergeable (prNumber : Int)
  | PopulateAwsCredentialsEnvVarsForJob (job : Job)
  | SendUsageRecord (requestedBy eventName action : String)
  | Plan (projectNamespace projectName : String)
  | Apply (projectNamespace projectName : String)
  | Destroy (projectNamespace projectName : String)
  | Lock (projectNamespace projectName : String)
  | Unlock (projectNamespace projectName : String)
  | RetrievePlanJson (projectNamespace projectName : String)
  | DeleteStoredPlan (projectNamespace projectName : String) (prNumber : Option Int)
  | GetTfSummarizePlan (planJson : String)
  | Getenv (key : String)
  | ReportProjectRun (repo projectName status command output : String)
  | ReportProjectJobStatus (repo projectName jobId status : String)
      (summary : Option DiggerExecutorPlanResult) (PrCommentUrl terraformOutput : String)
  | UpdateComment (jobs : List String) (prNumber : Int) (prCommentId : Int)
  | UpdateAggregateStatus (batch : SerializedBatch)
  | sendPostRequest (endpoint method : String) (TfPlanJson : String) (JobId : Int)
  | Send (projectName plan : String)
deriving DecidableEq, Repr

/-- The type of the answer to each call.  An `error` result is the message of
the error, `none` standing for `nil`. -/
@[reducible]
def Resp : Call → Type
  | .CheckAccessPolicy .. => Except String Bool
  | .CheckPlanPolicy .. => Except String (Bool × List String)
  | .CheckDriftPolicy .. => Except String Bool
  | .SupportsMarkdown => Bool
  | .Report .. => Option String
  | .Flush => Except String (String × String)
  | .Suppress => Unit
  | .SetStatus .. => Option String
  | .IsMerged .. => Except String Bool
  | .IsMergeable .. => Except String Bool
  | .PopulateAwsCredentialsEnvVarsForJob .. => Option String
  | .SendUsageRecord .. => Option String
  | .Plan .. => PlanAnswer
  | .Apply .. => ApplyAnswer
  | .Destroy .. => Option String
  | .Lock .. => Option String
  | .Unlock .. => Option String
  | .RetrievePlanJson .. => Except String String
  | .DeleteStoredPlan .. => Option String
  | .GetTfSummarizePlan .. => String × Option String
  | .Getenv .. => String
  | .ReportProjectRun .. => RunDetails × Option String
  | .ReportProjectJobStatus .. => Option SerializedBatch × Option String
  | .UpdateComment .. => Option String
  | .UpdateAggregateStatus .. => Option String
  | .sendPostRequest .. => Option String
  | .Send .. => Option String

/-- One entry of the trace: a call and the answer it got. -/
structure Event where
  call : Call
  resp : Resp call

/-! ## Programs and their execution -/

/-- A Go computation: it returns, panics, exits through `log.Fatalf`, or calls
a collaborator and goes on with the answer. -/
inductive Prog (α : Type) where
  | ret (a : α)
  | panic (msg : String)
  | fatal (msg : String)
  | call (c : Call) (k : Resp c → Prog α)

namespace Prog

/-- Sequencing: a panic or an exit skips the rest. -/
def bind {α β : Type} : Prog α → (α → Prog β) → Prog β
  | .ret a, f => f a
  | .panic m, _ => .panic m
  | .fatal m, _ => .fatal m
  | .call c k, f => .call c (fun r => bind (k r) f)

instance : Monad Prog where
  pure := Prog.ret
  bind := Prog.bind

/-- Performs one call and returns its answer. -/
def perform (c : Call) : Prog (Resp c) := .call c .ret

/-- Go `defer d()`: `d` runs when the body returns or panics, not when the
process exits. -/
def withDefer {α : Type} (d : Prog Unit) : Prog α → Prog α
  | .ret a => Prog.bind d (fun _ => .ret a)
  | .panic m => Prog.bind d (fun _ => .panic m)
  | .fatal m => .fatal m
  | .call c k => .call c (fun r => withDefer d (k r))

end Prog

/-- How an execution ended. -/
inductive Res (α : Type) where
  | ok (a : α)
  | panic (msg : String)
  | fatal (msg : String)
deriving DecidableEq, Repr

/-- The collaborators: a state and an answer to every call. -/
abbrev Handler (σ : Type) := (c : Call) → σ → Resp c × σ

/-- Runs a program against the collaborators; returns the outcome, the final
collaborator state and the calls made, in order. -/
def exec {σ α : Type} (h : Handler σ) : Prog α → σ → Res α × σ × List Event
  | .ret a, s => (.ok a, s, [])
  | .panic m, s => (.panic m, s, [])
  | .fatal m, s => (.fatal m, s, [])
  | .call c k, s =>
    let a := h c s
    let r := exec h (k a.1) a.2
    (r.1, r.2.1, ⟨c, a.1⟩ :: r.2.2)

/-- The outcome of an execution. -/
def outcome {σ α : Type} (h : Handler σ) (p : Prog α) (s : σ) : Res α := (exec h p s).1

/-- The calls of an execution, in order. -/
def trace {σ α : Type} (h : Handler σ) (p : Prog α) (s : σ) : List Event := (exec h p s).2.2

/-- The calls of an execution without their answers. -/
def calls {σ α : Type} (h : Handler σ) (p : Prog α) (s : σ) : List Call :=
  (trace h p s).map Event.call

/-! ## Helpers of `digger.go` -/

open Prog

/-- Go `strings.Split(s, "/")`, on the characters of `s`. -/
def splitSlash : List Char → List (List Char)
  | [] => [[]]
  | c :: cs =>
    if c = '/' then [] :: splitSlash cs
    else match splitSlash cs with
      | [] => [[c]]
      | w :: ws => (c :: w) :: ws

/-- Go `strings.ReplaceAll(s, "/", "-")`. -/
def replaceSlash (s : String) : String :=
  String.mk (s.data.map (fun c => if c = '/' then '-' else c))

/-- Go `map[string]bool`, as the list of its entries. -/
abbrev AppliesPerProject := List (String × Bool)

/-- Go `m[k] = v`. -/
def mapSet : AppliesPerProject → String → Bool → AppliesPerProject
  | [], k, v => [(k, v)]
  | (k', v') :: m, k, v => if k' = k then (k, v) :: m else (k', v') :: mapSet m k v

/-- Go `v, ok := m[k]`. -/
def mapGet : AppliesPerProject → String → Option Bool
  | [], _ => none
  | (k', v') :: m, k => if k' = k then some v' else mapGet m k

/-- Modelled from the spec: `projectLock.LockId()` of `libs/locking`, which is
not part of the sources; lock keys are `{namespace}#{projectName}`. -/
def LockId (projectNamespace projectName : String) : String :=
  projectNamespace ++ "#" ++ projectName

/-- `reportPolicyError` (digger.go 176-190). -/
def reportPolicyError (projectName command requestedBy : String) : Prog String := do
  let msg := "User " ++ requestedBy ++ " is not allowed to perform action: " ++ command ++
    ". Check your policies :x:"
  let md : Bool ← perform .SupportsMarkdown
  if md then do
    let _ ← perform (.Report msg
      (.AsCollapsibleComment ("Policy violation for <b>" ++ projectName ++ " - " ++ command ++ "</b>") false))
    pure msg
  else do
    let _ ← perform (.Report msg
      (.AsComment ("Policy violation for " ++ projectName ++ " - " ++ command)))
    pure msg

/-- `reportApplyMergeabilityError` (digger.go 490-506). -/
def reportApplyMergeabilityError : Prog String := do
  let comment := "cannot perform Apply since the PR is not currently mergeable"
  let md : Bool ← perform .SupportsMarkdown
  if md then do
    let _ ← perform (.Report comment (.AsCollapsibleComment "Apply error" false))
    pure comment
  else do
    let _ ← perform (.Report comment (.AsComment "Apply error"))
    pure comment

/-- `reportTerraformPlanOutput` (digger.go 508-521). -/
def reportTerraformPlanOutput (plan : String) : Prog Unit := do
  let md : Bool ← perform .SupportsMarkdown
  let formatter := if md then Formatter.GetTerraformOutputAsCollapsibleComment "Plan output" true
    else Formatter.GetTerraformOutputAsComment "Plan output"
  let _ ← perform (.Report plan formatter)
  pure ()

/-- `reportEmptyPlanOutput` (digger.go 523-533). -/
def reportEmptyPlanOutput (projectId : String) : Prog Unit := do
  let _ ← perform (.Report ("→ No changes in terraform output for " ++ projectId) .identityFormatter)
  let _ ← perform .Suppress
  pure ()

/-- `ReportRunData` (digger.go 813-825).  The endpoint is handed to
`sendPostRequest` lower-cased; the call records it as read from the
environment. -/
def ReportRunData (planJsonOutput : String) (jobId : Int) : Prog (Option GoError) := do
  let plan_upload_destination : String ← perform (.Getenv "PLAN_UPLOAD_DESTINATION")
  let plan_upload_http_endpoint : String ← perform (.Getenv "PLAN_UPLOAD_HTTP_ENDPOINT")
  let plan_upload_http_method : String ← perform (.Getenv "PLAN_UPLOAD_HTTP_METHOD")
  if plan_upload_destination = "rest" ∧ plan_upload_http_endpoint ≠ "" ∧
      plan_upload_http_method ≠ "" then do
    let err : Option String ← perform (.sendPostRequest plan_upload_http_endpoint
      plan_upload_http_method planJsonOutput jobId)
    match err with
    | some e => pure (some (.text ("failed to create request: " ++ e)))
    | none => pure none
  else pure none

/-! ## `run` (digger.go 192-488) -/

/-- What `run` returns: `(*DiggerExecutorResult, string, string, error)`. -/
structure RunReturn where
  result : Option DiggerExecutorResult
  output : String
  planJson : String
  err : Option GoError
deriving DecidableEq, Repr

/-- The `return nil, msg, planJson, fmt.Errorf(msg)` of `run`. -/
def failWith (msg planJson : String) : RunReturn :=
  { result := none, output := msg, planJson := planJson, err := some (.format msg) }

/-- The case `"mantis plan", "mantis test"` of the switch in `run` (digger.go
261-346), followed, when the case falls out of the switch, by the final return
of `run` (digger.go 487).  `prNumber` is `*job.PullRequestNumber`. -/
def runPlan (job : Job) (SCMOrganisation SCMrepository : String) (prNumber : Int)
    (requestedBy projectNamespace : String) : Prog RunReturn := do
  let _ ← perform (.SendUsageRecord requestedBy job.EventName "plan")
  let err : Option String ← perform (.SetStatus prNumber "pending" (job.ProjectName ++ "/plan"))
  match err with
  | some e => pure (failWith ("Failed to set PR status. " ++ e) "")
  | none => do
    let p : PlanAnswer ← perform (.Plan projectNamespace job.ProjectName)
    let planJson := p.planJsonOutput
    match p.err with
    | some e => do
      let msg := "Failed to Run mantis plan command. " ++ e
      let err : Option String ← perform (.SetStatus prNumber "failure" (job.ProjectName ++ "/plan"))
      match err with
      | some e2 => pure (failWith ("Failed to set PR status. " ++ e2) planJson)
      | none => pure (failWith msg planJson)
    | none =>
      if p.planPerformed then do
        let finish : Prog RunReturn := do
          let err : Option String ←
            perform (.SetStatus prNumber "success" (job.ProjectName ++ "/plan"))
          match err with
          | some e => pure (failWith ("Failed to set PR status. " ++ e) planJson)
          | none =>
            match p.planSummary with
            | none => .panic "invalid memory address or nil pointer dereference"
            | some planSummary =>
              pure { result := some { TerraformOutput := p.plan,
                                      PlanResult := some { PlanSummary := planSummary,
                                                           TerraformJson := p.planJsonOutput } },
                     output := p.plan, planJson := planJson, err := none }
        if p.isNonEmptyPlan then do
          reportTerraformPlanOutput p.plan
          let chk : Except String (Bool × List String) ← perform
            (.CheckPlanPolicy SCMrepository SCMOrganisation job.ProjectName job.ProjectDir
              p.planJsonOutput)
          match chk with
          | .error e => pure (failWith ("Failed to validate plan. " ++ e) planJson)
          | .ok (planIsAllowed, messages) => do
            let summary := "Terraform plan validation check (" ++ job.ProjectName ++ ")"
            let md : Bool ← perform .SupportsMarkdown
            let planPolicyFormatter :=
              if md then Formatter.AsCollapsibleComment summary false else Formatter.AsComment summary
            let sm : String × Option String ← perform (.GetTfSummarizePlan p.planJsonOutput)
            if planIsAllowed = false then do
              let preformattedMessaged := messages.map (fun message => "    " ++ message)
              let planReportMessage := "Terraform plan failed validation checks :x:<br>" ++
                String.intercalate "<br>" preformattedMessaged
              let _ ← perform (.Report planReportMessage planPolicyFormatter)
              pure (failWith "Plan is not allowed" planJson)
            else do
              let _ ← perform (.Report
                "Terraform plan validation checks succeeded :white_check_mark:" planPolicyFormatter)
              let _ ← perform (.Report sm.1 (.AsComment "Terraform plan summary"))
              finish
        else do
          reportEmptyPlanOutput (LockId projectNamespace job.ProjectName)
          finish
      else
        pure { result := some {}, output := "", planJson := planJson, err := none }

/-- The case `"mantis apply"` of the switch in `run` (digger.go 347-439). -/
def runApply (command : String) (job : Job) (SCMOrganisation SCMrepository : String)
    (prNumber : Int) (requestedBy projectNamespace : String)
    (appliesPerProject : AppliesPerProject) : Prog (RunReturn × AppliesPerProject) := do
  let appliesPerProject := mapSet appliesPerProject job.ProjectName false
  let _ ← perform (.SendUsageRecord requestedBy job.EventName "apply")
  let err : Option String ← perform (.SetStatus prNumber "pending" (job.ProjectName ++ "/apply"))
  match err with
  | some e => pure (failWith ("Failed to set PR status. " ++ e) "", appliesPerProject)
  | none => do
    let merged : Except String Bool ← perform (.IsMerged prNumber)
    match merged with
    | .error e => pure (failWith ("Failed to check if PR is merged. " ++ e) "", appliesPerProject)
    | .ok isMerged => do
      let mergeable : Except String Bool ← perform (.IsMergeable prNumber)
      match mergeable with
      | .error e =>
        pure (failWith ("Failed to check if PR is mergeable. " ++ e) "", appliesPerProject)
      | .ok isMergeable =>
        if isMergeable = false ∧ isMerged = false then do
          let comment ← reportApplyMergeabilityError
          pure (failWith comment "", appliesPerProject)
        else do
          let access (planPolicyViolations : List String) : Prog (RunReturn × AppliesPerProject) := do
            let allowedToApply : Except String Bool ← perform
              (.CheckAccessPolicy SCMOrganisation SCMrepository job.ProjectName job.ProjectDir
                command job.PullRequestNumber requestedBy planPolicyViolations)
            match allowedToApply with
            | .error e =>
              pure (failWith ("Failed to run plan policy check before apply. " ++ e) "",
                appliesPerProject)
            | .ok false => do
              let msg ← reportPolicyError job.ProjectName command requestedBy
              pure ({ result := none, output := msg, planJson := "", err := some (.text msg) },
                appliesPerProject)
            | .ok true => do
              let a : ApplyAnswer ← perform (.Apply projectNamespace job.ProjectName)
              match a.err with
              | some _ => do
                -- the source shadows `err` here, so the message below is built
                -- from the nil result of `SetStatus`, printed `<nil>` by `%v`
                let err : Option String ←
                  perform (.SetStatus prNumber "failure" (job.ProjectName ++ "/apply"))
                match err with
                | some e2 =>
                  pure (failWith ("Failed to set PR status. " ++ e2) "", appliesPerProject)
                | none =>
                  pure (failWith "Failed to run mantis apply command. <nil>" "",
                    appliesPerProject)
              | none =>
                let result : RunReturn :=
                  { result := some { TerraformOutput := a.output, ApplyResult := some () },
                    output := a.output, planJson := "", err := none }
                if a.applyPerformed then do
                  let err : Option String ←
                    perform (.SetStatus prNumber "success" (job.ProjectName ++ "/apply"))
                  match err with
                  | some e2 =>
                    pure (failWith ("Failed to set PR status. " ++ e2) "", appliesPerProject)
                  | none => pure (result, mapSet appliesPerProject job.ProjectName true)
                else pure (result, appliesPerProject)
          let dest : String ← perform (.Getenv "PLAN_UPLOAD_DESTINATION")
          if dest ≠ "" then do
            let stored : Except String String ←
              perform (.RetrievePlanJson projectNamespace job.ProjectName)
            match stored with
            | .error e =>
              pure (failWith ("Failed to retrieve stored plan. " ++ e) "", appliesPerProject)
            | .ok terraformPlanJsonStr => do
              let chk : Except String (Bool × List String) ← perform
                (.CheckPlanPolicy SCMrepository SCMOrganisation job.ProjectName job.ProjectDir
                  terraformPlanJsonStr)
              match chk with
              | .error e =>
                pure (failWith ("Failed to check plan policy. " ++ e) "", appliesPerProject)
              | .ok (_, violations) => access violations
          else access []

/-- The switch of `run` (digger.go 259-488) and the final return. -/
def runSwitch (command : String) (job : Job) (SCMOrganisation SCMrepository : String)
    (PRNumber : Option Int) (prNumber : Int) (requestedBy projectNamespace : String)
    (planStorage : Bool) (appliesPerProject : AppliesPerProject) :
    Prog (RunReturn × AppliesPerProject) :=
  let done : RunReturn := { result := some {}, output := "", planJson := "", err := none }
  if command = "mantis plan" ∨ command = "mantis test" then do
    let r ← runPlan job SCMOrganisation SCMrepository prNumber requestedBy projectNamespace
    pure (r, appliesPerProject)
  else if command = "mantis apply" then
    runApply command job SCMOrganisation SCMrepository prNumber requestedBy projectNamespace
      appliesPerProject
  else if command = "mantis destroy" then do
    let _ ← perform (.SendUsageRecord requestedBy job.EventName "destroy")
    let err : Option String ← perform (.Destroy projectNamespace job.ProjectName)
    match err with
    | some e =>
      pure ({ result := none, output := "failed to run mantis destroy command: " ++ e,
              planJson := "", err := some (.text ("failed to Run mantis apply command. " ++ e)) },
        appliesPerProject)
    | none => pure (done, appliesPerProject)
  else if command = "mantis unlock" then do
    let _ ← perform (.SendUsageRecord requestedBy job.EventName "unlock")
    let err : Option String ← perform (.Unlock projectNamespace job.ProjectName)
    match err with
    | some e => pure (failWith ("Failed to unlock project. " ++ e) "", appliesPerProject)
    | none =>
      if planStorage then do
        let _ ← perform (.DeleteStoredPlan projectNamespace job.ProjectName PRNumber)
        pure (done, appliesPerProject)
      else pure (done, appliesPerProject)
  else if command = "mantis lock" then do
    let _ ← perform (.SendUsageRecord requestedBy job.EventName "lock")
    let err : Option String ← perform (.Lock projectNamespace job.ProjectName)
    match err with
    | some e => pure (failWith ("Failed to lock project. " ++ e) "", appliesPerProject)
    | none => pure (done, appliesPerProject)
  else
    pure (failWith ("Command \x27" ++ command ++ "\x27 is not supported") "", appliesPerProject)

/-- Go `run` (digger.go 192-488).  The map `appliesPerProject`, which the
source mutates in place, is returned with the result; `planStorage` tells
whether the plan storage is non-nil. -/
def run (command : String) (job : Job) (SCMOrganisation SCMrepository : String)
    (PRNumber : Option Int) (requestedBy projectNamespace : String) (planStorage : Bool)
    (appliesPerProject : AppliesPerProject) : Prog (RunReturn × AppliesPerProject) := do
  let allowedToPerformCommand : Except String Bool ← perform
    (.CheckAccessPolicy SCMOrganisation SCMrepository job.ProjectName job.ProjectDir command
      job.PullRequestNumber requestedBy [])
  match allowedToPerformCommand with
  | .error e =>
    pure ({ result := none, output := "error checking policy", planJson := "",
            err := some (.text ("error checking policy: " ++ e)) }, appliesPerProject)
  | .ok false => do
    let msg ← reportPolicyError job.ProjectName command requestedBy
    pure ({ result := none, output := msg, planJson := "", err := some (.text msg) },
      appliesPerProject)
  | .ok true => do
    let err : Option String ← perform (.PopulateAwsCredentialsEnvVarsForJob job)
    match err with
    | some e => .fatal ("failed to fetch AWS keys, " ++ e)
    | none =>
      match job.PullRequestNumber with
      | none => .panic "invalid memory address or nil pointer dereference"
      | some prNumber =>
        runSwitch command job SCMOrganisation SCMrepository PRNumber prNumber requestedBy
          projectNamespace planStorage appliesPerProject

/-! ## `RunJobs` (digger.go 72-174) -/

/-- The variables of `RunJobs` that its loops update. -/
structure LoopState where
  exectorResults : List DiggerExecutorResult
  appliesPerProject : AppliesPerProject
deriving DecidableEq, Repr

/-- How the loop over `job.Commands` ends: by exhaustion, by `break`, or by the
early `return` of `RunJobs` on a policy-check error. -/
inductive LoopExit where
  | finished (st : LoopState)
  | broke (st : LoopState)
  | returned (err : GoError)
deriving DecidableEq, Repr

/-- The loop over `job.Commands` (digger.go 86-121), for the job of index `i`. -/
def commandLoop (job : Job) (i : Nat) (SCMOrganisation SCMrepository : String)
    (planStorage : Bool) : List String → LoopState → Prog LoopExit
  | [], st => pure (.finished st)
  | command :: rest, st => do
    let allowedToPerformCommand : Except String Bool ← perform
      (.CheckAccessPolicy SCMOrganisation SCMrepository job.ProjectName job.ProjectDir command
        job.PullRequestNumber job.RequestedBy [])
    match allowedToPerformCommand with
    | .error e => pure (.returned (.text ("error checking policy: " ++ e)))
    | .ok false => do
      let _ ← reportPolicyError job.ProjectName command job.RequestedBy
      commandLoop job i SCMOrganisation SCMrepository planStorage rest
        { st with appliesPerProject := mapSet st.appliesPerProject job.ProjectName false }
    | .ok true => do
      let r ← run command job SCMOrganisation SCMrepository job.PullRequestNumber
        job.RequestedBy job.Namespace planStorage st.appliesPerProject
      match r.1.err with
      | some _ => do
        let _ ← perform (.ReportProjectRun (SCMOrganisation ++ "-" ++ SCMrepository)
          job.ProjectName "FAILED" command r.1.output)
        let appliesPerProject := mapSet r.2 job.ProjectName false
        match r.1.result with
        | some executorResult =>
          pure (.broke { exectorResults := st.exectorResults.set i executorResult,
                         appliesPerProject := appliesPerProject })
        | none =>
          pure (.broke { exectorResults := st.exectorResults,
                         appliesPerProject := appliesPerProject })
      | none =>
        match r.1.result with
        | none => .panic "invalid memory address or nil pointer dereference"
        | some executorResult => do
          let rd : RunDetails × Option String ← perform
            (.ReportProjectRun (SCMOrganisation ++ "-" ++ SCMrepository) job.ProjectName
              "SUCCESS" command r.1.output)
          let _ ← ReportRunData r.1.planJson rd.1.Id
          commandLoop job i SCMOrganisation SCMrepository planStorage rest
            { exectorResults := st.exectorResults.set i executorResult, appliesPerProject := r.2 }

/-- The loop over `jobs` (digger.go 81-122), from the job of index `i` on:
`.error` is the early return of `RunJobs`, `.ok` the end of the loop. -/
def jobLoop (planStorage : Bool) : List Job → Nat → LoopState → Prog (Except GoError LoopState)
  | [], _, st => pure (.ok st)
  | job :: rest, i, st =>
    match splitSlash job.Namespace.data with
    | SCMOrganisation :: SCMrepository :: _ => do
      let r ← commandLoop job i (String.mk SCMOrganisation) (String.mk SCMrepository)
        planStorage job.Commands st
      match r with
      | .returned e => pure (.error e)
      | .finished st' => jobLoop planStorage rest (i + 1) st'
      | .broke st' => jobLoop planStorage rest (i + 1) st'
    | _ => .panic "index out of range [1] with length 1"

/-- The part of `RunJobs` after the loops (digger.go 124-173). -/
def finalStatus (jobs : List Job) (jobId : String)
    (reportFinalStatusToBackend reportTerraformOutput : Bool) (prCommentId : Int)
    (st : LoopState) : Prog (Bool × Bool × Option GoError) :=
  let allAppliesSuccess := st.appliesPerProject.all (fun e => e.2)
  let atLeastOneApply : Bool := decide (st.appliesPerProject.length > 0)
  if allAppliesSuccess = true ∧ reportFinalStatusToBackend = true then do
    let fl : Except String (String × String) ← perform .Flush
    match fl with
    | .error e => pure (false, false, some (.text ("error while sending job comments " ++ e)))
    | .ok (_, jobPrCommentUrl) =>
      match jobs with
      | [] => .panic "index out of range [0] with length 0"
      | currentJob :: _ =>
        let repoNameForBackendReporting := replaceSlash currentJob.Namespace
        let projectNameForBackendReporting := currentJob.ProjectName
        match st.exectorResults with
        | [] => .panic "index out of range [0] with length 0"
        | r0 :: _ =>
          let planResult := r0.PlanResult
          let terraformOutput := if reportTerraformOutput then r0.TerraformOutput else ""
          match currentJob.PullRequestNumber with
          | none => .panic "invalid memory address or nil pointer dereference"
          | some prNumber => do
            let b : Option SerializedBatch × Option String ← perform
              (.ReportProjectJobStatus repoNameForBackendReporting projectNameForBackendReporting
                jobId "succeeded" planResult jobPrCommentUrl terraformOutput)
            match b.2 with
            | some e => pure (false, false, some (.text ("error while running command: " ++ e)))
            | none =>
              match b.1 with
              | none => .panic "invalid memory address or nil pointer dereference"
              | some batchResult => do
                let err : Option String ←
                  perform (.UpdateComment batchResult.Jobs prNumber prCommentId)
                match err with
                | some e => pure (false, false, some (.text e))
                | none => do
                  let err : Option String ← perform (.UpdateAggregateStatus batchResult)
                  match err with
                  | some e => pure (false, false, some (.text e))
                  | none => pure (allAppliesSuccess, atLeastOneApply, none)
  else pure (allAppliesSuccess, atLeastOneApply, none)

/-- The body of `RunJobs` without the deferred `reporter.Flush()`. -/
def RunJobsBody (jobs : List Job) (planStorage : Bool) (jobId : String)
    (reportFinalStatusToBackend reportTerraformOutput : Bool) (prCommentId : Int) :
    Prog (Bool × Bool × Option GoError) := do
  let exectorResults : List DiggerExecutorResult := List.replicate jobs.length {}
  let r ← jobLoop planStorage jobs 0 { exectorResults := exectorResults, appliesPerProject := [] }
  match r with
  | .error e => pure (false, false, some e)
  | .ok st =>
    finalStatus jobs jobId reportFinalStatusToBackend reportTerraformOutput prCommentId st

/-- Go `RunJobs` (digger.go 72-174): `(allAppliesSuccess, atLeastOneApply, err)`. -/
def RunJobs (jobs : List Job) (planStorage : Bool) (jobId : String)
    (reportFinalStatusToBackend reportTerraformOutput : Bool) (prCommentId : Int) :
    Prog (Bool × Bool × Option GoError) :=
  withDefer (do let _ ← perform .Flush; pure ())
    (RunJobsBody jobs planStorage jobId reportFinalStatusToBackend reportTerraformOutput
      prCommentId)

/-! ## `RunJob` and `runDriftDetection` (digger.go 535-748) -/

/-- Go `runDriftDetection` (digger.go 709-748): `(output, err)`.  The executor
is the one built for `executorNamespace` and `executorProject`; `notification`
tells whether the notification is non-nil. -/
def runDriftDetection (SCMOrganisation SCMrepository projectName requestedBy eventName : String)
    (executorNamespace executorProject : String) (notification : Bool) :
    Prog (String × Option GoError) := do
  let _ ← perform (.SendUsageRecord requestedBy eventName "drift-detect")
  let policyEnabled : Except String Bool ←
    perform (.CheckDriftPolicy SCMOrganisation SCMrepository projectName)
  match policyEnabled with
  | .error e =>
    let msg := "failed to check drift policy. " ++ e
    pure (msg, some (.format msg))
  | .ok false =>
    pure ("skipping this drift application since it is not enabled for this project", none)
  | .ok true => do
    let p : PlanAnswer ← perform (.Plan executorNamespace executorProject)
    match p.err with
    | some e =>
      let msg := "failed to Run mantis plan command. " ++ e
      pure (msg, some (.format msg))
    | none =>
      if p.planPerformed = true ∧ p.isNonEmptyPlan = true then
        if notification = false then pure (p.plan, none)
        else do
          let _ ← perform (.Send projectName p.plan)
          pure (p.plan, none)
      else pure (p.plan, none)

/-- The loop over `job.Commands` of `RunJob` (digger.go 550-704) with its
result, the `error` that `RunJob` returns.  `SCMOrganisation` and
`SCMrepository` are the two results of `utils.ParseRepoNamespace(repo)`, which
is not among the sources.  The access check gets a nil pull request number. -/
def RunJobCommands (job : Job) (repo requestedBy SCMOrganisation SCMrepository : String)
    (driftNotification : Bool) : List String → Prog (Option GoError)
  | [] => pure none
  | command :: rest => do
    let allowedToPerformCommand : Except String Bool ← perform
      (.CheckAccessPolicy SCMOrganisation SCMrepository job.ProjectName job.ProjectDir command
        none requestedBy [])
    match allowedToPerformCommand with
    | .error e => pure (some (.text ("error checking policy: " ++ e)))
    | .ok false => do
      let msg := "User " ++ requestedBy ++ " is not allowed to perform action: " ++ command ++
        ". Check your policies"
      let _ ← perform (.ReportProjectRun repo job.ProjectName "FORBIDDEN" command msg)
      pure (some (.text msg))
    | .ok true => do
      let err : Option String ← perform (.PopulateAwsCredentialsEnvVarsForJob job)
      match err with
      | some e => .fatal ("failed to fetch AWS keys, " ++ e)
      | none =>
        let next := RunJobCommands job repo requestedBy SCMOrganisation SCMrepository
          driftNotification rest
        if command = "mantis plan" then do
          let _ ← perform (.SendUsageRecord requestedBy job.EventName "plan")
          let p : PlanAnswer ← perform (.Plan repo job.ProjectName)
          match p.err with
          | some e => do
            let msg := "Failed to Run mantis plan command. " ++ e
            let _ ← perform (.ReportProjectRun repo job.ProjectName "FAILED" command msg)
            pure (some (.format msg))
          | none => do
            let chk : Except String (Bool × List String) ← perform
              (.CheckPlanPolicy SCMrepository SCMOrganisation job.ProjectName job.ProjectDir
                p.planJsonOutput)
            match chk with
            | .error e => do
              let msg := "Failed to validate plan " ++ e
              let _ ← perform (.ReportProjectRun repo job.ProjectName "FAILED" command msg)
              pure (some (.format msg))
            | .ok (planIsAllowed, _) =>
              if planIsAllowed = false then do
                let msg := "Plan is not allowed"
                let _ ← perform (.ReportProjectRun repo job.ProjectName "FAILED" command msg)
                pure (some (.format msg))
              else do
                let rd : RunDetails × Option String ← perform
                  (.ReportProjectRun repo job.ProjectName "SUCCESS" command p.plan)
                match rd.2 with
                | some _ => next
                | none => do
                  let _ ← ReportRunData p.planJsonOutput rd.1.Id
                  next
        else if command = "mantis apply" then do
          let _ ← perform (.SendUsageRecord requestedBy job.EventName "apply")
          let a : ApplyAnswer ← perform (.Apply repo job.ProjectName)
          match a.err with
          | some e => do
            let msg := "Failed to Run mantis apply command. " ++ e
            let _ ← perform (.ReportProjectRun repo job.ProjectName "FAILED" command msg)
            pure (some (.format msg))
          | none => do
            let _ ← perform (.ReportProjectRun repo job.ProjectName "SUCCESS" command a.output)
            next
        else if command = "mantis destroy" then do
          let _ ← perform (.SendUsageRecord requestedBy job.EventName "destroy")
          let err : Option String ← perform (.Destroy repo job.ProjectName)
          match err with
          | some e => pure (some (.text ("failed to Run mantis apply command. " ++ e)))
          | none => next
        else if command = "mantis drift-detect" then do
          let d ← runDriftDetection SCMOrganisation SCMrepository job.ProjectName requestedBy
            job.EventName repo job.ProjectName driftNotification
          match d.2 with
          | some err =>
            pure (some (.wrapped "failed to Run digger drift-detect command. " err))
          | none => do
            let _ ← perform (.ReportProjectRun repo job.ProjectName "SUCCESS" command d.1)
            next
        else next

/-- Go `RunJob` (digger.go 535-707). -/
def RunJob (job : Job) (repo requestedBy SCMOrganisation SCMrepository : String)
    (driftNotification : Bool) : Prog (Option GoError) :=
  RunJobCommands job repo requestedBy SCMOrganisation SCMrepository driftNotification
    job.Commands

/-! ## Properties of executions -/

section ExecDefs

variable {σ α β : Type}

/-- Continuation of an execution after its first part ended as `r` in state
`s` with trace `t`. -/
def andThen (h : Handler σ) (f : α → Prog β) (r : Res α × σ × List Event) :
    Res β × σ × List Event :=
  match r with
  | (.ok a, s, t) => ((exec h (f a) s).1, (exec h (f a) s).2.1, t ++ (exec h (f a) s).2.2)
  | (.panic m, s, t) => (.panic m, s, t)
  | (.fatal m, s, t) => (.fatal m, s, t)

/-- Every path of the program `p`, whatever the collaborators answer, ends in
an outcome `r` with a trace `t'` (started from the trace so far `t`) such that
`Q t' r`. -/
def Holds : Prog α → List Event → (List Event → Res α → Prop) → Prop
  | .ret a, t, Q => Q t (.ok a)
  | .panic m, t, Q => Q t (.panic m)
  | .fatal m, t, Q => Q t (.fatal m)
  | .call c k, t, Q => ∀ r : Resp c, Holds (k r) (t ++ [⟨c, r⟩]) Q

/-- The postcondition of the first part of a sequence. -/
def bindPost (f : α → Prog β) (Q : List Event → Res β → Prop) :
    List Event → Res α → Prop :=
  fun t r =>
    match r with
    | .ok a => Holds (f a) t Q
    | .panic m => Q t (.panic m)
    | .fatal m => Q t (.fatal m)

/-- The property `P` holds of every possible answer to the call `c`, spelled
out by the shape of the answer. -/
def allAnswers : (c : Call) → (Resp c → Prop) → Prop
  | .CheckAccessPolicy .., P => (∀ e, P (.error e)) ∧ P (.ok true) ∧ P (.ok false)
  | .CheckPlanPolicy .., P => (∀ e, P (.error e)) ∧ (∀ l, P (.ok (true, l))) ∧ ∀ l, P (.ok (false, l))
  | .CheckDriftPolicy .., P => (∀ e, P (.error e)) ∧ P (.ok true) ∧ P (.ok false)
  | .SupportsMarkdown, P => P true ∧ P false
  | .Report .., P => P none ∧ ∀ e, P (some e)
  | .Flush, P => (∀ e, P (.error e)) ∧ ∀ a b, P (.ok (a, b))
  | .Suppress, P => P ()
  | .SetStatus .., P => P none ∧ ∀ e, P (some e)
  | .IsMerged .., P => (∀ e, P (.error e)) ∧ P (.ok true) ∧ P (.ok false)
  | .IsMergeable .., P => (∀ e, P (.error e)) ∧ P (.ok true) ∧ P (.ok false)
  | .PopulateAwsCredentialsEnvVarsForJob .., P => P none ∧ ∀ e, P (some e)
  | .SendUsageRecord .., P => P none ∧ ∀ e, P (some e)
  | .Plan .., P => ∀ b c d e,
      (P ⟨none, b, c, d, e, none⟩ ∧ ∀ a, P ⟨some a, b, c, d, e, none⟩) ∧
        ∀ a x, P ⟨a, b, c, d, e, some x⟩
  | .Apply .., P => ∀ a b, P ⟨a, b, none⟩ ∧ ∀ x, P ⟨a, b, some x⟩
  | .Destroy .., P => P none ∧ ∀ e, P (some e)
  | .Lock .., P => P none ∧ ∀ e, P (some e)
  | .Unlock .., P => P none ∧ ∀ e, P (some e)
  | .RetrievePlanJson .., P => (∀ e, P (.error e)) ∧ ∀ a, P (.ok a)
  | .DeleteStoredPlan .., P => P none ∧ ∀ e, P (some e)
  | .GetTfSummarizePlan .., P => ∀ a b, P (a, b)
  | .Getenv .., P => ∀ a, P a
  | .ReportProjectRun .., P => ∀ a b, P (a, b)
  | .ReportProjectJobStatus .., P => ∀ a b, P (a, b)
  | .UpdateComment .., P => P none ∧ ∀ e, P (some e)
  | .UpdateAggregateStatus .., P => P none ∧ ∀ e, P (some e)
  | .sendPostRequest .., P => P none ∧ ∀ e, P (some e)
  | .Send .., P => P none ∧ ∀ e, P (some e)

end ExecDefs

/-! ## Classifying calls -/

/-- The call is the IaC apply of some project. -/
def Call.isApply : Call → Bool
  | .Apply .. => true
  | _ => false

/-- The call is the IaC apply of the project named `P`. -/
def Call.isApplyFor (P : String) : Call → Bool
  | .Apply _ p => p == P
  | _ => false

/-- The call is a `ReportProjectRun` to the backend. -/
def Call.isReportProjectRun : Call → Bool
  | .ReportProjectRun .. => true
  | _ => false

/-- The call is a `ReportProjectJobStatus` to the backend. -/
def Call.isReportProjectJobStatus : Call → Bool
  | .ReportProjectJobStatus .. => true
  | _ => false

/-- The call is an access-policy check. -/
def Call.isCheckAccessPolicy : Call → Bool
  | .CheckAccessPolicy .. => true
  | _ => false

/-- An IaC operation of the executor. -/
def Call.isIaC : Call → Bool
  | .Plan .. => true
  | .Apply .. => true
  | .Destroy .. => true
  | _ => false

/-- A project-lock operation of the executor. -/
def Call.isLock : Call → Bool
  | .Lock .. => true
  | .Unlock .. => true
  | _ => false

/-- A plan-store operation. -/
def Call.isPlanStore : Call → Bool
  | .RetrievePlanJson .. => true
  | .DeleteStoredPlan .. => true
  | _ => false

/-- A commit-status operation of the PR service. -/
def Call.isCommitStatus : Call → Bool
  | .SetStatus .. => true
  | _ => false

/-- The calls `run` can make for `job`: everything but the backend API, the
reporter flush, the comment updater, the HTTP upload and the drift policy and
notification; an apply is the apply of the job's own project. -/
def Call.inRun (job : Job) : Call → Bool
  | .Apply _ p => p == job.ProjectName
  | .ReportProjectRun .. => false
  | .ReportProjectJobStatus .. => false
  | .Flush => false
  | .UpdateComment .. => false
  | .UpdateAggregateStatus .. => false
  | .sendPostRequest .. => false
  | .CheckDriftPolicy .. => false
  | .Send .. => false
  | _ => true

/-- Number of calls of the trace that satisfy `P`. -/
def countCalls (P : Call → Bool) (t : List Event) : Nat := t.countP (fun e => P e.call)

/-- All calls of the trace satisfy `P`. -/
def allCalls (P : Call → Bool) (t : List Event) : Bool := t.all (fun e => P e.call)

/-- The property of the calls of one `run` for `job`: they are calls `run` can
make, and at most `n` of them are applies. -/
def runCallsOk (job : Job) (n : Nat) (t : List Event) : Prop :=
  allCalls (Call.inRun job) t = true ∧ countCalls Call.isApply t ≤ n

/-- On every path the program makes only calls that `run` can make for `job`,
at most `n` of them applies. -/
def CallsOk {α : Type} (job : Job) (n : Nat) (p : Prog α) : Prop :=
  Holds p [] (fun t _ => runCallsOk job n t)

/-- Number of times the command `"mantis apply"` is listed for the project
named `P` in the job list. -/
def applyCommands (P : String) : List Job → Nat
  | [] => 0
  | job :: rest =>
    (if job.ProjectName = P then job.Commands.count "mantis apply" else 0) + applyCommands P rest

/-- At most `n` calls of the trace are applies of the project `P` and at most
`m` are `ReportProjectJobStatus` calls. -/
def callsBound (P : String) (n m : Nat) (t : List Event) : Prop :=
  countCalls (Call.isApplyFor P) t ≤ n ∧ countCalls Call.isReportProjectJobStatus t ≤ m

/-- On every path of the program the calls are bounded as in `callsBound`. -/
def Bounded {α : Type} (P : String) (n m : Nat) (p : Prog α) : Prop :=
  Holds p [] (fun t _ => callsBound P n m t)

/-- Continuation of an execution by a deferred call: the deferred program
runs unless the process has exited, and the outcome of the body stands if the
deferred program returns. -/
def afterDefer {σ α : Type} (h : Handler σ) (d : Prog Unit) (r : Res α × σ × List Event) :
    Res α × σ × List Event :=
  match r with
  | (.fatal m, s, t) => (.fatal m, s, t)
  | (res, s, t) =>
    match exec h d s with
    | (.ok _, s', t') => (res, s', t ++ t')
    | (.panic m, s', t') => (.panic m, s', t ++ t')
    | (.fatal m, s', t') => (.fatal m, s', t ++ t')

/-- The body of the policy-violation comment of `reportPolicyError`, in the
words of the specification. -/
def policyMessage (requestedBy command : String) : String :=
  "User " ++ requestedBy ++ " is not allowed to perform action: " ++ command ++
    ". Check your policies :x:"

/-- The body of a report to the Reporter. -/
def Call.reportBody : Call → Option String
  | .Report body _ => some body
  | _ => none

/-- The project and command of an access-policy check. -/
def Call.accessChecked : Call → Option (String × String)
  | .CheckAccessPolicy _ _ projectName _ command _ _ _ => some (projectName, command)
  | _ => none

/-- The call belongs to a policy denial: the check, or the report of it. -/
def Call.isDenialCall : Call → Bool
  | .CheckAccessPolicy .. => true
  | .SupportsMarkdown => true
  | .Report .. => true
  | _ => false

/-- The policy-violation messages `RunJobs` owes for a job list in which every
command is denied: one per listed command, in order. -/
def denialMessages (jobs : List Job) : List String :=
  jobs.flatMap (fun j => j.Commands.map (policyMessage j.RequestedBy))

/-- The commands of a job list, each with the name of its project, in the
order of the list. -/
def listedCommands (jobs : List Job) : List (String × String) :=
  jobs.flatMap (fun j => j.Commands.map (fun c => (j.ProjectName, c)))

/-- The namespace has the form `{org}/{repo}` of the data model: it contains
a `/`. -/
def Job.hasRepoNamespace (j : Job) : Prop := '/' ∈ j.Namespace.data

instance (j : Job) : Decidable j.hasRepoNamespace := by
  unfold Job.hasRepoNamespace; exact inferInstance

/-- What the loop over the jobs does with the end of a command loop. -/
def afterCommands (k : LoopState → Prog LoopExit) : LoopExit → Prog LoopExit
  | .finished st => k st
  | .broke st => pure (.broke st)
  | .returned e => pure (.returned e)

/-- What the loop over the jobs does with the end of the loop over the jobs
before. -/
def afterJobs (k : LoopState → Prog (Except GoError LoopState)) :
    Except GoError LoopState → Prog (Except GoError LoopState)
  | .ok st => k st
  | .error e => pure (.error e)

/-- The results slice after a failed command: `exectorResults[i]` is overwritten
only when `run` returned a result with its error. -/
def resultsAfterFailure (results : List DiggerExecutorResult) (i : Nat)
    (result : Option DiggerExecutorResult) : List DiggerExecutorResult :=
  match result with
  | some executorResult => results.set i executorResult
  | none => results

/-- The events recorded before the first call that satisfies `P`, the latest
first; `none` when no call satisfies `P`. -/
def eventsBefore (P : Call → Bool) : List Event → Option (List Event)
  | [] => none
  | e :: t => if P e.call then some [] else (eventsBefore P t).map (fun l => l ++ [e])

/-- The comment of `reportApplyMergeabilityError`. -/
def notMergeableComment : String :=
  "cannot perform Apply since the PR is not currently mergeable"

/-- The event is `IsMerged` answering `(false, nil)`. -/
def Event.isMergedFalse : Event → Bool
  | ⟨.IsMerged _, r⟩ =>
    match (r : Except String Bool) with
    | .ok b => !b
    | .error _ => false
  | _ => false

/-- The event is `IsMergeable` answering `(false, nil)`. -/
def Event.isMergeableFalse : Event → Bool
  | ⟨.IsMergeable _, r⟩ =>
    match (r : Except String Bool) with
    | .ok b => !b
    | .error _ => false
  | _ => false

/-- What an execution of `run` for `"mantis apply"` looks like when `IsMerged`
and `IsMergeable` both answered `(false, nil)`: the apply is refused. -/
def applyRefused (job : Job) (o r u : String) (ap : AppliesPerProject) (t : List Event)
    (res : Res (RunReturn × AppliesPerProject)) : Prop :=
  t.any Event.isMergedFalse = true → t.any Event.isMergeableFalse = true →
    res = .ok (failWith notMergeableComment "", mapSet ap job.ProjectName false) ∧
    ∃ n f, job.PullRequestNumber = some n ∧ t.map Event.call =
      [.CheckAccessPolicy o r job.ProjectName job.ProjectDir "mantis apply"
          job.PullRequestNumber u [],
        .PopulateAwsCredentialsEnvVarsForJob job,
        .SendUsageRecord u job.EventName "apply",
        .SetStatus n "pending" (job.ProjectName ++ "/apply"),
        .IsMerged n, .IsMergeable n, .SupportsMarkdown, .Report notMergeableComment f]

/-- The event is `RetrievePlanJson` answering an error. -/
def Event.isRetrieveError : Event → Bool
  | ⟨.RetrievePlanJson _ _, r⟩ =>
    match (r : Except String String) with
    | .ok _ => false
    | .error _ => true
  | _ => false

/-- What an execution of `run` for `"mantis apply"` looks like around its call
of `Apply`.  The events before the first `Apply`, the latest first, start with
the access check answered `(true, nil)`; its violations are `[]` right after
`PLAN_UPLOAD_DESTINATION` was read as `""`, and otherwise those that
`CheckPlanPolicy` answered for the plan JSON that `RetrievePlanJson` answered,
after `PLAN_UPLOAD_DESTINATION` was read as a non-empty string.  And when
`RetrievePlanJson` answered an error, `run` returns an error and the
execution has no `Apply`. -/
def applyGuarded (job : Job) (o r u ns : String) (t : List Event)
    (res : Res (RunReturn × AppliesPerProject)) : Prop :=
  (∀ l, eventsBefore Call.isApply t = some l →
    ∃ v rest, l = (⟨.CheckAccessPolicy o r job.ProjectName job.ProjectDir "mantis apply"
        job.PullRequestNumber u v, .ok true⟩ : Event) :: rest ∧
      ((∃ rest', v = [] ∧ rest = (⟨.Getenv "PLAN_UPLOAD_DESTINATION", ""⟩ : Event) :: rest') ∨
       (∃ json allowed dest rest', dest ≠ "" ∧
         rest = (⟨.CheckPlanPolicy r o job.ProjectName job.ProjectDir json,
             .ok (allowed, v)⟩ : Event) ::
           (⟨.RetrievePlanJson ns job.ProjectName, .ok json⟩ : Event) ::
           (⟨.Getenv "PLAN_UPLOAD_DESTINATION", dest⟩ : Event) :: rest'))) ∧
  (t.any Event.isRetrieveError = true →
    (∃ rr ap e, res = .ok (rr, ap) ∧ rr.err = some e) ∧
    t.all (fun e => !e.call.isApply) = true)

/-- The answer of the event when it is an `Apply` call. -/
def Event.applyAnswer : Event → Option ApplyAnswer
  | ⟨.Apply _ _, a⟩ => some a
  | _ => none

/-- What an execution of `run` for `"mantis apply"` that returns a nil error
looks like: it called `Apply` once, for the project of the job, `Apply`
answered a nil error, and `appliesPerProject[job.ProjectName]` is the
`applyPerformed` that it answered. -/
def applyRecorded (job : Job) (ns : String) (t : List Event)
    (res : Res (RunReturn × AppliesPerProject)) : Prop :=
  ∀ rr ap, res = .ok (rr, ap) → rr.err = none →
    ∃ a : ApplyAnswer, t.filterMap Event.applyAnswer = [a] ∧
      (t.map Event.call).filter Call.isApply = [.Apply ns job.ProjectName] ∧
      a.err = none ∧ mapGet ap job.ProjectName = some a.applyPerformed

/-- The reasons of the event when it is `CheckPlanPolicy` answering
`allowed = false` with a nil error. -/
def Event.planDenied : Event → Option (List String)
  | ⟨.CheckPlanPolicy .., r⟩ =>
    match (r : Except String (Bool × List String)) with
    | .ok (false, reasons) => some reasons
    | _ => none
  | _ => none

/-- The message that `run` reports for a plan that fails the plan policy
(digger.go 305-310). -/
def planFailedMessage (messages : List String) : String :=
  "Terraform plan failed validation checks :x:<br>" ++
    String.intercalate "<br>" (messages.map (fun message => "    " ++ message))

/-- What an execution of `run` for `"mantis plan"` looks like when
`CheckPlanPolicy` answered `allowed = false` with `reasons`: the plan was
performed and is not empty, the last call reports `planFailedMessage reasons`,
and `run` returns the error `"Plan is not allowed"`. -/
def planRefused (job : Job) (o r u ns : String) (ap : AppliesPerProject) (t : List Event)
    (res : Res (RunReturn × AppliesPerProject)) : Prop :=
  ∀ reasons, reasons ∈ t.filterMap Event.planDenied →
    ∃ (n : Int) (p : PlanAnswer) (f1 f2 : Formatter), job.PullRequestNumber = some n ∧
      p.planPerformed = true ∧ p.isNonEmptyPlan = true ∧
      res = .ok (failWith "Plan is not allowed" p.planJsonOutput, ap) ∧
      t.map Event.call =
        [.CheckAccessPolicy o r job.ProjectName job.ProjectDir "mantis plan"
            job.PullRequestNumber u [],
          .PopulateAwsCredentialsEnvVarsForJob job,
          .SendUsageRecord u job.EventName "plan",
          .SetStatus n "pending" (job.ProjectName ++ "/plan"),
          .Plan ns job.ProjectName, .SupportsMarkdown, .Report p.plan f1,
          .CheckPlanPolicy r o job.ProjectName job.ProjectDir p.planJsonOutput,
          .SupportsMarkdown, .GetTfSummarizePlan p.planJsonOutput,
          .Report (planFailedMessage reasons) f2]

/-- Every result that the program can return satisfies `R`. -/
def Returns {α : Type} : Prog α → (α → Prop) → Prop
  | .ret a, R => R a
  | .panic _, _ => True
  | .fatal _, _ => True
  | .call _ k, R => ∀ r, Returns (k r) R

/-- The loop over the commands left `exectorResults` with `n` entries. -/
def LoopExit.keeps (n : Nat) : LoopExit → Prop
  | .finished st => st.exectorResults.length = n
  | .broke st => st.exectorResults.length = n
  | .returned _ => True

/-- The answer of the event when it is a `Flush` call. -/
def Event.flushAnswer : Event → Option (Except String (String × String))
  | ⟨.Flush, a⟩ => some a
  | _ => none

/-- The calls of `ReportProjectJobStatus` in an execution of the part of
`RunJobs` after the loops, for the first job `j0` and its result `r0`: one
call with the comment URL of the flush when the first call of the execution
is a flush that succeeded, and none otherwise. -/
def jobStatusReported (j0 : Job) (r0 : DiggerExecutorResult) (jobId : String) (rt : Bool)
    (t : List Event) (_ : Res (Bool × Bool × Option GoError)) : Prop :=
  (t.map Event.call).filter Call.isReportProjectJobStatus =
    match t.head?.bind Event.flushAnswer with
    | some (.ok (_, url)) =>
      [.ReportProjectJobStatus (replaceSlash j0.Namespace) j0.ProjectName jobId "succeeded"
        r0.PlanResult url (if rt then r0.TerraformOutput else "")]
    | _ => []

/-- The events of the part of `RunJobs` after the loops, which runs from the
state `s1` when the loops ended with the variables `st`, and not when they
ended by the early return, a panic or an exit. -/
def afterLoops {σ : Type} (h : Handler σ) (jobs : List Job) (jobId : String) (rf rt : Bool)
    (cid : Int) (res : Res (Except GoError LoopState)) (s1 : σ) : List Event :=
  match res with
  | .ok (.ok st) => trace h (finalStatus jobs jobId rf rt cid st) s1
  | _ => []

/-- The event is a `SetStatus` call that answered an error. -/
def Event.statusFailed : Event → Bool
  | ⟨.SetStatus .., r⟩ =>
    match (r : Option String) with
    | some _ => true
    | none => false
  | _ => false

/-- The status that the call sets for the commit-status context `ctx`. -/
def Call.statusFor (ctx : String) : Call → Option String
  | .SetStatus _ status statusContext => if statusContext = ctx then some status else none
  | _ => none

/-- The last status set for the context `ctx` in the trace, if any. -/
def lastStatus (ctx : String) (t : List Event) : Option String :=
  t.foldl (fun acc e => match e.call.statusFor ctx with
    | some status => some status
    | none => acc) none

/-- The answer of the event when it is a `Plan` call. -/
def Event.planAnswer : Event → Option PlanAnswer
  | ⟨.Plan _ _, p⟩ => some p
  | _ => none

/-- What an execution of `run` for `"mantis plan"` that set a commit status,
with no `SetStatus` call failing, and that returned looks like: `Plan` was
called once, and the last status set for `<project>/plan` is `"failure"` when
`Plan` failed, `"pending"` when no plan was performed, and `"success"` when
the plan was performed and `run` returns a nil error. -/
def planStatusSet (job : Job) (t : List Event) (res : Res (RunReturn × AppliesPerProject)) :
    Prop :=
  t.any Event.statusFailed = false → t.any (fun e => e.call.isCommitStatus) = true →
    ∀ rr ap, res = .ok (rr, ap) →
      ∃ p : PlanAnswer, t.filterMap Event.planAnswer = [p] ∧
        (p.err ≠ none → rr.err ≠ none ∧
          lastStatus (job.ProjectName ++ "/plan") t = some "failure") ∧
        (p.err = none → p.planPerformed = false → rr.err = none ∧
          lastStatus (job.ProjectName ++ "/plan") t = some "pending") ∧
        (p.planPerformed = true → rr.err = none →
          lastStatus (job.ProjectName ++ "/plan") t = some "success")

/-- No call of the trace is an IaC, lock, plan-store or commit-status
operation. -/
def noOperation {α : Type} (t : List Event) (_ : Res α) : Prop :=
  ∀ e ∈ t, e.call.isIaC = false ∧ e.call.isLock = false ∧ e.call.isPlanStore = false ∧
    e.call.isCommitStatus = false

/-- The answer of the event when it is a `CheckDriftPolicy` call. -/
def Event.driftAnswer : Event → Option (Except String Bool)
  | ⟨.CheckDriftPolicy .., d⟩ => some d
  | _ => none

/-- The call is the IaC plan. -/
def Call.isPlan : Call → Bool
  | .Plan .. => true
  | _ => false

/-- The call sends a drift notification. -/
def Call.isSend : Call → Bool
  | .Send .. => true
  | _ => false

/-- The message that `runDriftDetection` returns when the drift policy is not
enabled (digger.go 722). -/
def driftSkipMessage : String :=
  "skipping this drift application since it is not enabled for this project"

/-- What an execution of `runDriftDetection` looks like: the drift policy is
checked once, with answer `d`.  If `d` is `(true, nil)`, `Plan` is called
once, with answer `p`; when `p` has no error the result is `(p.plan, nil)`
and the sends are the one `Send(projectName, p.plan)` if the plan was
performed, is not empty and a notification is configured, and none otherwise.
If `d` is not `(true, nil)`, there is neither a `Plan` nor a `Send`, and for
`(false, nil)` the result is the skip message with a nil error. -/
def driftGated (projectName executorNamespace executorProject : String) (notification : Bool)
    (t : List Event) (res : Res (String × Option GoError)) : Prop :=
  ∃ d, t.filterMap Event.driftAnswer = [d] ∧
    (d = .ok true → ∃ p : PlanAnswer, t.filterMap Event.planAnswer = [p] ∧
      (t.map Event.call).filter Call.isPlan = [.Plan executorNamespace executorProject] ∧
      (p.err = none → res = .ok (p.plan, none) ∧
        (t.map Event.call).filter Call.isSend =
          if p.planPerformed = true ∧ p.isNonEmptyPlan = true ∧ notification = true
          then [.Send projectName p.plan] else []) ∧
      (p.err ≠ none → (∃ m e, res = .ok (m, some e)) ∧
        (t.map Event.call).filter Call.isSend = [])) ∧
    (d ≠ .ok true → (t.map Event.call).filter Call.isPlan = [] ∧
      (t.map Event.call).filter Call.isSend = []) ∧
    (d = .ok false → res = .ok (driftSkipMessage, none))

/-! ## `SortedCommandsByDependency` (digger.go 750-767) -/

/-- The dependency graph `graph.Graph[string, config.Project]` as far as the
sort reads it: the keys of its vertices, which are project names, and its
edges, `(u, v)` for an edge `u → v`. -/
structure DependencyGraph where
  vertices : List String
  edges : List (String × String)
deriving DecidableEq, Repr

/-- Modelled from the spec: a project is ready among the `remaining` ones when
no edge leads to it from one of them. -/
def isReady (edges : List (String × String)) (remaining : List String) (x : String) : Bool :=
  edges.all (fun e => !(e.2 == x && remaining.contains e.1))

/-- Modelled from the spec: the first of the names of the list that no other
name of the list is `less` than. -/
def leastBy (less : String → String → Bool) : List String → Option String
  | [] => none
  | x :: xs =>
    match leastBy less xs with
    | none => some x
    | some y => if less y x then some y else some x

/-- Modelled from the spec: the topological order of the `remaining` projects
in which, at every step, the `less`-least of the ready projects comes next;
`none` when projects remain and none is ready (a cycle).  One unit of `fuel`
is used for each project. -/
def sortFrom (edges : List (String × String)) (less : String → String → Bool) :
    Nat → List String → Option (List String)
  | 0, remaining => if remaining = [] then some [] else none
  | fuel + 1, remaining =>
    if remaining = [] then some []
    else
      match leastBy less (remaining.filter (isReady edges remaining)) with
      | none => none
      | some x => (sortFrom edges less fuel (remaining.erase x)).map (fun order => x :: order)

/-- Modelled from the spec: `graph.StableTopologicalSort` of the graph
library, which is not among the sources: "stable topological sort breaks ties
by lexicographic project name", so among the projects that are ready at the
same time the `less`-least comes first.  `none` is the error of a graph with a
cycle. -/
def StableTopologicalSort (g : DependencyGraph) (less : String → String → Bool) :
    Option (List String) :=
  sortFrom g.edges less g.vertices.length g.vertices

/-- Go `SortedCommandsByDependency` (digger.go 750-767); `s < s2` on Go strings
compares them character by character.  The error of the sort ends the
process through `log.Fatalf`. -/
def SortedCommandsByDependency (project : List Job) (dependencyGraph : DependencyGraph) :
    Res (List Job) :=
  match StableTopologicalSort dependencyGraph (fun s s2 => decide (s.data < s2.data)) with
  | none => .fatal "failed to sort commands by dependency"
  | some sortedGraph =>
    .ok (sortedGraph.foldl (fun sortedCommands node =>
      project.foldl (fun sortedCommands command =>
        if command.ProjectName = node then sortedCommands ++ [command] else sortedCommands)
        sortedCommands) [])

/-- The graph has no cycle: its projects can be ranked so that every edge
leads to a project of higher rank. -/
def DependencyGraph.Acyclic (g : DependencyGraph) : Prop :=
  ∃ rank : String → Nat, ∀ e ∈ g.edges, rank e.1 < rank e.2

/-- In the list, `u` comes before `v`. -/
def Before {α : Type} (u v : α) (l : List α) : Prop :=
  ∃ l1 l2, l = l1 ++ u :: l2 ∧ v ∈ l2

/-! ## The run controllers of the backend (runs.go) -/

namespace Controllers

/-- Modelled from the spec: the type `models.DiggerRunStatus`, which is not
among the sources, with the states of the spec's `RunStatus`; the source names
`models.RunPendingApproval`. -/
inductive DiggerRunStatus where
  | RunQueued
  | RunRunning
  | RunSucceeded
  | RunFailed
  | RunForbidden
  | RunPendingApproval
  | RunApproved
  | RunApplied
deriving DecidableEq, Repr

/-- Modelled from the spec: the text of a status, the name that the spec gives
it. -/
def DiggerRunStatus.text : DiggerRunStatus → String
  | .RunQueued => "Queued"
  | .RunRunning => "Running"
  | .RunSucceeded => "Succeeded"
  | .RunFailed => "Failed"
  | .RunForbidden => "Forbidden"
  | .RunPendingApproval => "PendingApproval"
  | .RunApproved => "Approved"
  | .RunApplied => "Applied"

/-- Modelled from the spec: `models.Organisation`, of which the controllers
read `ID`. -/
structure Organisation where
  ID : Nat
deriving DecidableEq, Repr

/-- Modelled from the spec: `models.Repo`, of which the controllers read `ID`
and `OrganisationID`. -/
structure Repo where
  ID : Nat
  OrganisationID : Nat
deriving DecidableEq, Repr

/-- Modelled from the spec: `models.DiggerRun` with the fields that the
controllers read and write; `ApprovalDate` is a time stamp. -/
structure DiggerRun where
  ID : Nat
  Repo : Repo
  Status : DiggerRunStatus
  IsApproved : Bool
  ApprovalAuthor : String
  ApprovalDate : Nat
deriving DecidableEq, Repr

/-- Modelled from the spec: `models.Project`, of which `RunsForProject` reads
`Name`, `OrganisationID` and `Repo.ID`. -/
structure Project where
  ID : Nat
  Name : String
  OrganisationID : Nat
  Repo : Repo
deriving DecidableEq, Repr

/-- The error of the organisation query: `gorm.ErrRecordNotFound` or another
one. -/
inductive DbError where
  | ErrRecordNotFound
  | other (msg : String)
deriving DecidableEq, Repr

/-- The value given to `c.JSON`: the serialised run, or the map with the
serialised runs under `"runs"`. -/
inductive Payload where
  | run (serialized : String)
  | runs (serializedRuns : List String)
deriving DecidableEq, Repr

/-- What a handler writes with `c.String(code, body)` or `c.JSON(code, obj)`. -/
inductive Reply where
  | str (code : Nat) (body : String)
  | json (code : Nat) (obj : Payload)
deriving DecidableEq, Repr

/-- The HTTP status code of the reply. -/
def Reply.code : Reply → Nat
  | .str code _ => code
  | .json code _ => code

/-- What the handlers read off the `gin.Context`: the value stored under
`middleware.ORGANISATION_ID_KEY`, if any, and the path parameters. -/
structure Context where
  currentOrg : Option Nat
  Param : String → String

/-- The operations of `models.DB` that the controllers call, and the method
`MapToJsonStruct` of a run; none of them is among the sources, so they are
parameters.  `σ` is the state of the store. -/
structure Database (σ : Type) where
  FirstOrganisation : σ → Nat → Except DbError Organisation
  GetDiggerRun : σ → Nat → Except String DiggerRun
  UpdateDiggerRun : σ → DiggerRun → Option String × σ
  GetProject : σ → Nat → Except String Project
  ListDiggerRunsForProject : σ → String → Nat → Except String (List DiggerRun)
  MapToJsonStruct : σ → DiggerRun → Except String String

/-- What a handler did: the replies it wrote, in order, the runs it passed to
`UpdateDiggerRun`, whether it panicked, and the state of the store after it. -/
structure Handled (σ : Type) where
  replies : List Reply
  updates : List DiggerRun
  panicked : Bool
  db : σ

/-- Go `strconv.Atoi`: an optional sign and decimal digits, within the range
of a 64-bit `int`. -/
def Atoi (s : String) : Option Int :=
  let parse (neg : Bool) (digits : List Char) : Option Int :=
    if digits = [] ∨ digits.all Char.isDigit = false then none
    else
      let n : Nat := digits.foldl (fun acc ch => acc * 10 + (ch.toNat - 48)) 0
      let v : Int := if neg then -(n : Int) else (n : Int)
      if v < -(2 ^ 63 : Int) ∨ (2 ^ 63 : Int) - 1 < v then none else some v
  match s.data with
  | '-' :: digits => parse true digits
  | '+' :: digits => parse false digits
  | digits => parse false digits

/-- Go `uint(n)` for a 64-bit `int`. -/
def toUint (n : Int) : Nat := (n % (2 ^ 64 : Int)).toNat

/-- A handler that wrote one reply and returned. -/
def replied {σ : Type} (s : σ) (r : Reply) : Handled σ :=
  { replies := [r], updates := [], panicked := false, db := s }

/-- The organisation of the caller (runs.go 208-217 and its copies): the reply
of the handler when the query fails. -/
def lookupOrganisation {σ : Type} (db : Database σ) (s : σ) (currentOrg : Nat) :
    Except Reply Organisation :=
  match db.FirstOrganisation s currentOrg with
  | .error .ErrRecordNotFound =>
    .error (.str 404 ("Could not find organisation: " ++ toString currentOrg))
  | .error (.other _) => .error (.str 500 "Unknown error occurred while fetching database")
  | .ok org => .ok org

/-- Go `RunDetails` (runs.go 138-185).  After a failed `GetDiggerRun` the
handler writes its reply and goes on to `run.Repo` of the nil run, where it
panics. -/
def RunDetails {σ : Type} (db : Database σ) (c : Context) (s : σ) : Handled σ :=
  let runIdStr := c.Param "run_id"
  if runIdStr = "" then replied s (.str 400 "RunID not specified")
  else
    match Atoi runIdStr with
    | none => replied s (.str 400 "Invalid RunId")
    | some runId =>
      match c.currentOrg with
      | none => replied s (.str 403 "Not allowed to access this resource")
      | some currentOrg =>
        match lookupOrganisation db s currentOrg with
        | .error r => replied s r
        | .ok org =>
          match db.GetDiggerRun s (toUint runId) with
          | .error _ =>
            { replies := [.str 400 "Could not fetch run, please check that it exists"],
              updates := [], panicked := true, db := s }
          | .ok run =>
            if run.Repo.OrganisationID ≠ org.ID then
              replied s (.str 403 "Not allowed to access this resource")
            else
              match db.MapToJsonStruct s run with
              | .error _ => replied s (.str 500 "Could not unmarshall data")
              | .ok response => replied s (.json 200 (.run response))

/-- Go `ApproveRun` (runs.go 187-254); `now` is the value of `time.Now()`. -/
def ApproveRun {σ : Type} (db : Database σ) (now : Nat) (c : Context) (s : σ) : Handled σ :=
  let runIdStr := c.Param "run_id"
  if runIdStr = "" then replied s (.str 400 "RunID not specified")
  else
    match Atoi runIdStr with
    | none => replied s (.str 400 "Invalid RunId")
    | some runId =>
      match c.currentOrg with
      | none => replied s (.str 403 "Not allowed to access this resource")
      | some currentOrg =>
        match lookupOrganisation db s currentOrg with
        | .error r => replied s r
        | .ok org =>
          match db.GetDiggerRun s (toUint runId) with
          | .error _ =>
            { replies := [.str 400 "Could not fetch run, please check that it exists"],
              updates := [], panicked := true, db := s }
          | .ok run =>
            if run.Repo.OrganisationID ≠ org.ID then
              replied s (.str 403 "Not allowed to access this resource")
            else if run.Status ≠ .RunPendingApproval then
              replied s (.str 400 ("Approval not possible for run (" ++ toString run.ID ++
                ") because status is " ++ run.Status.text))
            else
              let respond (run : DiggerRun) (written : List Reply) (updates : List DiggerRun)
                  (s : σ) : Handled σ :=
                match db.MapToJsonStruct s run with
                | .error _ =>
                  { replies := written ++ [.str 500 "Could not unmarshall data"],
                    updates := updates, panicked := false, db := s }
                | .ok response =>
                  { replies := written ++ [.json 200 (.run response)],
                    updates := updates, panicked := false, db := s }
              if run.IsApproved = false then
                let run : DiggerRun :=
                  { run with ApprovalAuthor := "a_user", IsApproved := true, ApprovalDate := now }
                match db.UpdateDiggerRun s run with
                | (some _, s) => respond run [.str 500 "Could not update approval"] [run] s
                | (none, s) => respond run [] [run] s
              else respond run [] [] s

/-- The loop of `RunsForProject` that serialises the runs (runs.go 71-80):
the serialised runs, or nothing when one run cannot be serialised. -/
def serializeRuns {σ : Type} (db : Database σ) (s : σ) : List DiggerRun → Option (List String)
  | [] => some []
  | run :: runs =>
    match db.MapToJsonStruct s run with
    | .error _ => none
    | .ok serializedRun => (serializeRuns db s runs).map (fun rest => serializedRun :: rest)

/-- Go `RunsForProject` (runs.go 19-84). -/
def RunsForProject {σ : Type} (db : Database σ) (c : Context) (s : σ) : Handled σ :=
  let projectIdStr := c.Param "project_id"
  if projectIdStr = "" then replied s (.str 400 "ProjectId not specified")
  else
    match Atoi projectIdStr with
    | none => replied s (.str 400 "Invalid ProjectId")
    | some projectId =>
      match c.currentOrg with
      | none => replied s (.str 403 "Not allowed to access this resource")
      | some currentOrg =>
        match lookupOrganisation db s currentOrg with
        | .error r => replied s r
        | .ok org =>
          match db.GetProject s (toUint projectId) with
          | .error _ => replied s (.str 500 "Could not fetch project")
          | .ok project =>
            if project.OrganisationID ≠ org.ID then
              replied s (.str 403 "No access to this project")
            else
              match db.ListDiggerRunsForProject s project.Name project.Repo.ID with
              | .error _ => replied s (.str 500 "Could not fetch runs")
              | .ok runs =>
                match serializeRuns db s runs with
                | none => replied s (.str 500 "Could not unmarshal runs")
                | some serializedRuns => replied s (.json 200 (.runs serializedRuns))

end Controllers

/-- Every panic that the program can end in has a message that satisfies `M`. -/
def PanicsOnly {α : Type} : Prog α → (String → Prop) → Prop
  | .ret _, _ => True
  | .panic m, M => M m
  | .fatal _, _ => True
  | .call _ k, M => ∀ r, PanicsOnly (k r) M

/-- The message of the Go panic of `jobs[0]` or `exectorResults[0]` on an
empty slice. -/
def indexZeroOutOfRange : String := "index out of range [0] with length 0"

/-- The answer to a call without the allowed/denied boolean of
`CheckPlanPolicy`, which is set to `true`; the violations and the error stay. -/
def withoutVerdict : (c : Call) → Resp c → Resp c
  | .CheckPlanPolicy .., r =>
    match (r : Except String (Bool × List String)) with
    | .ok (_, violations) => .ok (true, violations)
    | .error e => .error e
  | _, r => r

/-- The event without the allowed/denied boolean of `CheckPlanPolicy`. -/
def Event.withoutVerdict (e : Event) : Event := ⟨e.call, Mantis.withoutVerdict e.call e.resp⟩

/-- The collaborators `h1` and `h2` answer every call in every state
identically, except for the allowed/denied boolean of `CheckPlanPolicy`. -/
def SameButVerdict {σ : Type} (h1 h2 : Handler σ) : Prop :=
  ∀ c s, withoutVerdict c (h1 c s).1 = withoutVerdict c (h2 c s).1 ∧ (h1 c s).2 = (h2 c s).2

/-- The program goes on in the same way whatever the allowed/denied boolean
of a `CheckPlanPolicy` answer is. -/
def IgnoresVerdict {α : Type} : Prog α → Prop
  | .call c k => ∀ r, k r = k (withoutVerdict c r) ∧ IgnoresVerdict (k r)
  | _ => True

/-- The event is an access check for the project `P` that answered
`(false, nil)`: a command of `P` was denied, by the check of `RunJobs` or by
one of the checks of `run`. -/
def Event.deniedFor (P : String) : Event → Bool
  | ⟨.CheckAccessPolicy _ _ projectName _ _ _ _ _, r⟩ =>
    match (r : Except String Bool) with
    | .ok false => decide (projectName = P)
    | _ => false
  | _ => false

/-- The event is the report of a run of the project `P` as `"FAILED"`, which
`RunJobs` makes when `run` returned an error. -/
def Event.failedFor (P : String) : Event → Bool
  | ⟨.ReportProjectRun _ projectName status _ _, _⟩ =>
    decide (projectName = P ∧ status = "FAILED")
  | _ => false

/-- The event is the first commit status of the case `"mantis apply"` of `run`
for the project `P`: the status `"pending"` of `<P>/apply`. -/
def Event.applyDispatchedFor (P : String) : Event → Bool
  | ⟨.SetStatus _ status statusContext, _⟩ =>
    decide (status = "pending" ∧ statusContext = P ++ "/apply")
  | _ => false

/-- The event is an `Apply` of the project `P` that was performed and returned
no error. -/
def Event.appliedFor (P : String) : Event → Bool
  | ⟨.Apply _ projectName, a⟩ =>
    decide (projectName = P ∧ a.applyPerformed = true ∧ a.err = none)
  | _ => false

/-- The event shows a command of the project `P` that was denied, that failed
in `run`, or that was a `"mantis apply"` that reached the dispatch. -/
def Event.marksFailure (P : String) (e : Event) : Bool :=
  e.deniedFor P || e.failedFor P || e.applyDispatchedFor P

/-- What the event says about the entry of the project `P` in
`appliesPerProject`, if anything. -/
def Event.verdictFor (P : String) (e : Event) : Option Bool :=
  if e.appliedFor P then some true else if e.marksFailure P then some false else none

/-- The entry of `P` after the event `e`, when it was `acc` before. -/
def verdictStep (P : String) (acc : Option Bool) (e : Event) : Option Bool :=
  match e.verdictFor P with
  | some v => some v
  | none => acc

/-- What the last event of the trace that says something about the project
`P` says. -/
def lastVerdict (P : String) (t : List Event) : Option Bool := t.foldl (verdictStep P) none

/-- What an execution of `run` for `job` that returns does to
`appliesPerProject` and which events it records: nothing for another project;
for the project of the job, when the error is nil, the entry is the one that
the events give; and a performed `Apply` comes with the dispatch of an
apply. -/
def runVerdicts (job : Job) (ap : AppliesPerProject) (t : List Event)
    (res : Res (RunReturn × AppliesPerProject)) : Prop :=
  ∀ rr ap1, res = .ok (rr, ap1) →
    (∀ P, job.ProjectName ≠ P → mapGet ap1 P = mapGet ap P ∧ ∀ e ∈ t, e.verdictFor P = none) ∧
    (rr.err = none → mapGet ap1 job.ProjectName =
      t.foldl (verdictStep job.ProjectName) (mapGet ap job.ProjectName)) ∧
    ((∃ e ∈ t, e.appliedFor job.ProjectName = true) →
      ∃ e ∈ t, e.applyDispatchedFor job.ProjectName = true)

/-- The entries of `appliesPerProject` are those that the events of the trace
give, and the trace has the dispatch of an apply for every project with a
performed `Apply`. -/
def verdictsRecorded (ap : AppliesPerProject) (t : List Event) : Prop :=
  (∀ P, mapGet ap P = lastVerdict P t) ∧
  ∀ P, (∃ e ∈ t, e.appliedFor P = true) → ∃ e ∈ t, e.marksFailure P = true

/-- The loop over the commands left `appliesPerProject` as the events of the
trace give it. -/
def LoopExit.recorded (t : List Event) : LoopExit → Prop
  | .finished st => verdictsRecorded st.appliesPerProject t
  | .broke st => verdictsRecorded st.appliesPerProject t
  | .returned _ => True

/-- What an execution of `RunJobs` that returns a nil error looks like:
`appliesPerProject` is as the events of the trace give it, and the two booleans
are computed from it. -/
def batchVerdicts (t : List Event) (res : Res (Bool × Bool × Option GoError)) : Prop :=
  ∀ a b, res = .ok (a, b, none) →
    ∃ ap : AppliesPerProject, verdictsRecorded ap t ∧ a = ap.all (fun e => e.2) ∧
      b = decide (ap.length > 0)

/-- The event is a `CheckAccessPolicy` call that answered an error. -/
def Event.accessCheckFailed : Event → Bool
  | ⟨.CheckAccessPolicy .., r⟩ =>
    match (r : Except String Bool) with
    | .error _ => true
    | .ok _ => false
  | _ => false

/-! ## Concrete collaborators and jobs -/

/-- Collaborators without state that allow every command, answer every call
without error, report a non-empty plan and a mergeable pull request. -/
def allowAll : Handler Unit := fun c s =>
  match c with
  | .CheckAccessPolicy .. => (.ok true, s)
  | .CheckPlanPolicy .. => (.ok (true, []), s)
  | .CheckDriftPolicy .. => (.ok true, s)
  | .SupportsMarkdown => (true, s)
  | .Report .. => (none, s)
  | .Flush => (.ok ("1", "url"), s)
  | .Suppress => ((), s)
  | .SetStatus .. => (none, s)
  | .IsMerged .. => (.ok false, s)
  | .IsMergeable .. => (.ok true, s)
  | .PopulateAwsCredentialsEnvVarsForJob .. => (none, s)
  | .SendUsageRecord .. => (none, s)
  | .Plan .. => (⟨some ⟨1, 0, 0⟩, true, true, "plan", "{}", none⟩, s)
  | .Apply .. => (⟨true, "applied", none⟩, s)
  | .Destroy .. => (none, s)
  | .Lock .. => (none, s)
  | .Unlock .. => (none, s)
  | .RetrievePlanJson .. => (.ok "{}", s)
  | .DeleteStoredPlan .. => (none, s)
  | .GetTfSummarizePlan .. => (("summary", none), s)
  | .Getenv .. => ("", s)
  | .ReportProjectRun .. => (({}, none), s)
  | .ReportProjectJobStatus .. => ((some ⟨[]⟩, none), s)
  | .UpdateComment .. => (none, s)
  | .UpdateAggregateStatus .. => (none, s)
  | .sendPostRequest .. => (none, s)
  | .Send .. => (none, s)

/-- As `allowAll`, but the access policy denies every command. -/
def denyAll : Handler Unit := fun c s =>
  match c with
  | .CheckAccessPolicy .. => (.ok false, s)
  | c => allowAll c s

/-- The job of the spec's scenarios: project `web` of `o/r`, requested by
`alice`, with the single command `"mantis plan"`. -/
def webJob : Job :=
  { Namespace := "o/r", ProjectName := "web", ProjectDir := "web", ProjectWorkspace := "default",
    ProjectWorkflow := "default", Terragrunt := false, OpenTofu := false,
    Commands := ["mantis plan"], EventName := "issue_comment", PullRequestNumber := some 1,
    RequestedBy := "alice" }

/-- As `allowAll`, but the pull request is neither merged nor mergeable. -/
def notMergeable : Handler Unit := fun c s =>
  match c with
  | .IsMergeable .. => (.ok false, s)
  | c => allowAll c s

/-- A job of project `web` that lists `"mantis apply"`, then `"mantis plan"`. -/
def applyThenPlanJob : Job := { webJob with Commands := ["mantis apply", "mantis plan"] }

/-- A job of project `api` with the single command `"mantis lock"`. -/
def lockJob : Job :=
  { webJob with ProjectName := "api", ProjectDir := "api", Commands := ["mantis lock"] }

/-- Collaborators with a plan store: as `allowAll`, but
`PLAN_UPLOAD_DESTINATION` is `"gcp"` and the plan policy answers the
violation `"rule A"` for the stored plan. -/
def planStored : Handler Unit := fun c s =>
  match c with
  | .Getenv .. => ("gcp", s)
  | .CheckPlanPolicy .. => (.ok (false, ["rule A"]), s)
  | c => allowAll c s

/-- As `planStored`, but the stored plan cannot be retrieved. -/
def planLost : Handler Unit := fun c s =>
  match c with
  | .RetrievePlanJson .. => (.error "not found", s)
  | c => planStored c s

/-- As `allowAll`, but `Apply` answers that no apply was performed, with a
nil error. -/
def applySkipped : Handler Unit := fun c s =>
  match c with
  | .Apply .. => (⟨false, "", none⟩, s)
  | c => allowAll c s

/-- The job `webJob` with the single command `"mantis apply"`. -/
def applyJob : Job := { webJob with Commands := ["mantis apply"] }

/-- As `allowAll`, but the plan policy rejects the plan with the reasons
`"rule A"` and `"rule B"`. -/
def planRejected : Handler Unit := fun c s =>
  match c with
  | .CheckPlanPolicy .. => (.ok (false, ["rule A", "rule B"]), s)
  | c => allowAll c s

/-- A job of project `web` that lists `"mantis plan"`, then `"mantis apply"`. -/
def planThenApplyJob : Job := { webJob with Commands := ["mantis plan", "mantis apply"] }

/-- A job of project `web` with no command and no pull request number. -/
def noPullRequestJob : Job := { webJob with Commands := [], PullRequestNumber := none }

/-- As `allowAll`, but `Plan` answers that no plan was performed, with a nil
error. -/
def planSkipped : Handler Unit := fun c s =>
  match c with
  | .Plan .. => (⟨none, false, false, "", "", none⟩, s)
  | c => allowAll c s

/-- The job `webJob` with the single command `"mantis upgrade"`, which is not
a command of the pipeline. -/
def unknownCommandJob : Job := { webJob with Commands := ["mantis upgrade"] }

/-- As `allowAll`, but the drift notification cannot be sent. -/
def sendFails : Handler Unit := fun c s =>
  match c with
  | .Send .. => (some "webhook down", s)
  | c => allowAll c s

/-- The dependency graph of the spec's scenario: `A → B` and `A → C`. -/
def abcGraph : DependencyGraph :=
  { vertices := ["C", "B", "A"], edges := [("A", "B"), ("A", "C")] }

/-- A job of the project `name`. -/
def projectJob (name : String) : Job := { webJob with ProjectName := name, ProjectDir := name }

namespace Controllers

/-- Modelled from the spec: a store that keeps the organisations, runs and
projects in lists. -/
structure Store where
  organisations : List Organisation
  runs : List DiggerRun
  projects : List Project
deriving DecidableEq, Repr

/-- Modelled from the spec: the operations of `models.DB` on a `Store`, none
of which fails on a record that exists; `UpdateDiggerRun` replaces the run of
the same `ID`.  A run is serialised to a line of text if `serializable`, and
`MapToJsonStruct` fails otherwise. -/
def memoryDb (serializable : Bool) : Database Store where
  FirstOrganisation := fun s id =>
    match s.organisations.find? (fun o => o.ID == id) with
    | some org => .ok org
    | none => .error .ErrRecordNotFound
  GetDiggerRun := fun s id =>
    match s.runs.find? (fun r => r.ID == id) with
    | some run => .ok run
    | none => .error "record not found"
  UpdateDiggerRun := fun s run =>
    (none, { s with runs := s.runs.map (fun r => if r.ID = run.ID then run else r) })
  GetProject := fun s id =>
    match s.projects.find? (fun p => p.ID == id) with
    | some project => .ok project
    | none => .error "record not found"
  ListDiggerRunsForProject := fun s _ repoId => .ok (s.runs.filter (fun r => r.Repo.ID == repoId))
  MapToJsonStruct := fun _ run =>
    if serializable then
      .ok ("run " ++ toString run.ID ++ " " ++ run.Status.text ++ " approved=" ++
        toString run.IsApproved ++ " by=" ++ run.ApprovalAuthor ++ " at=" ++
        toString run.ApprovalDate)
    else .error "stage not found"

/-- The run of the spec's scenario: run 7 of the repository 1 of organisation
1, pending approval and not approved. -/
def pendingRun : DiggerRun :=
  { ID := 7, Repo := { ID := 1, OrganisationID := 1 }, Status := .RunPendingApproval,
    IsApproved := false, ApprovalAuthor := "", ApprovalDate := 0 }

/-- A run of the same repository that has been applied. -/
def appliedRun : DiggerRun :=
  { ID := 8, Repo := { ID := 1, OrganisationID := 1 }, Status := .RunApplied,
    IsApproved := true, ApprovalAuthor := "a_user", ApprovalDate := 5 }

/-- A store with the organisations 1 and 2, the two runs and one project of
organisation 1. -/
def store : Store :=
  { organisations := [{ ID := 1 }, { ID := 2 }], runs := [pendingRun, appliedRun],
    projects := [{ ID := 3, Name := "web", OrganisationID := 1,
                   Repo := { ID := 1, OrganisationID := 1 } }] }

/-- The request of the organisation `org` with the path parameter `id` for
both `run_id` and `project_id`. -/
def request (org : Nat) (id : String) : Context :=
  { currentOrg := some org, Param := fun _ => id }

end Controllers

/-- As `planStored`, but the plan policy allows the stored plan, with the same
violation `"rule A"`. -/
def planStoredAllowed : Handler Unit := fun c s =>
  match c with
  | .CheckPlanPolicy .. => (.ok (true, ["rule A"]), s)
  | c => planStored c s

/-- A job of project `api` with the single command `"mantis lock"` and no pull
request number. -/
def lockWithoutPullRequestJob : Job := { lockJob with PullRequestNumber := none }

/-- A job of project `db` with the single command `"mantis lock"`. -/
def dbLockJob : Job := { lockJob with ProjectName := "db", ProjectDir := "db" }

/-- The job `webJob` with the namespace `"o"`, which names no repository. -/
def noRepositoryJob : Job := { webJob with Namespace := "o" }

/-! # Theorems -/

/-! ## Reasoning about executions -/

section ExecLemmas

variable {σ α β : Type}

theorem pure_def (a : α) : (pure a : Prog α) = Prog.ret a := rfl

theorem bind_def (p : Prog α) (f : α → Prog β) : (p >>= f) = Prog.bind p f := rfl

@[simp] theorem exec_ret (h : Handler σ) (a : α) (s : σ) :
    exec h (Prog.ret a) s = (.ok a, s, []) := rfl

@[simp] theorem exec_pure (h : Handler σ) (a : α) (s : σ) :
    exec h (pure a : Prog α) s = (.ok a, s, []) := rfl

@[simp] theorem exec_panic (h : Handler σ) (m : String) (s : σ) :
    exec h (Prog.panic m : Prog α) s = (.panic m, s, []) := rfl

@[simp] theorem exec_fatal (h : Handler σ) (m : String) (s : σ) :
    exec h (Prog.fatal m : Prog α) s = (.fatal m, s, []) := rfl

theorem exec_call (h : Handler σ) (c : Call) (k : Resp c → Prog α) (s : σ) :
    exec h (Prog.call c k) s =
      ((exec h (k (h c s).1) (h c s).2).1, (exec h (k (h c s).1) (h c s).2).2.1,
        ⟨c, (h c s).1⟩ :: (exec h (k (h c s).1) (h c s).2).2.2) := rfl

theorem exec_bind (h : Handler σ) (p : Prog α) (f : α → Prog β) (s : σ) :
    exec h (p >>= f) s = andThen h f (exec h p s) := by
  induction p generalizing s with
  | ret a => simp [bind_def, Prog.bind, andThen]
  | panic m => simp [bind_def, Prog.bind, andThen]
  | fatal m => simp [bind_def, Prog.bind, andThen]
  | call c k ih =>
    have ih2 := ih (h c s).1 (h c s).2
    simp only [bind_def] at ih2
    simp only [bind_def, Prog.bind, exec_call, ih2]
    cases hx : exec h (k (h c s).1) (h c s).2 with
    | mk r rest =>
      cases rest with
      | mk s2 t =>
        cases r <;> simp [andThen]

theorem exec_perform_bind (h : Handler σ) (c : Call) (f : Resp c → Prog β) (s : σ) :
    exec h (perform c >>= f) s =
      ((exec h (f (h c s).1) (h c s).2).1, (exec h (f (h c s).1) (h c s).2).2.1,
        ⟨c, (h c s).1⟩ :: (exec h (f (h c s).1) (h c s).2).2.2) := rfl

theorem Holds.exec {Q : List Event → Res α → Prop} {p : Prog α} {t : List Event}
    (hp : Holds p t Q) (h : Handler σ) (s : σ) :
    Q (t ++ (exec h p s).2.2) (exec h p s).1 := by
  induction p generalizing s t with
  | ret a => simpa [Holds] using hp
  | panic m => simpa [Holds] using hp
  | fatal m => simpa [Holds] using hp
  | call c k ih =>
    have h1 := ih (h c s).1 (hp (h c s).1) (h c s).2
    simpa [exec_call] using h1

theorem Holds.mono {Q Q' : List Event → Res α → Prop} {p : Prog α} {t : List Event}
    (hq : ∀ t r, Q t r → Q' t r) (hp : Holds p t Q) : Holds p t Q' := by
  induction p generalizing t with
  | ret a => exact hq _ _ hp
  | panic m => exact hq _ _ hp
  | fatal m => exact hq _ _ hp
  | call c k ih => exact fun r => ih r (hp r)

theorem holds_bind (p : Prog α) (f : α → Prog β) (t : List Event)
    (Q : List Event → Res β → Prop) : Holds (p >>= f) t Q ↔ Holds p t (bindPost f Q) := by
  induction p generalizing t with
  | ret a => simp [bind_def, Prog.bind, Holds, bindPost]
  | panic m => simp [bind_def, Prog.bind, Holds, bindPost]
  | fatal m => simp [bind_def, Prog.bind, Holds, bindPost]
  | call c k ih =>
    simp only [bind_def, Prog.bind, Holds]
    constructor
    · intro hp r
      exact (ih r _).1 (hp r)
    · intro hp r
      exact (ih r _).2 (hp r)

theorem forall_exceptBool {ε : Type} (P : Except ε Bool → Prop) :
    (∀ r, P r) ↔ (∀ e, P (.error e)) ∧ P (.ok true) ∧ P (.ok false) :=
  ⟨fun hr => ⟨fun _ => hr _, hr _, hr _⟩, fun hr r => by
    rcases r with e | b
    · exact hr.1 e
    · cases b
      · exact hr.2.2
      · exact hr.2.1⟩

theorem forall_exceptBoolList {ε γ : Type} (P : Except ε (Bool × γ) → Prop) :
    (∀ r, P r) ↔ (∀ e, P (.error e)) ∧ (∀ l, P (.ok (true, l))) ∧ ∀ l, P (.ok (false, l)) :=
  ⟨fun hr => ⟨fun _ => hr _, fun _ => hr _, fun _ => hr _⟩, fun hr r => by
    rcases r with e | ⟨b, l⟩
    · exact hr.1 e
    · cases b
      · exact hr.2.2 l
      · exact hr.2.1 l⟩

theorem forall_exceptPair {ε γ δ : Type} (P : Except ε (γ × δ) → Prop) :
    (∀ r, P r) ↔ (∀ e, P (.error e)) ∧ ∀ a b, P (.ok (a, b)) :=
  ⟨fun hr => ⟨fun _ => hr _, fun _ _ => hr _⟩, fun hr r => by
    rcases r with e | ⟨a, b⟩
    · exact hr.1 e
    · exact hr.2 a b⟩

theorem forall_except {ε γ : Type} (P : Except ε γ → Prop) :
    (∀ r, P r) ↔ (∀ e, P (.error e)) ∧ ∀ a, P (.ok a) :=
  ⟨fun hr => ⟨fun _ => hr _, fun _ => hr _⟩, fun hr r => by
    rcases r with e | a
    · exact hr.1 e
    · exact hr.2 a⟩

theorem forall_boolTF (P : Bool → Prop) : (∀ r, P r) ↔ P true ∧ P false :=
  ⟨fun hr => ⟨hr _, hr _⟩, fun hr r => by cases r; exact hr.2; exact hr.1⟩

theorem forall_optionNS {γ : Type} (P : Option γ → Prop) :
    (∀ r, P r) ↔ P none ∧ ∀ e, P (some e) :=
  ⟨fun hr => ⟨hr _, fun _ => hr _⟩, fun hr r => by cases r; exact hr.1; exact hr.2 _⟩

theorem forall_unitP (P : Unit → Prop) : (∀ r, P r) ↔ P () :=
  ⟨fun hr => hr _, fun hr _ => hr⟩

theorem forall_pairP {γ δ : Type} (P : γ × δ → Prop) : (∀ r, P r) ↔ ∀ a b, P (a, b) :=
  ⟨fun hr _ _ => hr _, fun hr r => hr r.1 r.2⟩

theorem forall_planAnswer (P : PlanAnswer → Prop) :
    (∀ r, P r) ↔ ∀ b c d e,
      (P ⟨none, b, c, d, e, none⟩ ∧ ∀ a, P ⟨some a, b, c, d, e, none⟩) ∧
        ∀ a x, P ⟨a, b, c, d, e, some x⟩ :=
  ⟨fun hr _ _ _ _ => ⟨⟨hr _, fun _ => hr _⟩, fun _ _ => hr _⟩, fun hr r => by
    rcases r with ⟨a, b, c, d, e, f⟩
    cases f
    · cases a
      · exact (hr b c d e).1.1
      · exact (hr b c d e).1.2 _
    · exact (hr b c d e).2 _ _⟩

theorem forall_applyAnswer (P : ApplyAnswer → Prop) :
    (∀ r, P r) ↔ ∀ a b, P ⟨a, b, none⟩ ∧ ∀ x, P ⟨a, b, some x⟩ :=
  ⟨fun hr _ _ => ⟨hr _, fun _ => hr _⟩, fun hr r => by
    rcases r with ⟨a, b, f⟩
    cases f
    · exact (hr a b).1
    · exact (hr a b).2 _⟩

theorem forall_resp (c : Call) (P : Resp c → Prop) : (∀ r, P r) ↔ allAnswers c P := by
  cases c <;>
    first
    | exact forall_exceptBool P
    | exact forall_exceptBoolList P
    | exact forall_exceptPair P
    | exact forall_except P
    | exact forall_boolTF P
    | exact forall_optionNS P
    | exact forall_unitP P
    | exact forall_planAnswer P
    | exact forall_applyAnswer P
    | exact forall_pairP P
    | exact Iff.rfl

theorem holds_perform (c : Call) (t : List Event) (Q : List Event → Res (Resp c) → Prop) :
    Holds (perform c) t Q ↔ allAnswers c (fun r => Q (t ++ [⟨c, r⟩]) (.ok r)) := by
  rw [← forall_resp]
  simp [perform, Holds]

theorem holds_pure (a : α) (t : List Event) (Q : List Event → Res α → Prop) :
    Holds (pure a) t Q ↔ Q t (.ok a) := Iff.rfl

theorem holds_panic (m : String) (t : List Event) (Q : List Event → Res α → Prop) :
    Holds (Prog.panic m) t Q ↔ Q t (.panic m) := Iff.rfl

theorem holds_fatal (m : String) (t : List Event) (Q : List Event → Res α → Prop) :
    Holds (Prog.fatal m) t Q ↔ Q t (.fatal m) := Iff.rfl

theorem holds_ite (c : Prop) [Decidable c] (p q : Prog α) (t : List Event)
    (Q : List Event → Res α → Prop) :
    Holds (if c then p else q) t Q ↔ (c → Holds p t Q) ∧ (¬ c → Holds q t Q) := by
  split <;> simp [*]

end ExecLemmas

/-! ## Counting calls -/

theorem countCalls_append (P : Call → Bool) (t u : List Event) :
    countCalls P (t ++ u) = countCalls P t + countCalls P u := by
  simp [countCalls]

theorem countCalls_nil (P : Call → Bool) : countCalls P [] = 0 := rfl

theorem countCalls_single (P : Call → Bool) (e : Event) :
    countCalls P [e] = if P e.call then 1 else 0 := by
  simp [countCalls, List.countP_cons]

theorem allCalls_append (P : Call → Bool) (t u : List Event) :
    allCalls P (t ++ u) = (allCalls P t && allCalls P u) := by
  simp [allCalls]

theorem allCalls_nil (P : Call → Bool) : allCalls P [] = true := rfl

theorem allCalls_single (P : Call → Bool) (e : Event) : allCalls P [e] = P e.call := by
  simp [allCalls]

theorem countCalls_eq_zero_of_allCalls {P K : Call → Bool} {t : List Event}
    (hk : allCalls K t = true) (hpk : ∀ c, K c = true → P c = false) : countCalls P t = 0 := by
  induction t with
  | nil => rfl
  | cons e t ih =>
    simp only [allCalls, List.all_cons, Bool.and_eq_true] at hk
    have h1 := ih (by simpa [allCalls] using hk.2)
    simp only [countCalls, List.countP_cons] at h1 ⊢
    simp [h1, hpk _ hk.1]

theorem countCalls_le_of_allCalls {P P' K : Call → Bool} {t : List Event}
    (hk : allCalls K t = true) (hpk : ∀ c, K c = true → P c = true → P' c = true) :
    countCalls P t ≤ countCalls P' t := by
  induction t with
  | nil => simp [countCalls]
  | cons e t ih =>
    simp only [allCalls, List.all_cons, Bool.and_eq_true] at hk
    have h1 := ih (by simpa [allCalls] using hk.2)
    simp only [countCalls, List.countP_cons] at h1 ⊢
    have h2 := hpk _ hk.1
    by_cases hp : P e.call = true
    · simp [hp, h2 hp]; exact h1
    · simp [hp]; omega

theorem Holds.frame {α : Type} {p : Prog α} {Q : List Event → Res α → Prop} (hp : Holds p [] Q)
    (t0 : List Event) : Holds p t0 (fun t r => ∃ t', t = t0 ++ t' ∧ Q t' r) := by
  suffices hs : ∀ (p : Prog α) (t1 : List Event), Holds p t1 Q →
      Holds p (t0 ++ t1) (fun t r => ∃ t', t = t0 ++ t' ∧ Q t' r) by
    simpa using hs p [] hp
  intro p
  induction p with
  | ret a => intro t1 h1; exact ⟨t1, rfl, h1⟩
  | panic m => intro t1 h1; exact ⟨t1, rfl, h1⟩
  | fatal m => intro t1 h1; exact ⟨t1, rfl, h1⟩
  | call c k ih =>
    intro t1 h1 r
    have := ih r (t1 ++ [⟨c, r⟩]) (h1 r)
    simpa [List.append_assoc] using this

/-- A postcondition of `p` on its own trace gives one for `p` run after `t0`. -/
theorem Holds.after {α : Type} {p : Prog α} {Q : List Event → Res α → Prop}
    {Q' : List Event → Res α → Prop} (hp : Holds p [] Q) (t0 : List Event)
    (hq : ∀ t' r, Q t' r → Q' (t0 ++ t') r) : Holds p t0 Q' :=
  Holds.mono (fun _ _ ⟨t', ht, hq'⟩ => ht ▸ hq t' _ hq') (hp.frame t0)

/-! ## The calls of `run` -/

section CallsOk

variable {α β : Type}

theorem callsOk_pure (job : Job) (n : Nat) (a : α) : CallsOk job n (pure a) := by
  simp [CallsOk, holds_pure, runCallsOk, allCalls, countCalls]

theorem callsOk_panic (job : Job) (n : Nat) (m : String) : CallsOk job n (Prog.panic m : Prog α) := by
  simp [CallsOk, holds_panic, runCallsOk, allCalls, countCalls]

theorem callsOk_fatal (job : Job) (n : Nat) (m : String) : CallsOk job n (Prog.fatal m : Prog α) := by
  simp [CallsOk, holds_fatal, runCallsOk, allCalls, countCalls]

theorem callsOk_bind {job : Job} {n m : Nat} {p : Prog α} {f : α → Prog β}
    (hp : CallsOk job n p) (hf : ∀ a, CallsOk job m (f a)) : CallsOk job (n + m) (p >>= f) := by
  unfold CallsOk at *
  rw [holds_bind]
  refine Holds.mono ?_ hp
  intro t res ht
  cases res with
  | ok a =>
    refine Holds.after (hf a) t ?_
    intro t' _ ht'
    simp only [runCallsOk, allCalls_append, countCalls_append, Bool.and_eq_true] at *
    exact ⟨⟨ht.1, ht'.1⟩, by omega⟩
  | panic m => exact ⟨ht.1, by have := ht.2; omega⟩
  | fatal m => exact ⟨ht.1, by have := ht.2; omega⟩

theorem callsOk_bind0 {job : Job} {n : Nat} {p : Prog α} {f : α → Prog β}
    (hp : CallsOk job 0 p) (hf : ∀ a, CallsOk job n (f a)) : CallsOk job n (p >>= f) := by
  simpa using callsOk_bind hp hf

theorem callsOk_perform (job : Job) (c : Call) (hc : Call.inRun job c = true)
    (ha : c.isApply = false) : CallsOk job 0 (perform c) := by
  unfold CallsOk
  rw [holds_perform, ← forall_resp]
  intro r
  simp [runCallsOk, allCalls, countCalls, hc, ha]

theorem callsOk_perform_bind {job : Job} {n : Nat} (c : Call) {f : Resp c → Prog β}
    (hc : Call.inRun job c = true) (ha : c.isApply = false)
    (hf : ∀ r, CallsOk job n (f r)) : CallsOk job n (perform c >>= f) :=
  callsOk_bind0 (callsOk_perform job c hc ha) hf

theorem callsOk_apply_bind {job : Job} {n : Nat} (ns : String)
    {f : Resp (.Apply ns job.ProjectName) → Prog β}
    (hf : ∀ r, CallsOk job n (f r)) : CallsOk job (n + 1) (perform (.Apply ns job.ProjectName) >>= f) := by
  have h1 : CallsOk job 1 (perform (.Apply ns job.ProjectName)) := by
    unfold CallsOk
    rw [holds_perform, ← forall_resp]
    intro r
    simp [runCallsOk, allCalls, countCalls, Call.inRun, Call.isApply]
  have := callsOk_bind h1 hf
  rwa [Nat.add_comm] at this

theorem callsOk_reportPolicyError (job : Job) (p c u : String) :
    CallsOk job 0 (reportPolicyError p c u) := by
  unfold reportPolicyError
  dsimp only
  repeat' first
    | exact callsOk_pure _ _ _
    | (refine callsOk_perform_bind _ (by rfl) (by rfl) ?_; intro _)
    | split

theorem callsOk_reportApplyMergeabilityError (job : Job) :
    CallsOk job 0 reportApplyMergeabilityError := by
  unfold reportApplyMergeabilityError
  dsimp only
  repeat' first
    | exact callsOk_pure _ _ _
    | (refine callsOk_perform_bind _ (by rfl) (by rfl) ?_; intro _)
    | split

theorem callsOk_reportTerraformPlanOutput (job : Job) (plan : String) :
    CallsOk job 0 (reportTerraformPlanOutput plan) := by
  unfold reportTerraformPlanOutput
  dsimp only
  repeat' first
    | exact callsOk_pure _ _ _
    | (refine callsOk_perform_bind _ (by rfl) (by rfl) ?_; intro _)

theorem callsOk_reportEmptyPlanOutput (job : Job) (projectId : String) :
    CallsOk job 0 (reportEmptyPlanOutput projectId) := by
  unfold reportEmptyPlanOutput
  dsimp only
  repeat' first
    | exact callsOk_pure _ _ _
    | (refine callsOk_perform_bind _ (by rfl) (by rfl) ?_; intro _)

theorem callsOk_runApply (c : String) (job : Job) (o r : String) (n : Int) (u ns : String)
    (ap : AppliesPerProject) : CallsOk job 1 (runApply c job o r n u ns ap) := by
  unfold runApply
  dsimp only
  repeat' first
    | exact callsOk_pure _ _ _
    | (refine callsOk_bind0 (callsOk_reportPolicyError _ _ _ _) ?_; intro _)
    | (refine callsOk_bind0 (callsOk_reportApplyMergeabilityError _) ?_; intro _)
    | (refine callsOk_apply_bind _ ?_; intro _)
    | (refine callsOk_perform_bind _ (by rfl) (by rfl) ?_; intro _)
    | split

theorem callsOk_runPlan (job : Job) (o r : String) (n : Int) (u ns : String) :
    CallsOk job 0 (runPlan job o r n u ns) := by
  unfold runPlan
  dsimp only
  repeat' first
    | exact callsOk_pure _ _ _
    | exact callsOk_panic _ _ _
    | (refine callsOk_bind0 (callsOk_reportTerraformPlanOutput _ _) ?_; intro _)
    | (refine callsOk_bind0 (callsOk_reportEmptyPlanOutput _ _) ?_; intro _)
    | (refine callsOk_perform_bind _ (by rfl) (by rfl) ?_; intro _)
    | split

theorem callsOk_mono {α : Type} {job : Job} {n m : Nat} {p : Prog α} (hnm : n ≤ m)
    (hp : CallsOk job n p) : CallsOk job m p :=
  Holds.mono (fun _ _ ht => ⟨ht.1, Nat.le_trans ht.2 hnm⟩) hp

theorem callsOk_runSwitch (c : String) (job : Job) (o r : String) (pr : Option Int) (n : Int)
    (u ns : String) (ps : Bool) (ap : AppliesPerProject) :
    CallsOk job (if c = "mantis apply" then 1 else 0) (runSwitch c job o r pr n u ns ps ap) := by
  by_cases hc : c = "mantis apply"
  · subst hc
    simp only [runSwitch, if_true]
    exact callsOk_runApply _ job o r n u ns ap
  · simp only [hc, if_false]
    unfold runSwitch
    dsimp only
    simp only [hc, if_false]
    repeat' first
      | exact callsOk_pure _ _ _
      | (refine callsOk_bind0 (callsOk_runPlan _ _ _ _ _ _) ?_; intro _)
      | (refine callsOk_perform_bind _ (by rfl) (by rfl) ?_; intro _)
      | split

theorem callsOk_run (c : String) (job : Job) (o r : String) (pr : Option Int)
    (u ns : String) (ps : Bool) (ap : AppliesPerProject) :
    CallsOk job (if c = "mantis apply" then 1 else 0) (run c job o r pr u ns ps ap) := by
  generalize hN : (if c = "mantis apply" then 1 else 0) = N
  have hsw : ∀ n, CallsOk job N (runSwitch c job o r pr n u ns ps ap) :=
    fun n => hN ▸ callsOk_runSwitch c job o r pr n u ns ps ap
  unfold run
  repeat' first
    | exact callsOk_pure _ _ _
    | exact callsOk_panic _ _ _
    | exact callsOk_fatal _ _ _
    | exact hsw _
    | (refine callsOk_bind0 (callsOk_reportPolicyError _ _ _ _) ?_; intro _)
    | (refine callsOk_perform_bind _ (by rfl) (by rfl) ?_; intro _)
    | split

end CallsOk

/-! ## The calls of `RunJobs` -/

section Bounded

variable {α β : Type}

theorem bounded_pure (P : String) (n m : Nat) (a : α) : Bounded P n m (pure a) := by
  simp [Bounded, holds_pure, callsBound, countCalls]

theorem bounded_panic (P : String) (n m : Nat) (msg : String) :
    Bounded P n m (Prog.panic msg : Prog α) := by
  simp [Bounded, holds_panic, callsBound, countCalls]

theorem bounded_mono {P : String} {n m n' m' : Nat} {p : Prog α} (hn : n ≤ n') (hm : m ≤ m')
    (hp : Bounded P n m p) : Bounded P n' m' p :=
  Holds.mono (fun _ _ ht => ⟨Nat.le_trans ht.1 hn, Nat.le_trans ht.2 hm⟩) hp

theorem bounded_bind {P : String} {n m n' m' : Nat} {p : Prog α} {f : α → Prog β}
    (hp : Bounded P n m p) (hf : ∀ a, Bounded P n' m' (f a)) :
    Bounded P (n + n') (m + m') (p >>= f) := by
  unfold Bounded at *
  rw [holds_bind]
  refine Holds.mono ?_ hp
  intro t res ht
  cases res with
  | ok a =>
    refine Holds.after (hf a) t ?_
    intro t' _ ht'
    simp only [callsBound, countCalls_append] at *
    exact ⟨by omega, by omega⟩
  | panic msg => exact ⟨by have := ht.1; omega, by have := ht.2; omega⟩
  | fatal msg => exact ⟨by have := ht.1; omega, by have := ht.2; omega⟩

theorem bounded_bind0 {P : String} {n m : Nat} {p : Prog α} {f : α → Prog β}
    (hp : Bounded P 0 0 p) (hf : ∀ a, Bounded P n m (f a)) : Bounded P n m (p >>= f) := by
  simpa using bounded_bind hp hf

theorem bounded_bindN {P : String} {n n' : Nat} {p : Prog α} {f : α → Prog β}
    (hp : Bounded P n 0 p) (hf : ∀ a, Bounded P n' 0 (f a)) : Bounded P (n + n') 0 (p >>= f) := by
  simpa using bounded_bind hp hf

theorem bounded_perform (P : String) (c : Call) (ha : c.isApplyFor P = false)
    (hr : c.isReportProjectJobStatus = false) : Bounded P 0 0 (perform c) := by
  unfold Bounded
  rw [holds_perform, ← forall_resp]
  intro r
  simp [callsBound, countCalls, ha, hr]

theorem bounded_perform_bind {P : String} {n m : Nat} (c : Call) {f : Resp c → Prog β}
    (ha : c.isApplyFor P = false) (hr : c.isReportProjectJobStatus = false)
    (hf : ∀ r, Bounded P n m (f r)) : Bounded P n m (perform c >>= f) :=
  bounded_bind0 (bounded_perform P c ha hr) hf

theorem bounded_of_callsOk {P : String} {job : Job} {n : Nat} {p : Prog α}
    (hp : CallsOk job n p) : Bounded P (if job.ProjectName = P then n else 0) 0 p := by
  refine Holds.mono ?_ hp
  intro t _ ht
  constructor
  · by_cases hP : job.ProjectName = P
    · simp only [hP, if_true]
      refine Nat.le_trans (countCalls_le_of_allCalls ht.1 ?_) ht.2
      intro c _ hc
      cases c <;> simp_all [Call.isApplyFor, Call.isApply]
    · simp only [hP, if_false, Nat.le_zero]
      refine countCalls_eq_zero_of_allCalls ht.1 ?_
      intro c hc
      cases c <;> simp_all [Call.isApplyFor, Call.inRun]
  · simp only [Nat.le_zero]
    refine countCalls_eq_zero_of_allCalls ht.1 ?_
    intro c hc
    cases c <;> simp_all [Call.isReportProjectJobStatus, Call.inRun]


theorem bounded_reportPolicyError (P p c u : String) : Bounded P 0 0 (reportPolicyError p c u) := by
  unfold reportPolicyError
  dsimp only
  repeat' first
    | exact bounded_pure _ _ _ _
    | (refine bounded_perform_bind _ (by rfl) (by rfl) ?_; intro _)
    | split

theorem bounded_ReportRunData (P planJson : String) (jobId : Int) :
    Bounded P 0 0 (ReportRunData planJson jobId) := by
  unfold ReportRunData
  repeat' first
    | exact bounded_pure _ _ _ _
    | (refine bounded_perform_bind _ (by rfl) (by rfl) ?_; intro _)
    | split

theorem bounded_run (P c : String) (job : Job) (o r : String) (pr : Option Int)
    (u ns : String) (ps : Bool) (ap : AppliesPerProject) :
    Bounded P (if job.ProjectName = P then (if c = "mantis apply" then 1 else 0) else 0) 0
      (run c job o r pr u ns ps ap) :=
  bounded_of_callsOk (callsOk_run c job o r pr u ns ps ap)

theorem bounded_commandLoop (P : String) (job : Job) (i : Nat) (o r : String) (ps : Bool)
    (cmds : List String) (st : LoopState) :
    Bounded P (if job.ProjectName = P then cmds.count "mantis apply" else 0) 0
      (commandLoop job i o r ps cmds st) := by
  induction cmds generalizing st with
  | nil => exact bounded_pure _ _ _ _
  | cons c rest ih =>
    have hsum : (if job.ProjectName = P then (c :: rest).count "mantis apply" else 0) =
        (if job.ProjectName = P then (if c = "mantis apply" then 1 else 0) else 0) +
          (if job.ProjectName = P then rest.count "mantis apply" else 0) := by
      by_cases hP : job.ProjectName = P <;> by_cases hc : c = "mantis apply" <;>
        simp [hP, hc, List.count_cons, Nat.add_comm]
    rw [hsum]
    generalize hA : (if job.ProjectName = P then (if c = "mantis apply" then 1 else 0) else 0) = A
    generalize hB : (if job.ProjectName = P then rest.count "mantis apply" else 0) = B at ih
    have hrun := hA ▸ bounded_run P c job o r job.PullRequestNumber job.RequestedBy
      job.Namespace ps st.appliesPerProject
    have ih' : ∀ st, Bounded P (A + B) 0 (commandLoop job i o r ps rest st) :=
      fun st => bounded_mono (Nat.le_add_left _ _) (Nat.le_refl _) (ih st)
    unfold commandLoop
    refine bounded_perform_bind _ (by rfl) (by rfl) ?_
    intro allowed
    split
    · exact bounded_pure _ _ _ _
    · exact bounded_bind0 (bounded_reportPolicyError _ _ _ _) (fun _ => ih' _)
    · refine bounded_bindN hrun ?_
      intro rr
      repeat' first
        | exact bounded_pure _ _ _ _
        | exact bounded_panic _ _ _ _
        | exact ih _
        | (refine bounded_bind0 (bounded_ReportRunData _ _ _) ?_; intro _)
        | (refine bounded_perform_bind _ (by rfl) (by rfl) ?_; intro _)
        | split

theorem bounded_jobLoop (P : String) (ps : Bool) (jobs : List Job) (i : Nat) (st : LoopState) :
    Bounded P (applyCommands P jobs) 0 (jobLoop ps jobs i st) := by
  induction jobs generalizing i st with
  | nil => exact bounded_pure _ _ _ _
  | cons job rest ih =>
    unfold jobLoop
    split
    · simp only [applyCommands]
      refine bounded_bindN (bounded_commandLoop P job i _ _ ps job.Commands st) ?_
      intro ex
      split
      · exact bounded_pure _ _ _ _
      · exact ih _ _
      · exact ih _ _
    · exact bounded_panic _ _ _ _


theorem bounded_rpjs_bind {P : String} {n m : Nat} (c : Call) {f : Resp c → Prog β}
    (ha : c.isApplyFor P = false) (hf : ∀ r, Bounded P n m (f r)) :
    Bounded P n (m + 1) (perform c >>= f) := by
  have h1 : Bounded P 0 1 (perform c) := by
    unfold Bounded
    rw [holds_perform, ← forall_resp]
    intro r
    simp only [callsBound, List.nil_append, countCalls_single, ha]
    constructor
    · simp
    · split <;> simp
  have := bounded_bind h1 hf
  simpa [Nat.add_comm] using this

theorem bounded_finalStatus (P : String) (jobs : List Job) (jobId : String) (rf rt : Bool)
    (cid : Int) (st : LoopState) : Bounded P 0 1 (finalStatus jobs jobId rf rt cid st) := by
  unfold finalStatus
  dsimp only
  repeat' first
    | exact bounded_pure _ _ _ _
    | exact bounded_panic _ _ _ _
    | (refine bounded_perform_bind _ (by rfl) (by rfl) ?_; intro _)
    | (refine bounded_rpjs_bind _ (by rfl) ?_; intro _)
    | split

theorem bounded_RunJobsBody (P : String) (jobs : List Job) (ps : Bool) (jobId : String)
    (rf rt : Bool) (cid : Int) :
    Bounded P (applyCommands P jobs) 1 (RunJobsBody jobs ps jobId rf rt cid) := by
  unfold RunJobsBody
  dsimp only
  show Bounded P (applyCommands P jobs + 0) (0 + 1) _
  refine bounded_bind (bounded_jobLoop P ps jobs 0 _) ?_
  intro r
  cases r with
  | error e => exact bounded_pure _ _ _ _
  | ok st => exact bounded_finalStatus _ _ _ _ _ _ _

theorem holds_withDefer_bounded {P : String} {n m : Nat} {d : Prog Unit}
    (hd : Bounded P 0 0 d) (p : Prog α) (t : List Event)
    (hp : Holds p t (fun t _ => callsBound P n m t)) :
    Holds (withDefer d p) t (fun t _ => callsBound P n m t) := by
  induction p generalizing t with
  | ret a =>
    have h1 : callsBound P n m t := hp
    show Holds (d >>= fun _ => Prog.ret a) t _
    rw [holds_bind]
    refine Holds.after hd t ?_
    intro t' res ht'
    have h2 : callsBound P n m (t ++ t') := by
      simp only [callsBound, countCalls_append] at *
      exact ⟨by omega, by omega⟩
    cases res <;> exact h2
  | panic msg =>
    have h1 : callsBound P n m t := hp
    show Holds (d >>= fun _ => Prog.panic msg) t _
    rw [holds_bind]
    refine Holds.after hd t ?_
    intro t' res ht'
    have h2 : callsBound P n m (t ++ t') := by
      simp only [callsBound, countCalls_append] at *
      exact ⟨by omega, by omega⟩
    cases res <;> exact h2
  | fatal msg => exact hp
  | call c k ih => exact fun r => ih r _ (hp r)

theorem bounded_RunJobs (P : String) (jobs : List Job) (ps : Bool) (jobId : String)
    (rf rt : Bool) (cid : Int) :
    Bounded P (applyCommands P jobs) 1 (RunJobs jobs ps jobId rf rt cid) := by
  unfold RunJobs
  refine holds_withDefer_bounded ?_ _ _ (bounded_RunJobsBody P jobs ps jobId rf rt cid)
  exact bounded_perform_bind _ (by rfl) (by rfl) (fun _ => bounded_pure _ _ _ _)

end Bounded

/-! ## C8: how often a project is applied in one batch -/

/-- C8 (counterexample): for the batch of one job of project `web` that lists
`"mantis apply"` twice, with collaborators that allow everything, `RunJobs`
executes the IaC apply of `web` twice, not at most once. -/
theorem C8_apply_executed_twice :
    (calls allowAll (RunJobs [{ webJob with Commands := ["mantis apply", "mantis apply"] }]
        false "job-1" false false 0) ()).countP (Call.isApplyFor "web") = 2 ∧
    ¬ (calls allowAll (RunJobs [{ webJob with Commands := ["mantis apply", "mantis apply"] }]
        false "job-1" false false 0) ()).countP (Call.isApplyFor "web") ≤ 1 := by
  decide

/-- C8 (amended): for every job list, every project name `P` and whatever the
collaborators answer, the number of IaC apply executions for `P` during one
`RunJobs` call is at most the number of times `"mantis apply"` is listed in
the commands of the jobs that name `P`. -/
theorem C8_apply_executions_le_listed {σ : Type} (h : Handler σ) (s : σ) (jobs : List Job)
    (planStorage : Bool) (jobId : String)
    (reportFinalStatusToBackend reportTerraformOutput : Bool) (prCommentId : Int) (P : String) :
    (calls h (RunJobs jobs planStorage jobId reportFinalStatusToBackend reportTerraformOutput
      prCommentId) s).countP (Call.isApplyFor P) ≤ applyCommands P jobs := by
  have hb := (bounded_RunJobs P jobs planStorage jobId reportFinalStatusToBackend
    reportTerraformOutput prCommentId).exec h s
  have h1 := hb.1
  simp only [List.nil_append, countCalls] at h1
  simpa [calls, trace, List.countP_map, Function.comp_def] using h1

/-! ## Executions of the loops -/

theorem exec_withDefer {σ α : Type} (h : Handler σ) (d : Prog Unit) (p : Prog α) (s : σ) :
    exec h (withDefer d p) s = afterDefer h d (exec h p s) := by
  induction p generalizing s with
  | ret a =>
    show exec h (d >>= fun _ => Prog.ret a) s = _
    rw [exec_bind]
    simp only [exec_ret, afterDefer]
    rcases hx : exec h d s with ⟨r, s', t'⟩
    cases r <;> simp [andThen]
  | panic m =>
    show exec h (d >>= fun _ => Prog.panic m) s = _
    rw [exec_bind]
    simp only [exec_panic, afterDefer]
    rcases hx : exec h d s with ⟨r, s', t'⟩
    cases r <;> simp [andThen]
  | fatal m => simp [withDefer, afterDefer]
  | call c k ih =>
    simp only [withDefer, exec_call, ih]
    rcases hx : exec h (k (h c s).1) (h c s).2 with ⟨r, s', t'⟩
    cases r <;> simp only [afterDefer] <;>
      (rcases hy : exec h d s' with ⟨r2, s2, t2⟩; cases r2 <;> simp)

theorem holds_reportPolicyError (p c u : String) :
    Holds (reportPolicyError p c u) [] (fun t r => r = .ok (policyMessage u c) ∧
      ∃ f r1 r2, t = [⟨.SupportsMarkdown, r1⟩, ⟨.Report (policyMessage u c) f, r2⟩]) := by
  simp only [reportPolicyError, holds_bind, bindPost, holds_perform, allAnswers, holds_pure,
    holds_ite, policyMessage]
  simp

theorem exec_reportPolicyError {σ : Type} (h : Handler σ) (p c u : String) (s : σ) :
    (exec h (reportPolicyError p c u) s).1 = .ok (policyMessage u c) ∧
    ∃ f r1 r2, (exec h (reportPolicyError p c u) s).2.2 =
      [⟨.SupportsMarkdown, r1⟩, ⟨.Report (policyMessage u c) f, r2⟩] := by
  simpa using (holds_reportPolicyError p c u).exec h s


theorem splitSlash_ne_nil (l : List Char) : splitSlash l ≠ [] := by
  cases l with
  | nil => simp [splitSlash]
  | cons c cs =>
    simp only [splitSlash]
    split
    · simp
    · split <;> simp

theorem splitSlash_of_mem {l : List Char} (hl : '/' ∈ l) :
    ∃ a b rest, splitSlash l = a :: b :: rest := by
  induction l with
  | nil => simp at hl
  | cons c cs ih =>
    by_cases hc : c = '/'
    · subst hc
      cases hcs : splitSlash cs with
      | nil => exact absurd hcs (splitSlash_ne_nil cs)
      | cons w ws => exact ⟨[], w, ws, by simp [splitSlash, hcs]⟩
    · have hmem : '/' ∈ cs := by
        rcases List.mem_cons.1 hl with h | h
        · exact absurd h.symm hc
        · exact h
      obtain ⟨a, b, rest, hab⟩ := ih hmem
      exact ⟨c :: a, b, rest, by simp [splitSlash, hc, hab]⟩

theorem mapSet_ne_nil (m : AppliesPerProject) (k : String) (v : Bool) : mapSet m k v ≠ [] := by
  cases m with
  | nil => simp [mapSet]
  | cons e m => rcases e with ⟨k', v'⟩; simp only [mapSet]; split <;> simp

theorem mapSet_false_all (m : AppliesPerProject) (k : String)
    (hm : ∀ e ∈ m, e.2 = false) : ∀ e ∈ mapSet m k false, e.2 = false := by
  induction m with
  | nil => simp [mapSet]
  | cons e m ih =>
    rcases e with ⟨k', v'⟩
    simp only [mapSet]
    split
    · intro e he
      rcases List.mem_cons.1 he with h | h
      · simp [h]
      · exact hm e (List.mem_cons_of_mem _ h)
    · intro e he
      rcases List.mem_cons.1 he with h | h
      · subst h; exact hm _ (List.mem_cons_self _ _)
      · exact ih (fun e he => hm e (List.mem_cons_of_mem _ he)) e h

/-- The loop over the commands of a job when every access check is denied. -/
theorem commandLoop_deny {σ : Type} (h : Handler σ)
    (hdeny : ∀ o r p d c pr u v s, (h (.CheckAccessPolicy o r p d c pr u v) s).1 = .ok false)
    (job : Job) (i : Nat) (o r : String) (ps : Bool) (cmds : List String) (st : LoopState)
    (s : σ) :
    ∃ st' s' t, exec h (commandLoop job i o r ps cmds st) s = (.ok (.finished st'), s', t) ∧
      ((∀ e ∈ st.appliesPerProject, e.2 = false) → ∀ e ∈ st'.appliesPerProject, e.2 = false) ∧
      (cmds ≠ [] ∨ st.appliesPerProject ≠ [] → st'.appliesPerProject ≠ []) ∧
      allCalls Call.isDenialCall t = true ∧
      (t.map Event.call).filterMap Call.reportBody = cmds.map (policyMessage job.RequestedBy) ∧
      (t.map Event.call).filterMap Call.accessChecked = cmds.map (fun c => (job.ProjectName, c)) := by
  induction cmds generalizing st s with
  | nil =>
    refine ⟨st, s, [], rfl, fun hm => hm, ?_, rfl, rfl, rfl⟩
    intro hne
    rcases hne with hne | hne
    · exact absurd rfl hne
    · exact hne
  | cons c rest ih =>
    have hd := hdeny o r job.ProjectName job.ProjectDir c job.PullRequestNumber job.RequestedBy [] s
    obtain ⟨hr1, f, r1, r2, hr2⟩ := exec_reportPolicyError h job.ProjectName c job.RequestedBy
      (h (.CheckAccessPolicy o r job.ProjectName job.ProjectDir c job.PullRequestNumber
        job.RequestedBy []) s).2
    rcases hx : exec h (reportPolicyError job.ProjectName c job.RequestedBy)
      (h (.CheckAccessPolicy o r job.ProjectName job.ProjectDir c job.PullRequestNumber
        job.RequestedBy []) s).2 with ⟨res, s2, t2⟩
    rw [hx] at hr1 hr2
    simp only at hr1 hr2
    subst hr1 hr2
    obtain ⟨st', s', t, hex, hall, hne, hden, hrep, hacc⟩ := ih
      { st with appliesPerProject := mapSet st.appliesPerProject job.ProjectName false } s2
    refine ⟨st', s', ⟨.CheckAccessPolicy o r job.ProjectName job.ProjectDir c
        job.PullRequestNumber job.RequestedBy [], (h _ s).1⟩ :: ⟨.SupportsMarkdown, r1⟩ ::
        ⟨.Report (policyMessage job.RequestedBy c) f, r2⟩ :: t, ?_, ?_, ?_, ?_, ?_, ?_⟩
    · unfold commandLoop
      rw [exec_perform_bind]
      simp only [hd, exec_bind, hx, andThen, hex, List.cons_append, List.nil_append]
    · intro hm
      exact hall (mapSet_false_all _ _ hm)
    · intro _
      exact hne (Or.inr (mapSet_ne_nil _ _ _))
    · simpa [allCalls, Call.isDenialCall] using hden
    · simp [Call.reportBody, hrep]
    · simp [Call.reportBody, Call.accessChecked, hacc]

/-- The loop over the jobs when every access check is denied. -/
theorem jobLoop_deny {σ : Type} (h : Handler σ)
    (hdeny : ∀ o r p d c pr u v s, (h (.CheckAccessPolicy o r p d c pr u v) s).1 = .ok false)
    (ps : Bool) (jobs : List Job) (hns : ∀ j ∈ jobs, j.hasRepoNamespace) (i : Nat)
    (st : LoopState) (s : σ) :
    ∃ st' s' t, exec h (jobLoop ps jobs i st) s = (.ok (.ok st'), s', t) ∧
      ((∀ e ∈ st.appliesPerProject, e.2 = false) → ∀ e ∈ st'.appliesPerProject, e.2 = false) ∧
      ((∃ j ∈ jobs, j.Commands ≠ []) ∨ st.appliesPerProject ≠ [] → st'.appliesPerProject ≠ []) ∧
      allCalls Call.isDenialCall t = true ∧
      (t.map Event.call).filterMap Call.reportBody = denialMessages jobs ∧
      (t.map Event.call).filterMap Call.accessChecked = listedCommands jobs := by
  induction jobs generalizing i st s with
  | nil =>
    refine ⟨st, s, [], rfl, fun hm => hm, ?_, rfl, rfl, rfl⟩
    intro hne
    rcases hne with ⟨j, hj, _⟩ | hne
    · simp at hj
    · exact hne
  | cons job rest ih =>
    obtain ⟨a, b, more, hsplit⟩ := splitSlash_of_mem (hns job (List.mem_cons_self _ _))
    obtain ⟨st1, s1, t1, hex1, hall1, hne1, hden1, hrep1, hacc1⟩ :=
      commandLoop_deny h hdeny job i (String.mk a) (String.mk b) ps job.Commands st s
    obtain ⟨st2, s2, t2, hex2, hall2, hne2, hden2, hrep2, hacc2⟩ :=
      ih (fun j hj => hns j (List.mem_cons_of_mem _ hj)) (i + 1) st1 s1
    refine ⟨st2, s2, t1 ++ t2, ?_, fun hm => hall2 (hall1 hm), ?_, ?_, ?_, ?_⟩
    · unfold jobLoop
      simp only [hsplit, exec_bind, hex1, andThen, hex2]
    · intro hne
      apply hne2
      rcases hne with ⟨j, hj, hjc⟩ | hne
      · rcases List.mem_cons.1 hj with hj | hj
        · subst hj
          exact Or.inr (hne1 (Or.inl hjc))
        · exact Or.inl ⟨j, hj, hjc⟩
      · exact Or.inr (hne1 (Or.inr hne))
    · simp [allCalls_append, hden1, hden2]
    · simp [denialMessages, List.filterMap_append, hrep1, hrep2] at *
    · simp [listedCommands, List.filterMap_append, hacc1, hacc2] at *

theorem exec_RunJobs {σ : Type} (h : Handler σ) (s : σ) (jobs : List Job) (ps : Bool)
    (jobId : String) (rf rt : Bool) (cid : Int) :
    exec h (RunJobs jobs ps jobId rf rt cid) s =
      afterDefer h (do let _ ← perform .Flush; pure ())
        (exec h (RunJobsBody jobs ps jobId rf rt cid) s) := by
  unfold RunJobs
  exact exec_withDefer _ _ _ _

theorem all_false_of_ne_nil {m : AppliesPerProject} (hm : ∀ e ∈ m, e.2 = false) (hne : m ≠ []) :
    m.all (fun e => e.2) = false := by
  cases m with
  | nil => exact absurd rfl hne
  | cons e m => simp [hm e (List.mem_cons_self _ _)]

/-- An execution of `RunJobs` in which every access check is denied. -/
theorem RunJobs_deny {σ : Type} (h : Handler σ)
    (hdeny : ∀ o r p d c pr u v s, (h (.CheckAccessPolicy o r p d c pr u v) s).1 = .ok false)
    (s : σ) (jobs : List Job) (ps : Bool) (jobId : String) (rf rt : Bool) (cid : Int)
    (hns : ∀ j ∈ jobs, j.hasRepoNamespace) (hcmds : ∃ j ∈ jobs, j.Commands ≠ []) :
    ∃ s' t r, exec h (RunJobs jobs ps jobId rf rt cid) s =
        (.ok (false, true, none), s', t ++ [⟨.Flush, r⟩]) ∧
      allCalls Call.isDenialCall t = true ∧
      (t.map Event.call).filterMap Call.reportBody = denialMessages jobs ∧
      (t.map Event.call).filterMap Call.accessChecked = listedCommands jobs := by
  obtain ⟨st', s', t, hex, hall, hne, hden, hrep, hacc⟩ := jobLoop_deny h hdeny ps jobs hns 0
    { exectorResults := List.replicate jobs.length {}, appliesPerProject := [] } s
  have hall' := hall (by simp)
  have hne' := hne (Or.inl hcmds)
  have hlen : 0 < st'.appliesPerProject.length := List.length_pos.2 hne'
  refine ⟨(h .Flush s').2, t, (h .Flush s').1, ?_, hden, hrep, hacc⟩
  rw [exec_RunJobs]
  unfold RunJobsBody
  simp only [exec_bind, hex, andThen, finalStatus, all_false_of_ne_nil hall' hne']
  simp [afterDefer, exec_perform_bind, hlen]

/-! ## C2: a policy denial is not fatal to the batch -/

/-- C2 (counterexample): the job `noRepositoryJob` has one command and every
access check is denied, but its namespace `"o"` has no `"/"`: `RunJobs` panics
on `splits[1]` before the first access check; it returns no error value, and
its only call is the deferred flush. -/
theorem C2_denial_without_repository_panics :
    outcome denyAll (RunJobs [noRepositoryJob] false "job-1" false false 0) () =
      .panic "index out of range [1] with length 1" ∧
    calls denyAll (RunJobs [noRepositoryJob] false "job-1" false false 0) () = [.Flush] := by
  decide

/-- C2 (amended): for every non-empty list of jobs whose namespace contains a
`"/"` (the form `{org}/{repo}`), each with at least one command, and collaborators whose
`CheckAccessPolicy` answers `(false, nil)` to every check, `RunJobs` returns
`(false, true, nil)`, so a nil error; it makes no IaC, lock, plan-store or
commit-status call; the bodies it reports to the Reporter are exactly one
policy-violation message per listed command, in listed order; and the
access checks it makes are exactly those of all the listed commands, in
order, so each denial is followed by the next command of the same job. -/
theorem C2_policy_denial_not_fatal {σ : Type} (h : Handler σ) (s : σ) (jobs : List Job)
    (planStorage : Bool) (jobId : String)
    (reportFinalStatusToBackend reportTerraformOutput : Bool) (prCommentId : Int)
    (hne : jobs ≠ []) (hcmds : ∀ j ∈ jobs, j.Commands ≠ [])
    (hns : ∀ j ∈ jobs, j.hasRepoNamespace)
    (hdeny : ∀ o r p d c pr u v s', (h (.CheckAccessPolicy o r p d c pr u v) s').1 = .ok false) :
    outcome h (RunJobs jobs planStorage jobId reportFinalStatusToBackend reportTerraformOutput
        prCommentId) s = .ok (false, true, none) ∧
    (∀ c ∈ calls h (RunJobs jobs planStorage jobId reportFinalStatusToBackend
        reportTerraformOutput prCommentId) s,
      c.isIaC = false ∧ c.isLock = false ∧ c.isPlanStore = false ∧ c.isCommitStatus = false) ∧
    (calls h (RunJobs jobs planStorage jobId reportFinalStatusToBackend reportTerraformOutput
        prCommentId) s).filterMap Call.reportBody = denialMessages jobs ∧
    (calls h (RunJobs jobs planStorage jobId reportFinalStatusToBackend reportTerraformOutput
        prCommentId) s).filterMap Call.accessChecked = listedCommands jobs := by
  have hex : ∃ j ∈ jobs, j.Commands ≠ [] := by
    cases jobs with
    | nil => exact absurd rfl hne
    | cons j rest => exact ⟨j, List.mem_cons_self _ _, hcmds j (List.mem_cons_self _ _)⟩
  obtain ⟨s', t, r, hrun, hden, hrep, hacc⟩ := RunJobs_deny h hdeny s jobs planStorage jobId
    reportFinalStatusToBackend reportTerraformOutput prCommentId hns hex
  refine ⟨by simp [outcome, hrun], ?_, ?_, ?_⟩
  · intro c hc
    simp only [calls, trace, hrun, List.map_append, List.mem_append, List.mem_map] at hc
    rcases hc with ⟨e, he, rfl⟩ | ⟨e, he, rfl⟩
    · have hk : Call.isDenialCall e.call = true := by
        simp only [allCalls, List.all_eq_true] at hden
        exact hden e he
      cases hcall : e.call <;> simp_all [Call.isDenialCall, Call.isIaC, Call.isLock,
        Call.isPlanStore, Call.isCommitStatus]
    · simp only [List.mem_singleton] at he
      subst he
      simp [Call.isIaC, Call.isLock, Call.isPlanStore, Call.isCommitStatus]
  · simp [calls, trace, hrun, List.filterMap_append, hrep, Call.reportBody]
  · simp [calls, trace, hrun, List.filterMap_append, hacc, Call.accessChecked]

/-- C2 (witness): the batch of the single job `webJob` with collaborators that
deny every command. -/
theorem C2_policy_denial_not_fatal_witness :
    outcome denyAll (RunJobs [webJob] false "job-1" false false 0) () = .ok (false, true, none) ∧
    (∀ c ∈ calls denyAll (RunJobs [webJob] false "job-1" false false 0) (),
      c.isIaC = false ∧ c.isLock = false ∧ c.isPlanStore = false ∧ c.isCommitStatus = false) ∧
    (calls denyAll (RunJobs [webJob] false "job-1" false false 0) ()).filterMap Call.reportBody =
      ["User alice is not allowed to perform action: mantis plan. Check your policies :x:"] ∧
    (calls denyAll (RunJobs [webJob] false "job-1" false false 0) ()).filterMap
      Call.accessChecked = [("web", "mantis plan")] :=
  C2_policy_denial_not_fatal denyAll () [webJob] false "job-1" false false 0 (by decide)
    (by decide) (by decide) (fun _ _ _ _ _ _ _ _ _ => rfl)


theorem mapGet_mapSet (m : AppliesPerProject) (k : String) (v : Bool) :
    mapGet (mapSet m k v) k = some v := by
  induction m with
  | nil => simp [mapSet, mapGet]
  | cons e m ih =>
    rcases e with ⟨k', v'⟩
    simp only [mapSet]
    split
    · simp [mapGet]
    · rename_i hk
      simp [mapGet, hk, ih]

/-- One step of the command loop on a denied command. -/
theorem commandLoop_denied_step {σ : Type} (h : Handler σ) (s : σ) (job : Job) (i : Nat)
    (o r : String) (ps : Bool) (c : String) (rest : List String) (st : LoopState)
    (hd : (h (.CheckAccessPolicy o r job.ProjectName job.ProjectDir c job.PullRequestNumber
      job.RequestedBy []) s).1 = .ok false) :
    ∃ s1 f r1 r2, exec h (commandLoop job i o r ps (c :: rest) st) s =
      ((exec h (commandLoop job i o r ps rest
          { st with appliesPerProject := mapSet st.appliesPerProject job.ProjectName false })
          s1).1,
        (exec h (commandLoop job i o r ps rest
          { st with appliesPerProject := mapSet st.appliesPerProject job.ProjectName false })
          s1).2.1,
        ⟨.CheckAccessPolicy o r job.ProjectName job.ProjectDir c job.PullRequestNumber
            job.RequestedBy [], .ok false⟩ ::
          ⟨.SupportsMarkdown, r1⟩ :: ⟨.Report (policyMessage job.RequestedBy c) f, r2⟩ ::
          (exec h (commandLoop job i o r ps rest
            { st with appliesPerProject := mapSet st.appliesPerProject job.ProjectName false })
            s1).2.2) := by
  obtain ⟨hr1, f, r1, r2, hr2⟩ := exec_reportPolicyError h job.ProjectName c job.RequestedBy
    (h (.CheckAccessPolicy o r job.ProjectName job.ProjectDir c job.PullRequestNumber
      job.RequestedBy []) s).2
  rcases hx : exec h (reportPolicyError job.ProjectName c job.RequestedBy)
    (h (.CheckAccessPolicy o r job.ProjectName job.ProjectDir c job.PullRequestNumber
      job.RequestedBy []) s).2 with ⟨res, s2, t2⟩
  rw [hx] at hr1 hr2
  simp only at hr1 hr2
  subst hr1 hr2
  refine ⟨s2, f, r1, r2, ?_⟩
  rw [commandLoop, exec_perform_bind]
  simp only [hd, exec_bind, hx, andThen, List.cons_append, List.nil_append]

/-! ## C3: what a denial does to `appliesPerProject` -/

/-- C3 (counterexample): for the batch of the one job
`{namespace "o/r", project "web", commands ["mantis plan"], requestedBy "alice"}`
whose command is denied, `RunJobs` returns `allAppliesSuccess = false` and
`atLeastOneApply = true`, not `(true, false)`: the denied plan did set
`appliesPerProject["web"] = false`. -/
theorem C3_denied_plan_is_recorded :
    outcome denyAll (RunJobs [webJob] false "job-1" false false 0) () =
      .ok (false, true, none) ∧
    ¬ ∃ e, outcome denyAll (RunJobs [webJob] false "job-1" false false 0) () =
      .ok (true, false, e) := by
  have h1 : outcome denyAll (RunJobs [webJob] false "job-1" false false 0) () =
      .ok (false, true, none) := by decide
  refine ⟨h1, ?_⟩
  rintro ⟨e, he⟩
  rw [h1] at he
  cases he

/-- C3 (amended): when the access check of `RunJobs` denies a command `c` of
a job, whatever the command is (apply-class or not), the loop reports the
policy violation and goes on with the rest of the job's commands with
`appliesPerProject[job.ProjectName] = false`; and for a batch of one job of
the data model whose single command is denied, `RunJobs` returns
`allAppliesSuccess = false`, `atLeastOneApply = true` and a nil error. -/
theorem C3_denial_marks_project_false {σ : Type} (h : Handler σ) (s : σ) (job : Job)
    (c : String)
    (hdeny : ∀ o r, (h (.CheckAccessPolicy o r job.ProjectName job.ProjectDir c
      job.PullRequestNumber job.RequestedBy []) s).1 = .ok false) :
    (∀ (i : Nat) (o r : String) (ps : Bool) (rest : List String) (st : LoopState),
      mapGet (mapSet st.appliesPerProject job.ProjectName false) job.ProjectName = some false ∧
      ∃ s1 f r1 r2, exec h (commandLoop job i o r ps (c :: rest) st) s =
        ((exec h (commandLoop job i o r ps rest
            { st with appliesPerProject := mapSet st.appliesPerProject job.ProjectName false })
            s1).1,
          (exec h (commandLoop job i o r ps rest
            { st with appliesPerProject := mapSet st.appliesPerProject job.ProjectName false })
            s1).2.1,
          ⟨.CheckAccessPolicy o r job.ProjectName job.ProjectDir c job.PullRequestNumber
              job.RequestedBy [], .ok false⟩ ::
            ⟨.SupportsMarkdown, r1⟩ :: ⟨.Report (policyMessage job.RequestedBy c) f, r2⟩ ::
            (exec h (commandLoop job i o r ps rest
              { st with appliesPerProject := mapSet st.appliesPerProject job.ProjectName false })
              s1).2.2)) ∧
    (job.hasRepoNamespace → job.Commands = [c] →
      ∀ (ps : Bool) (jobId : String) (rf rt : Bool) (cid : Int),
        outcome h (RunJobs [job] ps jobId rf rt cid) s = .ok (false, true, none)) := by
  refine ⟨fun i o r ps rest st => ⟨mapGet_mapSet _ _ _,
    commandLoop_denied_step h s job i o r ps c rest st (hdeny o r)⟩, ?_⟩
  intro hns hcmd ps jobId rf rt cid
  obtain ⟨a, b, more, hsplit⟩ := splitSlash_of_mem hns
  obtain ⟨s1, f, r1, r2, hstep⟩ := commandLoop_denied_step h s job 0 (String.mk a) (String.mk b)
    ps c [] { exectorResults := List.replicate [job].length {}, appliesPerProject := [] }
    (hdeny _ _)
  simp only [outcome, exec_RunJobs, RunJobsBody, exec_bind, jobLoop, hsplit, hcmd, hstep]
  simp [commandLoop, andThen, finalStatus, mapSet, afterDefer, exec_perform_bind]

/-- C3 (witness): the denied plan of `webJob`. -/
theorem C3_denial_marks_project_false_witness :
    outcome denyAll (RunJobs [webJob] false "job-1" false false 0) () =
      .ok (false, true, none) :=
  (C3_denial_marks_project_false denyAll () webJob "mantis plan" (fun _ _ => rfl)).2
    (by decide) rfl false "job-1" false false 0


/-! ## C4: the run record of a denied command -/

/-- C4 (the code at the failing input): for the batch of the one job `webJob`
whose command `"mantis plan"` is denied, `RunJobs` checks the access policy,
reports the policy violation to the Reporter and flushes it; it makes no
`ReportProjectRun` call at all, so none with status `"FORBIDDEN"`. -/
theorem C4_denied_command_has_no_run_report :
    calls denyAll (RunJobs [webJob] false "job-1" false false 0) () =
      [.CheckAccessPolicy "o" "r" "web" "web" "mantis plan" (some 1) "alice" [],
        .SupportsMarkdown,
        .Report "User alice is not allowed to perform action: mantis plan. Check your policies :x:"
          (.AsCollapsibleComment "Policy violation for <b>web - mantis plan</b>" false),
        .Flush] ∧
    (calls denyAll (RunJobs [webJob] false "job-1" false false 0) ()).countP
      Call.isReportProjectRun = 0 := by
  decide

/-! ## Splitting the loops -/

theorem prog_pure_bind {α β : Type} (a : α) (f : α → Prog β) : (pure a >>= f) = f a := rfl

theorem prog_bind_assoc {α β γ : Type} (p : Prog α) (f : α → Prog β) (g : β → Prog γ) :
    (p >>= f) >>= g = p >>= fun a => f a >>= g := by
  induction p with
  | ret a => rfl
  | panic m => rfl
  | fatal m => rfl
  | call c k ih =>
    simp only [bind_def, Prog.bind] at ih ⊢
    congr 1
    funext r
    exact ih r

theorem commandLoop_append (job : Job) (i : Nat) (o r : String) (ps : Bool)
    (cs1 cs2 : List String) (st : LoopState) :
    commandLoop job i o r ps (cs1 ++ cs2) st =
      commandLoop job i o r ps cs1 st >>= afterCommands (commandLoop job i o r ps cs2) := by
  induction cs1 generalizing st with
  | nil => rfl
  | cons c rest ih =>
    simp only [List.cons_append, commandLoop, prog_bind_assoc]
    congr 1
    funext a
    split
    · rfl
    · simp only [prog_bind_assoc, List.append_eq, ih]
    · simp only [prog_bind_assoc]
      congr 1
      funext rr
      split
      · simp only [prog_bind_assoc]
        congr 1
        funext x
        split <;> rfl
      · split
        · rfl
        · simp only [prog_bind_assoc, List.append_eq, ih]

theorem jobLoop_append (ps : Bool) (pre rest : List Job) (i : Nat) (st : LoopState) :
    jobLoop ps (pre ++ rest) i st =
      jobLoop ps pre i st >>= afterJobs (jobLoop ps rest (i + pre.length)) := by
  induction pre generalizing i st with
  | nil => rfl
  | cons job more ih =>
    simp only [List.cons_append, jobLoop, List.length_cons]
    split
    · simp only [prog_bind_assoc]
      congr 1
      funext ex
      have hi : i + (more.length + 1) = i + 1 + more.length := by omega
      split
      · rfl
      · simp only [List.append_eq, ih, hi]
      · simp only [List.append_eq, ih, hi]
    · rfl

theorem exec_perform {σ : Type} (h : Handler σ) (c : Call) (s : σ) :
    exec h (perform c) s = (.ok (h c s).1, (h c s).2, [⟨c, (h c s).1⟩]) := rfl

/-- One step of the command loop on a command that passes the access check
and fails in `run`: the run is reported as `"FAILED"` and the loop is left. -/
theorem commandLoop_failed_step {σ : Type} (h : Handler σ) (s : σ) (job : Job) (i : Nat)
    (o r : String) (ps : Bool) (c : String) (rest : List String) (st : LoopState)
    (hacc : (h (.CheckAccessPolicy o r job.ProjectName job.ProjectDir c job.PullRequestNumber
      job.RequestedBy []) s).1 = .ok true)
    (rr : RunReturn) (ap : AppliesPerProject) (s2 : σ) (t2 : List Event)
    (hrun : exec h (run c job o r job.PullRequestNumber job.RequestedBy job.Namespace ps
        st.appliesPerProject)
      (h (.CheckAccessPolicy o r job.ProjectName job.ProjectDir c job.PullRequestNumber
        job.RequestedBy []) s).2 = (.ok (rr, ap), s2, t2))
    (e : GoError) (herr : rr.err = some e) :
    exec h (commandLoop job i o r ps (c :: rest) st) s =
      (.ok (.broke { exectorResults := resultsAfterFailure st.exectorResults i rr.result,
                     appliesPerProject := mapSet ap job.ProjectName false }),
        (h (.ReportProjectRun (o ++ "-" ++ r) job.ProjectName "FAILED" c rr.output) s2).2,
        ⟨.CheckAccessPolicy o r job.ProjectName job.ProjectDir c job.PullRequestNumber
            job.RequestedBy [], .ok true⟩ :: (t2 ++
          [⟨.ReportProjectRun (o ++ "-" ++ r) job.ProjectName "FAILED" c rr.output,
            (h (.ReportProjectRun (o ++ "-" ++ r) job.ProjectName "FAILED" c rr.output) s2).1⟩])) := by
  rw [commandLoop, exec_perform_bind]
  simp only [hacc, exec_bind, hrun, andThen, herr, exec_perform_bind]
  cases hres : rr.result <;> simp [resultsAfterFailure, exec_perform]

theorem trace_bind_prefix {σ α β : Type} (h : Handler σ) (p : Prog α) (f : α → Prog β) (s : σ) :
    ∃ tl, (exec h (p >>= f) s).2.2 = (exec h p s).2.2 ++ tl := by
  rw [exec_bind]
  rcases exec h p s with ⟨res, s1, t1⟩
  cases res with
  | ok x => exact ⟨_, rfl⟩
  | panic m => exact ⟨[], by simp [andThen]⟩
  | fatal m => exact ⟨[], by simp [andThen]⟩

/-- The loop over the jobs reaches the command `d` of the job `next` when the
jobs `mid` before it are processed without a policy-check error, panic or exit
and the commands `ds1` listed before `d` leave the loop of `next` running: the
next call is the access check of `d`. -/
theorem jobLoop_reaches {σ : Type} (h : Handler σ) (ps : Bool) (mid : List Job) (next : Job)
    (later : List Job) (i : Nat) (st : LoopState) (s : σ) (ds1 : List String) (d : String)
    (ds2 : List String) (a b : List Char) (more : List (List Char))
    (stm std : LoopState) (sm sd : σ) (tm td : List Event)
    (hcmds : next.Commands = ds1 ++ d :: ds2)
    (hsplit : splitSlash next.Namespace.data = a :: b :: more)
    (hmid : exec h (jobLoop ps mid i st) s = (.ok (.ok stm), sm, tm))
    (hreach : exec h (commandLoop next (i + mid.length) (String.mk a) (String.mk b) ps ds1 stm)
      sm = (.ok (.finished std), sd, td)) :
    ∃ tl, (exec h (jobLoop ps (mid ++ next :: later) i st) s).2.2 =
      tm ++ (td ++ ⟨.CheckAccessPolicy (String.mk a) (String.mk b) next.ProjectName
        next.ProjectDir d next.PullRequestNumber next.RequestedBy [],
        (h (.CheckAccessPolicy (String.mk a) (String.mk b) next.ProjectName next.ProjectDir d
          next.PullRequestNumber next.RequestedBy []) sd).1⟩ :: tl) := by
  have hcmd : ∃ tl, (exec h (commandLoop next (i + mid.length) (String.mk a) (String.mk b) ps
      next.Commands stm) sm).2.2 =
      td ++ ⟨.CheckAccessPolicy (String.mk a) (String.mk b) next.ProjectName
        next.ProjectDir d next.PullRequestNumber next.RequestedBy [],
        (h (.CheckAccessPolicy (String.mk a) (String.mk b) next.ProjectName next.ProjectDir d
          next.PullRequestNumber next.RequestedBy []) sd).1⟩ :: tl := by
    rw [hcmds, commandLoop_append, exec_bind, hreach]
    simp only [andThen, afterCommands]
    rw [commandLoop, exec_perform_bind]
    exact ⟨_, rfl⟩
  obtain ⟨tl, htl⟩ := hcmd
  rw [jobLoop_append, exec_bind, hmid]
  simp only [andThen, afterJobs]
  rw [jobLoop]
  simp only [hsplit, exec_bind]
  rcases hx : exec h (commandLoop next (i + mid.length) (String.mk a) (String.mk b) ps
    next.Commands stm) sm with ⟨res, s1, t1⟩
  rw [hx] at htl
  simp only at htl
  subst htl
  cases res with
  | ok x =>
    simp only [andThen, List.append_assoc, List.cons_append]
    exact ⟨_, rfl⟩
  | panic m => exact ⟨_, rfl⟩
  | fatal m => exact ⟨_, rfl⟩

/-! ## C1: a failed command ends its job, not the batch -/

/-- C1 (counterexample): the apply of the first job fails in `run` (the pull
request is neither merged nor mergeable) and every access check answers
`(true, nil)`; the lock of the second job, which has no pull request number,
passes the access checks and `run` panics on the nil pointer.  The third job,
of project `db`, is never access-checked. -/
theorem C1_later_job_not_processed_after_panic :
    outcome notMergeable
      (RunJobs [applyThenPlanJob, lockWithoutPullRequestJob, dbLockJob] false "job-1" false
        false 0) () = .panic "invalid memory address or nil pointer dereference" ∧
    (calls notMergeable
      (RunJobs [applyThenPlanJob, lockWithoutPullRequestJob, dbLockJob] false "job-1" false
        false 0) ()).filterMap Call.accessChecked =
      [("web", "mantis apply"), ("web", "mantis apply"), ("api", "mantis lock"),
        ("api", "mantis lock")] ∧
    (trace notMergeable
      (RunJobs [applyThenPlanJob, lockWithoutPullRequestJob, dbLockJob] false "job-1" false
        false 0) ()).any Event.accessCheckFailed = false := by
  decide

/-- C1 (amended): in the loops of `RunJobs`, let the loop reach the command
`c` of the job `job` (the jobs `pre` before it are processed without a
policy-check error, and so are the commands `cs1` listed before `c`, none of
them failing), let `c` pass the access check and let `run` return an error
for it.  Then the execution of the loops over `pre ++ job :: post` is: what
led to `c`, the access check of `c`, the calls of `run`, the report of the run
as `"FAILED"`, and then directly the execution of the loop over the jobs
`post` listed after `job`, so the commands `cs2` listed after `c` are neither
access-checked nor executed.  And every command `d` of every later job `next`
is access-checked, after the calls of what comes before it, whenever the jobs
`mid` between `job` and `next` are processed without a policy-check error,
panic or exit and the commands `ds1` listed before `d` in `next` leave its
loop running (none is refused with an error or fails in `run`). -/
theorem C1_failed_command_ends_job {σ : Type} (h : Handler σ) (ps : Bool)
    (pre : List Job) (job : Job) (post : List Job) (cs1 : List String) (c : String)
    (cs2 : List String) (a b : List Char) (more : List (List Char))
    (st00 st0 st1 : LoopState) (s00 s0 s1 s2 : σ) (t0 t1 t2 : List Event)
    (rr : RunReturn) (ap : AppliesPerProject) (e : GoError)
    (hcmds : job.Commands = cs1 ++ c :: cs2)
    (hsplit : splitSlash job.Namespace.data = a :: b :: more)
    (hpre : exec h (jobLoop ps pre 0 st00) s00 = (.ok (.ok st0), s0, t0))
    (hreach : exec h (commandLoop job pre.length (String.mk a) (String.mk b) ps cs1 st0) s0 =
      (.ok (.finished st1), s1, t1))
    (hacc : (h (.CheckAccessPolicy (String.mk a) (String.mk b) job.ProjectName job.ProjectDir c
      job.PullRequestNumber job.RequestedBy []) s1).1 = .ok true)
    (hrun : exec h (run c job (String.mk a) (String.mk b) job.PullRequestNumber job.RequestedBy
        job.Namespace ps st1.appliesPerProject)
      (h (.CheckAccessPolicy (String.mk a) (String.mk b) job.ProjectName job.ProjectDir c
        job.PullRequestNumber job.RequestedBy []) s1).2 = (.ok (rr, ap), s2, t2))
    (herr : rr.err = some e) :
    exec h (jobLoop ps (pre ++ job :: post) 0 st00) s00 =
      ((exec h (jobLoop ps post (pre.length + 1)
          { exectorResults := resultsAfterFailure st1.exectorResults pre.length rr.result,
            appliesPerProject := mapSet ap job.ProjectName false })
          (h (.ReportProjectRun (String.mk a ++ "-" ++ String.mk b) job.ProjectName "FAILED" c
            rr.output) s2).2).1,
        (exec h (jobLoop ps post (pre.length + 1)
          { exectorResults := resultsAfterFailure st1.exectorResults pre.length rr.result,
            appliesPerProject := mapSet ap job.ProjectName false })
          (h (.ReportProjectRun (String.mk a ++ "-" ++ String.mk b) job.ProjectName "FAILED" c
            rr.output) s2).2).2.1,
        t0 ++ (t1 ++ (⟨.CheckAccessPolicy (String.mk a) (String.mk b) job.ProjectName
            job.ProjectDir c job.PullRequestNumber job.RequestedBy [], .ok true⟩ :: (t2 ++
          ⟨.ReportProjectRun (String.mk a ++ "-" ++ String.mk b) job.ProjectName "FAILED" c
              rr.output,
            (h (.ReportProjectRun (String.mk a ++ "-" ++ String.mk b) job.ProjectName "FAILED" c
              rr.output) s2).1⟩ ::
          (exec h (jobLoop ps post (pre.length + 1)
            { exectorResults := resultsAfterFailure st1.exectorResults pre.length rr.result,
              appliesPerProject := mapSet ap job.ProjectName false })
            (h (.ReportProjectRun (String.mk a ++ "-" ++ String.mk b) job.ProjectName "FAILED" c
              rr.output) s2).2).2.2)))) ∧
    ∀ (mid : List Job) (next : Job) (later : List Job) (ds1 : List String) (d : String)
      (ds2 : List String) (a1 b1 : List Char) (more1 : List (List Char))
      (stm std : LoopState) (sm sd : σ) (tm td : List Event),
      post = mid ++ next :: later → next.Commands = ds1 ++ d :: ds2 →
      splitSlash next.Namespace.data = a1 :: b1 :: more1 →
      exec h (jobLoop ps mid (pre.length + 1)
          { exectorResults := resultsAfterFailure st1.exectorResults pre.length rr.result,
            appliesPerProject := mapSet ap job.ProjectName false })
          (h (.ReportProjectRun (String.mk a ++ "-" ++ String.mk b) job.ProjectName "FAILED" c
            rr.output) s2).2 = (.ok (.ok stm), sm, tm) →
      exec h (commandLoop next (pre.length + 1 + mid.length) (String.mk a1) (String.mk b1) ps
          ds1 stm) sm = (.ok (.finished std), sd, td) →
      ∃ tl, (exec h (jobLoop ps (pre ++ job :: post) 0 st00) s00).2.2 =
        t0 ++ (t1 ++ (⟨.CheckAccessPolicy (String.mk a) (String.mk b) job.ProjectName
            job.ProjectDir c job.PullRequestNumber job.RequestedBy [], .ok true⟩ :: (t2 ++
          ⟨.ReportProjectRun (String.mk a ++ "-" ++ String.mk b) job.ProjectName "FAILED" c
              rr.output,
            (h (.ReportProjectRun (String.mk a ++ "-" ++ String.mk b) job.ProjectName "FAILED" c
              rr.output) s2).1⟩ ::
          (tm ++ (td ++ ⟨.CheckAccessPolicy (String.mk a1) (String.mk b1) next.ProjectName
            next.ProjectDir d next.PullRequestNumber next.RequestedBy [],
            (h (.CheckAccessPolicy (String.mk a1) (String.mk b1) next.ProjectName
              next.ProjectDir d next.PullRequestNumber next.RequestedBy []) sd).1⟩ :: tl))))) := by
  have hmain : exec h (jobLoop ps (pre ++ job :: post) 0 st00) s00 =
      ((exec h (jobLoop ps post (pre.length + 1)
          { exectorResults := resultsAfterFailure st1.exectorResults pre.length rr.result,
            appliesPerProject := mapSet ap job.ProjectName false })
          (h (.ReportProjectRun (String.mk a ++ "-" ++ String.mk b) job.ProjectName "FAILED" c
            rr.output) s2).2).1,
        (exec h (jobLoop ps post (pre.length + 1)
          { exectorResults := resultsAfterFailure st1.exectorResults pre.length rr.result,
            appliesPerProject := mapSet ap job.ProjectName false })
          (h (.ReportProjectRun (String.mk a ++ "-" ++ String.mk b) job.ProjectName "FAILED" c
            rr.output) s2).2).2.1,
        t0 ++ (t1 ++ (⟨.CheckAccessPolicy (String.mk a) (String.mk b) job.ProjectName
            job.ProjectDir c job.PullRequestNumber job.RequestedBy [], .ok true⟩ :: (t2 ++
          ⟨.ReportProjectRun (String.mk a ++ "-" ++ String.mk b) job.ProjectName "FAILED" c
              rr.output,
            (h (.ReportProjectRun (String.mk a ++ "-" ++ String.mk b) job.ProjectName "FAILED" c
              rr.output) s2).1⟩ ::
          (exec h (jobLoop ps post (pre.length + 1)
            { exectorResults := resultsAfterFailure st1.exectorResults pre.length rr.result,
              appliesPerProject := mapSet ap job.ProjectName false })
            (h (.ReportProjectRun (String.mk a ++ "-" ++ String.mk b) job.ProjectName "FAILED" c
              rr.output) s2).2).2.2)))) := by
    have hstep := commandLoop_failed_step h s1 job pre.length (String.mk a) (String.mk b) ps c cs2
      st1 hacc rr ap s2 t2 hrun e herr
    have hjob : exec h (commandLoop job pre.length (String.mk a) (String.mk b) ps job.Commands st0)
        s0 = (.ok (.broke
          { exectorResults := resultsAfterFailure st1.exectorResults pre.length rr.result,
            appliesPerProject := mapSet ap job.ProjectName false }),
          (h (.ReportProjectRun (String.mk a ++ "-" ++ String.mk b) job.ProjectName "FAILED" c
            rr.output) s2).2,
          t1 ++ (⟨.CheckAccessPolicy (String.mk a) (String.mk b) job.ProjectName
              job.ProjectDir c job.PullRequestNumber job.RequestedBy [], .ok true⟩ :: (t2 ++
            [⟨.ReportProjectRun (String.mk a ++ "-" ++ String.mk b) job.ProjectName "FAILED" c
                rr.output,
              (h (.ReportProjectRun (String.mk a ++ "-" ++ String.mk b) job.ProjectName "FAILED" c
                rr.output) s2).1⟩]))) := by
      rw [hcmds, commandLoop_append, exec_bind, hreach]
      simp only [andThen, afterCommands, hstep]
    rw [jobLoop_append, exec_bind, hpre]
    simp only [andThen, afterJobs]
    rw [jobLoop]
    simp only [hsplit, exec_bind, Nat.zero_add, hjob, andThen, List.append_assoc,
      List.cons_append, List.nil_append]
  refine ⟨hmain, ?_⟩
  intro mid next later ds1 d ds2 a1 b1 more1 stm std sm sd tm td hpost hds hsp hmid hreach1
  subst hpost
  obtain ⟨tl, htl⟩ := jobLoop_reaches h ps mid next later (pre.length + 1) _ _ ds1 d ds2 a1 b1
    more1 stm std sm sd tm td hds hsp hmid hreach1
  rw [hmain]
  simp only
  rw [htl]
  exact ⟨tl, rfl⟩

/-- C1 (witness): with a pull request that is neither merged nor mergeable,
the apply of the first job fails; its second command `"mantis plan"` is never
checked, and the next job is processed. -/
theorem C1_failed_command_ends_job_witness :
    ((exec notMergeable (jobLoop false [applyThenPlanJob, lockJob] 0
        { exectorResults := [{}, {}], appliesPerProject := [] }) ()).2.2.map
      Event.call).filterMap Call.accessChecked =
      [("web", "mantis apply"), ("web", "mantis apply"), ("api", "mantis lock"),
        ("api", "mantis lock")] := by
  have hw := (C1_failed_command_ends_job notMergeable false [] applyThenPlanJob [lockJob] []
    "mantis apply" ["mantis plan"] ['o'] ['r'] []
    { exectorResults := [{}, {}], appliesPerProject := [] }
    { exectorResults := [{}, {}], appliesPerProject := [] }
    { exectorResults := [{}, {}], appliesPerProject := [] } () () () () [] []
    (exec notMergeable (run "mantis apply" applyThenPlanJob "o" "r" (some 1) "alice" "o/r" false
      []) ()).2.2
    (failWith "cannot perform Apply since the PR is not currently mergeable" "")
    [("web", false)]
    (.format "cannot perform Apply since the PR is not currently mergeable")
    rfl rfl rfl rfl rfl rfl rfl).1
  rw [List.nil_append] at hw
  rw [hw]
  decide

theorem runSwitch_apply (job : Job) (o r : String) (pr : Option Int) (n : Int) (u ns : String)
    (ps : Bool) (ap : AppliesPerProject) :
    runSwitch "mantis apply" job o r pr n u ns ps ap = runApply "mantis apply" job o r n u ns ap := by
  simp [runSwitch]

theorem holds_perform_bind {β : Type} (c : Call) (f : Resp c → Prog β) (t : List Event)
    (Q : List Event → Res β → Prop) :
    Holds (perform c >>= f) t Q ↔ ∀ r : Resp c, Holds (f r) (t ++ [⟨c, r⟩]) Q := Iff.rfl

set_option maxHeartbeats 4000000 in
theorem run_apply_refused (job : Job) (o r : String) (pr : Option Int) (u ns : String) (ps : Bool)
    (ap : AppliesPerProject) :
    Holds (run "mantis apply" job o r pr u ns ps ap) [] (applyRefused job o r u ap) := by
  unfold run
  simp only [runSwitch_apply]
  unfold runApply reportPolicyError reportApplyMergeabilityError
  dsimp only
  repeat' first
    | rw [prog_bind_assoc]
    | rw [prog_pure_bind]
    | (refine (holds_perform_bind _ _ _ _).2 ?_; intro _)
    | rw [holds_pure]
    | rw [holds_panic]
    | rw [holds_fatal]
    | split
  all_goals try simp only [applyRefused, List.nil_append, List.cons_append, List.any_cons,
    List.any_nil, Event.isMergedFalse, Event.isMergeableFalse, Bool.or_false, Bool.false_or,
    Bool.or_self, Bool.false_eq_true, false_implies, implies_true, Bool.not_eq_true',
    Bool.true_or, Bool.or_true]
  all_goals intro h1 h2
  all_goals first
    | exact absurd (And.intro h2 h1) (by assumption)
    | exact ⟨rfl, _, _, by assumption, rfl⟩

theorem any_of_mem {P : Event → Bool} {t : List Event} {e : Event} (he : e ∈ t)
    (hp : P e = true) : t.any P = true :=
  List.any_eq_true.2 ⟨e, he, hp⟩

/-! ## C5: apply on a pull request that is neither merged nor mergeable -/

/-- C5: let a command `"mantis apply"` pass the access check of `RunJobs`, and
let `IsMerged` and `IsMergeable` both answer `(false, nil)` in the execution
of `run` for it.  Then `run` makes exactly these calls: its own access check,
the AWS credentials, the usage record, the `pending` commit status,
`IsMerged`, `IsMergeable`, `SupportsMarkdown` and one report whose body is
`"cannot perform Apply since the PR is not currently mergeable"`; so it never
retrieves the stored plan, never calls `CheckPlanPolicy`, the pre-apply
`CheckAccessPolicy` or `Apply`.  It returns a nil result, that text as
output and a non-nil error, with `appliesPerProject[project] = false`.
`RunJobs` then reports the run with status `"FAILED"` and that output, leaves
the loop over the job's commands, and `appliesPerProject[project]` is
`false`. -/
theorem C5_apply_refused_when_not_mergeable {σ : Type} (h : Handler σ) (s : σ) (job : Job)
    (i : Nat) (o r : String) (ps : Bool) (rest : List String) (st : LoopState)
    (hacc : (h (.CheckAccessPolicy o r job.ProjectName job.ProjectDir "mantis apply"
      job.PullRequestNumber job.RequestedBy []) s).1 = .ok true)
    (hMerged : ∃ n, (⟨.IsMerged n, .ok false⟩ : Event) ∈
      trace h (run "mantis apply" job o r job.PullRequestNumber job.RequestedBy job.Namespace ps
        st.appliesPerProject)
        (h (.CheckAccessPolicy o r job.ProjectName job.ProjectDir "mantis apply"
          job.PullRequestNumber job.RequestedBy []) s).2)
    (hMergeable : ∃ n, (⟨.IsMergeable n, .ok false⟩ : Event) ∈
      trace h (run "mantis apply" job o r job.PullRequestNumber job.RequestedBy job.Namespace ps
        st.appliesPerProject)
        (h (.CheckAccessPolicy o r job.ProjectName job.ProjectDir "mantis apply"
          job.PullRequestNumber job.RequestedBy []) s).2) :
    outcome h (run "mantis apply" job o r job.PullRequestNumber job.RequestedBy job.Namespace ps
        st.appliesPerProject)
        (h (.CheckAccessPolicy o r job.ProjectName job.ProjectDir "mantis apply"
          job.PullRequestNumber job.RequestedBy []) s).2 =
      .ok ({ result := none, output := notMergeableComment, planJson := "",
             err := some (.format notMergeableComment) },
        mapSet st.appliesPerProject job.ProjectName false) ∧
    (∃ n f, job.PullRequestNumber = some n ∧
      calls h (run "mantis apply" job o r job.PullRequestNumber job.RequestedBy job.Namespace ps
        st.appliesPerProject)
        (h (.CheckAccessPolicy o r job.ProjectName job.ProjectDir "mantis apply"
          job.PullRequestNumber job.RequestedBy []) s).2 =
        [.CheckAccessPolicy o r job.ProjectName job.ProjectDir "mantis apply"
            job.PullRequestNumber job.RequestedBy [],
          .PopulateAwsCredentialsEnvVarsForJob job,
          .SendUsageRecord job.RequestedBy job.EventName "apply",
          .SetStatus n "pending" (job.ProjectName ++ "/apply"),
          .IsMerged n, .IsMergeable n, .SupportsMarkdown, .Report notMergeableComment f]) ∧
    ∃ st', outcome h (commandLoop job i o r ps ("mantis apply" :: rest) st) s = .ok (.broke st') ∧
      mapGet st'.appliesPerProject job.ProjectName = some false ∧
      calls h (commandLoop job i o r ps ("mantis apply" :: rest) st) s =
        .CheckAccessPolicy o r job.ProjectName job.ProjectDir "mantis apply"
            job.PullRequestNumber job.RequestedBy [] ::
          (calls h (run "mantis apply" job o r job.PullRequestNumber job.RequestedBy job.Namespace
            ps st.appliesPerProject)
            (h (.CheckAccessPolicy o r job.ProjectName job.ProjectDir "mantis apply"
              job.PullRequestNumber job.RequestedBy []) s).2 ++
          [.ReportProjectRun (o ++ "-" ++ r) job.ProjectName "FAILED" "mantis apply"
            notMergeableComment]) := by
  obtain ⟨n1, hm1⟩ := hMerged
  obtain ⟨n2, hm2⟩ := hMergeable
  have hpath := (run_apply_refused job o r job.PullRequestNumber job.RequestedBy job.Namespace ps
    st.appliesPerProject).exec h
    (h (.CheckAccessPolicy o r job.ProjectName job.ProjectDir "mantis apply"
      job.PullRequestNumber job.RequestedBy []) s).2
  simp only [List.nil_append] at hpath
  obtain ⟨hres, n, f, hpr, hcalls⟩ := hpath (any_of_mem hm1 rfl) (any_of_mem hm2 rfl)
  rcases hx : exec h (run "mantis apply" job o r job.PullRequestNumber job.RequestedBy
    job.Namespace ps st.appliesPerProject)
    (h (.CheckAccessPolicy o r job.ProjectName job.ProjectDir "mantis apply"
      job.PullRequestNumber job.RequestedBy []) s).2 with ⟨res, s2, t2⟩
  rw [hx] at hres hcalls
  simp only at hres hcalls
  subst hres
  have hstep := commandLoop_failed_step h s job i o r ps "mantis apply" rest st hacc _ _ s2 t2 hx
    (.format notMergeableComment) rfl
  refine ⟨by simp [outcome, hx, failWith], ⟨n, f, hpr, by simpa [calls, trace, hx] using hcalls⟩,
    ⟨st.exectorResults,
      mapSet (mapSet st.appliesPerProject job.ProjectName false) job.ProjectName false⟩,
    by simp [outcome, hstep, failWith, resultsAfterFailure], mapGet_mapSet _ _ _, ?_⟩
  simp [calls, trace, hstep, hx, failWith]

/-- C5 (witness): the job `applyThenPlanJob` on a pull request that is neither
merged nor mergeable makes ten calls for its command `"mantis apply"`, none of
them to the plan storage, the plan policy or the executor. -/
theorem C5_apply_refused_when_not_mergeable_witness :
    calls notMergeable (commandLoop applyThenPlanJob 0 "o" "r" false
        ["mantis apply", "mantis plan"] { exectorResults := [{}], appliesPerProject := [] }) () =
      [.CheckAccessPolicy "o" "r" "web" "web" "mantis apply" (some 1) "alice" [],
        .CheckAccessPolicy "o" "r" "web" "web" "mantis apply" (some 1) "alice" [],
        .PopulateAwsCredentialsEnvVarsForJob applyThenPlanJob,
        .SendUsageRecord "alice" "issue_comment" "apply",
        .SetStatus 1 "pending" "web/apply", .IsMerged 1, .IsMergeable 1, .SupportsMarkdown,
        .Report notMergeableComment (.AsCollapsibleComment "Apply error" false),
        .ReportProjectRun "o-r" "web" "FAILED" "mantis apply" notMergeableComment] := by
  have hw := (C5_apply_refused_when_not_mergeable notMergeable () applyThenPlanJob 0 "o" "r" false
    ["mantis plan"] { exectorResults := [{}], appliesPerProject := [] } rfl
    ⟨1, by repeat (first | exact List.Mem.head _ | apply List.Mem.tail)⟩
    ⟨1, by repeat (first | exact List.Mem.head _ | apply List.Mem.tail)⟩).2.2
  obtain ⟨_, _, _, hc⟩ := hw
  rw [hc]
  rfl

set_option maxHeartbeats 4000000 in
theorem run_apply_guarded (job : Job) (o r : String) (pr : Option Int) (u ns : String) (ps : Bool)
    (ap : AppliesPerProject) :
    Holds (run "mantis apply" job o r pr u ns ps ap) [] (applyGuarded job o r u ns) := by
  unfold run
  simp only [runSwitch_apply]
  unfold runApply reportPolicyError reportApplyMergeabilityError
  dsimp only
  repeat' first
    | rw [prog_bind_assoc]
    | rw [prog_pure_bind]
    | (refine (holds_perform_bind _ _ _ _).2 ?_; intro _)
    | rw [holds_pure]
    | rw [holds_panic]
    | rw [holds_fatal]
    | split
  all_goals try simp only [ne_eq, not_not] at *
  all_goals try subst_vars
  all_goals refine ⟨?_, ?_⟩
  all_goals try simp only [List.nil_append, List.cons_append, eventsBefore, Call.isApply,
    Bool.false_eq_true, if_false, if_true, Option.map_none', Option.map_some', List.any_cons,
    List.any_nil, List.all_cons, List.all_nil, Event.isRetrieveError, Bool.or_false,
    Bool.false_or, Bool.or_self, false_implies, implies_true, Bool.not_false, Bool.and_self,
    Bool.not_true, Bool.and_false, Bool.true_or, Bool.or_true, forall_const, true_and,
    reduceCtorEq, IsEmpty.forall_iff]

  all_goals first
    | exact ⟨⟨_, _, _, rfl, rfl⟩, trivial⟩
    | (intro l hl; cases hl
       first
         | exact ⟨_, _, rfl, Or.inl ⟨_, rfl, rfl⟩⟩
         | exact ⟨_, _, rfl, Or.inr ⟨_, _, _, _, by assumption, rfl⟩⟩)

theorem all_of_all_events {P : Call → Bool} {t : List Event}
    (ht : t.all (fun e => !P e.call) = true) : ∀ c ∈ t.map Event.call, P c = false := by
  intro c hc
  obtain ⟨e, he, rfl⟩ := List.mem_map.1 hc
  simpa using List.all_eq_true.1 ht e he

/-! ## C6: the access check before the apply -/

/-- C6: in every execution of `run` for `"mantis apply"` that calls `Apply`,
the call right before the first `Apply` is `CheckAccessPolicy` for the command,
answered `(true, nil)`, and its `planPolicyViolations` argument is: the empty
list, the call before it being the read of `PLAN_UPLOAD_DESTINATION` as `""`;
or the violations that `CheckPlanPolicy` answered for the plan JSON that
`RetrievePlanJson` answered, `PLAN_UPLOAD_DESTINATION` having been read as a
non-empty string right before these two calls.  And in every execution in
which `RetrievePlanJson` answers an error, `run` returns a non-nil error and
makes no `Apply` call. -/
theorem C6_pre_apply_check_uses_plan_violations {σ : Type} (h : Handler σ) (s : σ) (job : Job)
    (o r : String) (pr : Option Int) (u ns : String) (ps : Bool) (ap : AppliesPerProject) :
    (∀ l, eventsBefore Call.isApply (trace h (run "mantis apply" job o r pr u ns ps ap) s) =
        some l →
      ∃ v rest, l = (⟨.CheckAccessPolicy o r job.ProjectName job.ProjectDir "mantis apply"
          job.PullRequestNumber u v, .ok true⟩ : Event) :: rest ∧
        ((∃ rest', v = [] ∧
            rest = (⟨.Getenv "PLAN_UPLOAD_DESTINATION", ""⟩ : Event) :: rest') ∨
         (∃ json allowed dest rest', dest ≠ "" ∧
           rest = (⟨.CheckPlanPolicy r o job.ProjectName job.ProjectDir json,
               .ok (allowed, v)⟩ : Event) ::
             (⟨.RetrievePlanJson ns job.ProjectName, .ok json⟩ : Event) ::
             (⟨.Getenv "PLAN_UPLOAD_DESTINATION", dest⟩ : Event) :: rest'))) ∧
    (∀ e, (⟨.RetrievePlanJson ns job.ProjectName, .error e⟩ : Event) ∈
        trace h (run "mantis apply" job o r pr u ns ps ap) s →
      (∃ rr ap1 err, outcome h (run "mantis apply" job o r pr u ns ps ap) s = .ok (rr, ap1) ∧
        rr.err = some err) ∧
      ∀ c ∈ calls h (run "mantis apply" job o r pr u ns ps ap) s, c.isApply = false) := by
  have hpath := (run_apply_guarded job o r pr u ns ps ap).exec h s
  simp only [List.nil_append] at hpath
  refine ⟨hpath.1, fun e he => ?_⟩
  obtain ⟨hres, hall⟩ := hpath.2 (any_of_mem he rfl)
  exact ⟨hres, all_of_all_events hall⟩

/-- C6 (witness): with a plan store whose plan breaks `"rule A"`, the access
check before the apply of `webJob` gets the violations `["rule A"]`; and when
the stored plan cannot be retrieved, `run` returns the error
`"Failed to retrieve stored plan. not found"` without applying. -/
theorem C6_pre_apply_check_uses_plan_violations_witness :
    (∃ rest, eventsBefore Call.isApply
        (trace planStored (run "mantis apply" webJob "o" "r" (some 1) "alice" "o/r" true []) ()) =
      some ((⟨.CheckAccessPolicy "o" "r" "web" "web" "mantis apply" (some 1) "alice" ["rule A"],
          .ok true⟩ : Event) ::
        (⟨.CheckPlanPolicy "r" "o" "web" "web" "{}", .ok (false, ["rule A"])⟩ : Event) ::
        rest)) ∧
    (outcome planLost (run "mantis apply" webJob "o" "r" (some 1) "alice" "o/r" true []) () =
        .ok (failWith "Failed to retrieve stored plan. not found" "", [("web", false)]) ∧
      ∀ c ∈ calls planLost (run "mantis apply" webJob "o" "r" (some 1) "alice" "o/r" true []) (),
        c.isApply = false) :=
  ⟨⟨_, rfl⟩,
    rfl,
    ((C6_pre_apply_check_uses_plan_violations planLost () webJob "o" "r" (some 1) "alice" "o/r"
      true []).2 "not found"
      (by repeat (first | exact List.Mem.head _ | apply List.Mem.tail))).2⟩

set_option maxHeartbeats 4000000 in
theorem run_apply_recorded (job : Job) (o r : String) (pr : Option Int) (u ns : String) (ps : Bool)
    (ap : AppliesPerProject) :
    Holds (run "mantis apply" job o r pr u ns ps ap) [] (applyRecorded job ns) := by
  unfold run
  simp only [runSwitch_apply]
  unfold runApply reportPolicyError reportApplyMergeabilityError
  dsimp only
  repeat' first
    | rw [prog_bind_assoc]
    | rw [prog_pure_bind]
    | (refine (holds_perform_bind _ _ _ _).2 ?_; intro _)
    | rw [holds_pure]
    | rw [holds_panic]
    | rw [holds_fatal]
    | split
  all_goals intro rr ap1 h1 h2
  all_goals cases h1
  all_goals first
    | exact absurd h2 (Option.some_ne_none _)
    | exact ⟨_, rfl, rfl, by assumption, by rw [mapGet_mapSet]; simp_all⟩

/-! ## C7: the record of an apply that returned no error -/

/-- C7 (counterexample): when `Apply` answers `applyPerformed = false` with a
nil error, `run` for `"mantis apply"` returns a nil error and
`appliesPerProject["web"]` is `false` on return, not `true`. -/
theorem C7_apply_not_performed_returns_no_error :
    ∃ rr ap, outcome applySkipped
        (run "mantis apply" applyJob "o" "r" (some 1) "alice" "o/r" false []) () = .ok (rr, ap) ∧
      rr.err = none ∧ mapGet ap applyJob.ProjectName = some false ∧
      mapGet ap applyJob.ProjectName ≠ some true :=
  ⟨_, _, rfl, rfl, rfl, by decide⟩

/-- C7 (amended): whenever `run` for `"mantis apply"` returns a nil error, it
called `Apply` exactly once, for the project of the job, `Apply` answered a
nil error, and `appliesPerProject[job.ProjectName]` on return is the
`applyPerformed` flag that `Apply` answered: `true` when the apply was
performed, `false` when it was not. -/
theorem C7_apply_success_records_performed {σ : Type} (h : Handler σ) (s : σ) (job : Job)
    (o r : String) (pr : Option Int) (u ns : String) (ps : Bool) (ap : AppliesPerProject)
    (rr : RunReturn) (ap1 : AppliesPerProject)
    (hret : outcome h (run "mantis apply" job o r pr u ns ps ap) s = .ok (rr, ap1))
    (herr : rr.err = none) :
    ∃ a : ApplyAnswer,
      (trace h (run "mantis apply" job o r pr u ns ps ap) s).filterMap Event.applyAnswer = [a] ∧
      (calls h (run "mantis apply" job o r pr u ns ps ap) s).filter Call.isApply =
        [.Apply ns job.ProjectName] ∧
      a.err = none ∧ mapGet ap1 job.ProjectName = some a.applyPerformed := by
  have hpath := (run_apply_recorded job o r pr u ns ps ap).exec h s
  simp only [List.nil_append] at hpath
  exact hpath rr ap1 hret herr

/-- C7 (witness): the apply of `applyJob` with collaborators that perform it
returns a nil error with `appliesPerProject["web"] = true`. -/
theorem C7_apply_success_records_performed_witness :
    ∃ a : ApplyAnswer,
      (trace allowAll (run "mantis apply" applyJob "o" "r" (some 1) "alice" "o/r" false [])
        ()).filterMap Event.applyAnswer = [a] ∧
      (calls allowAll (run "mantis apply" applyJob "o" "r" (some 1) "alice" "o/r" false [])
        ()).filter Call.isApply = [.Apply "o/r" "web"] ∧
      a.err = none ∧ mapGet [("web", true)] "web" = some a.applyPerformed :=
  C7_apply_success_records_performed allowAll () applyJob "o" "r" (some 1) "alice" "o/r" false []
    { result := some { TerraformOutput := "applied", ApplyResult := some () },
      output := "applied", planJson := "", err := none }
    [("web", true)] rfl rfl

theorem runSwitch_plan (job : Job) (o r : String) (pr : Option Int) (n : Int) (u ns : String)
    (ps : Bool) (ap : AppliesPerProject) :
    runSwitch "mantis plan" job o r pr n u ns ps ap =
      (do let r ← runPlan job o r n u ns; pure (r, ap)) := by
  simp [runSwitch]

theorem prog_panic_bind {α β : Type} (m : String) (f : α → Prog β) :
    ((Prog.panic m : Prog α) >>= f) = Prog.panic m := rfl

theorem prog_fatal_bind {α β : Type} (m : String) (f : α → Prog β) :
    ((Prog.fatal m : Prog α) >>= f) = Prog.fatal m := rfl

set_option maxHeartbeats 4000000 in
theorem run_plan_refused (job : Job) (o r : String) (pr : Option Int) (u ns : String) (ps : Bool)
    (ap : AppliesPerProject) :
    Holds (run "mantis plan" job o r pr u ns ps ap) [] (planRefused job o r u ns ap) := by
  unfold run
  simp only [runSwitch_plan]
  unfold runPlan reportPolicyError reportTerraformPlanOutput reportEmptyPlanOutput
  dsimp only
  repeat' first
    | rw [prog_bind_assoc]
    | rw [prog_pure_bind]
    | rw [prog_panic_bind]
    | rw [prog_fatal_bind]
    | (refine (holds_perform_bind _ _ _ _).2 ?_; intro _)
    | rw [holds_pure]
    | rw [holds_panic]
    | rw [holds_fatal]
    | split
  all_goals try simp only [Bool.not_eq_false] at *
  all_goals try subst_vars
  all_goals simp only [planRefused, List.nil_append, List.cons_append, List.filterMap_cons,
    List.filterMap_nil, Event.planDenied, List.mem_cons, List.mem_singleton, List.not_mem_nil,
    false_implies, implies_true, or_false, forall_eq]
  all_goals exact ⟨_, _, _, _, by assumption, by assumption, by assumption, rfl, rfl⟩

/-! ## C10: a plan that fails the plan policy -/

/-- C10: let a command `"mantis plan"` pass the access check of `RunJobs`, and
let `CheckPlanPolicy` answer `allowed = false` with `reasons` in the execution
of `run` for it.  Then the plan was performed and is not empty, and the last
call of `run` reports to the Reporter the body
`"Terraform plan failed validation checks :x:<br>"` followed by the reasons
in order, each after four spaces, joined by `"<br>"`; `run` returns the
error `"Plan is not allowed"`.  `RunJobs` then reports the run with status
`"FAILED"` and leaves the loop over the job's commands: whatever commands
follow, its calls for the job are the access check, those of `run` and the
run report, and none of them is `Apply`. -/
theorem C10_rejected_plan_fails_job {σ : Type} (h : Handler σ) (s : σ) (job : Job) (i : Nat)
    (o r : String) (ps : Bool) (rest : List String) (st : LoopState) (json : String)
    (reasons : List String)
    (hacc : (h (.CheckAccessPolicy o r job.ProjectName job.ProjectDir "mantis plan"
      job.PullRequestNumber job.RequestedBy []) s).1 = .ok true)
    (hdenied : (⟨.CheckPlanPolicy r o job.ProjectName job.ProjectDir json,
        .ok (false, reasons)⟩ : Event) ∈
      trace h (run "mantis plan" job o r job.PullRequestNumber job.RequestedBy job.Namespace ps
        st.appliesPerProject)
        (h (.CheckAccessPolicy o r job.ProjectName job.ProjectDir "mantis plan"
          job.PullRequestNumber job.RequestedBy []) s).2) :
    (∃ (n : Int) (p : PlanAnswer) (f1 f2 : Formatter), job.PullRequestNumber = some n ∧
      p.planPerformed = true ∧ p.isNonEmptyPlan = true ∧
      outcome h (run "mantis plan" job o r job.PullRequestNumber job.RequestedBy job.Namespace ps
          st.appliesPerProject)
          (h (.CheckAccessPolicy o r job.ProjectName job.ProjectDir "mantis plan"
            job.PullRequestNumber job.RequestedBy []) s).2 =
        .ok ({ result := none, output := "Plan is not allowed", planJson := p.planJsonOutput,
               err := some (.format "Plan is not allowed") }, st.appliesPerProject) ∧
      calls h (run "mantis plan" job o r job.PullRequestNumber job.RequestedBy job.Namespace ps
          st.appliesPerProject)
          (h (.CheckAccessPolicy o r job.ProjectName job.ProjectDir "mantis plan"
            job.PullRequestNumber job.RequestedBy []) s).2 =
        [.CheckAccessPolicy o r job.ProjectName job.ProjectDir "mantis plan"
            job.PullRequestNumber job.RequestedBy [],
          .PopulateAwsCredentialsEnvVarsForJob job,
          .SendUsageRecord job.RequestedBy job.EventName "plan",
          .SetStatus n "pending" (job.ProjectName ++ "/plan"),
          .Plan job.Namespace job.ProjectName, .SupportsMarkdown, .Report p.plan f1,
          .CheckPlanPolicy r o job.ProjectName job.ProjectDir p.planJsonOutput,
          .SupportsMarkdown, .GetTfSummarizePlan p.planJsonOutput,
          .Report ("Terraform plan failed validation checks :x:<br>" ++
            String.intercalate "<br>" (reasons.map (fun reason => "    " ++ reason))) f2]) ∧
    (∃ st', outcome h (commandLoop job i o r ps ("mantis plan" :: rest) st) s =
        .ok (.broke st')) ∧
    calls h (commandLoop job i o r ps ("mantis plan" :: rest) st) s =
      .CheckAccessPolicy o r job.ProjectName job.ProjectDir "mantis plan"
          job.PullRequestNumber job.RequestedBy [] ::
        (calls h (run "mantis plan" job o r job.PullRequestNumber job.RequestedBy job.Namespace
          ps st.appliesPerProject)
          (h (.CheckAccessPolicy o r job.ProjectName job.ProjectDir "mantis plan"
            job.PullRequestNumber job.RequestedBy []) s).2 ++
        [.ReportProjectRun (o ++ "-" ++ r) job.ProjectName "FAILED" "mantis plan"
          "Plan is not allowed"]) ∧
    ∀ c ∈ calls h (commandLoop job i o r ps ("mantis plan" :: rest) st) s, c.isApply = false := by
  have hpath := (run_plan_refused job o r job.PullRequestNumber job.RequestedBy job.Namespace ps
    st.appliesPerProject).exec h
    (h (.CheckAccessPolicy o r job.ProjectName job.ProjectDir "mantis plan"
      job.PullRequestNumber job.RequestedBy []) s).2
  simp only [List.nil_append] at hpath
  obtain ⟨n, p, f1, f2, hpr, hperf, hne, hres, hcalls⟩ :=
    hpath reasons (List.mem_filterMap.2 ⟨_, hdenied, rfl⟩)
  rcases hx : exec h (run "mantis plan" job o r job.PullRequestNumber job.RequestedBy
    job.Namespace ps st.appliesPerProject)
    (h (.CheckAccessPolicy o r job.ProjectName job.ProjectDir "mantis plan"
      job.PullRequestNumber job.RequestedBy []) s).2 with ⟨res, s2, t2⟩
  rw [hx] at hres hcalls
  simp only at hres hcalls
  subst hres
  have hstep := commandLoop_failed_step h s job i o r ps "mantis plan" rest st hacc _ _ s2 t2 hx
    (.format "Plan is not allowed") rfl
  have hc : calls h (commandLoop job i o r ps ("mantis plan" :: rest) st) s =
      .CheckAccessPolicy o r job.ProjectName job.ProjectDir "mantis plan"
          job.PullRequestNumber job.RequestedBy [] ::
        (t2.map Event.call ++
        [.ReportProjectRun (o ++ "-" ++ r) job.ProjectName "FAILED" "mantis plan"
          "Plan is not allowed"]) := by
    simp [calls, trace, hstep, failWith]
  refine ⟨⟨n, p, f1, f2, hpr, hperf, hne, by simp [outcome, hx, failWith],
    by simpa [calls, trace, hx, planFailedMessage] using hcalls⟩,
    ⟨_, by rw [outcome, hstep]⟩, by simpa [calls, trace, hx] using hc, ?_⟩
  rw [hc, hcalls]
  intro c hcm
  simp only [List.cons_append, List.nil_append, List.mem_cons, List.mem_singleton,
    List.not_mem_nil, or_false] at hcm
  rcases hcm with h1 | h1 | h1 | h1 | h1 | h1 | h1 | h1 | h1 | h1 | h1 | h1 | h1 <;>
    (subst h1; rfl)

/-- C10 (witness): the plan of `planThenApplyJob` is rejected with the reasons
`"rule A"` and `"rule B"`; the body reported is
`"Terraform plan failed validation checks :x:<br>    rule A<br>    rule B"`,
the run is reported as `"FAILED"` and the listed `"mantis apply"` is never
reached. -/
theorem C10_rejected_plan_fails_job_witness :
    calls planRejected (commandLoop planThenApplyJob 0 "o" "r" false
        ["mantis plan", "mantis apply"] { exectorResults := [{}], appliesPerProject := [] }) () =
      [.CheckAccessPolicy "o" "r" "web" "web" "mantis plan" (some 1) "alice" [],
        .CheckAccessPolicy "o" "r" "web" "web" "mantis plan" (some 1) "alice" [],
        .PopulateAwsCredentialsEnvVarsForJob planThenApplyJob,
        .SendUsageRecord "alice" "issue_comment" "plan",
        .SetStatus 1 "pending" "web/plan", .Plan "o/r" "web", .SupportsMarkdown,
        .Report "plan" (.GetTerraformOutputAsCollapsibleComment "Plan output" true),
        .CheckPlanPolicy "r" "o" "web" "web" "{}", .SupportsMarkdown, .GetTfSummarizePlan "{}",
        .Report "Terraform plan failed validation checks :x:<br>    rule A<br>    rule B"
          (.AsCollapsibleComment "Terraform plan validation check (web)" false),
        .ReportProjectRun "o-r" "web" "FAILED" "mantis plan" "Plan is not allowed"] := by
  have hw := (C10_rejected_plan_fails_job planRejected () planThenApplyJob 0 "o" "r" false
    ["mantis apply"] { exectorResults := [{}], appliesPerProject := [] } "{}" ["rule A", "rule B"]
    rfl (by repeat (first | exact List.Mem.head _ | apply List.Mem.tail))).2.2.1
  rw [hw]
  decide

/-! ## The results of the loops -/

theorem returns_pure {α : Type} {R : α → Prop} (a : α) (h : R a) : Returns (pure a) R := h

theorem returns_panic {α : Type} (R : α → Prop) (m : String) : Returns (Prog.panic m) R :=
  trivial

theorem returns_fatal {α : Type} (R : α → Prop) (m : String) : Returns (Prog.fatal m) R :=
  trivial

theorem returns_perform_bind {β : Type} {R : β → Prop} (c : Call) (f : Resp c → Prog β)
    (hf : ∀ a, Returns (f a) R) : Returns (perform c >>= f) R := hf

theorem returns_bind {α β : Type} {p : Prog α} {f : α → Prog β} {R1 : α → Prop} {R : β → Prop}
    (hp : Returns p R1) (hf : ∀ a, R1 a → Returns (f a) R) : Returns (p >>= f) R := by
  induction p with
  | ret a => exact hf a hp
  | panic m => trivial
  | fatal m => trivial
  | call c k ih => exact fun r => ih r (hp r)

theorem returns_any {α : Type} (p : Prog α) : Returns p (fun _ => True) := by
  induction p with
  | ret a => trivial
  | panic m => trivial
  | fatal m => trivial
  | call c k ih => exact fun r => ih r

theorem returns_exec {σ α : Type} {p : Prog α} {R : α → Prop} (hp : Returns p R)
    (h : Handler σ) (s : σ) (a : α) (ha : (exec h p s).1 = .ok a) : R a := by
  induction p generalizing s with
  | ret a0 =>
    simp only [exec_ret, Res.ok.injEq] at ha
    exact ha ▸ hp
  | panic m => simp at ha
  | fatal m => simp at ha
  | call c k ih => exact ih _ (hp _) _ (by simpa [exec_call] using ha)

theorem commandLoop_keeps (job : Job) (i : Nat) (o r : String) (ps : Bool) (n : Nat)
    (cmds : List String) (st : LoopState) (hn : st.exectorResults.length = n) :
    Returns (commandLoop job i o r ps cmds st) (LoopExit.keeps n) := by
  induction cmds generalizing st with
  | nil => exact returns_pure _ hn
  | cons c rest ih =>
    unfold commandLoop
    refine returns_perform_bind _ _ ?_
    intro allowed
    split
    · exact returns_pure _ trivial
    · exact returns_bind (returns_any _) (fun _ _ => ih _ hn)
    · refine returns_bind (returns_any _) ?_
      intro rr _
      split
      · refine returns_perform_bind _ _ ?_
        intro _
        split
        · exact returns_pure _ (by simp [LoopExit.keeps, hn])
        · exact returns_pure _ hn
      · split
        · exact returns_panic _ _
        · refine returns_perform_bind _ _ ?_
          intro _
          refine returns_bind (returns_any (ReportRunData _ _)) ?_
          intro _ _
          exact ih _ (by simp [hn])

theorem jobLoop_keeps (ps : Bool) (n : Nat) (jobs : List Job) (i : Nat) (st : LoopState)
    (hn : st.exectorResults.length = n) :
    Returns (jobLoop ps jobs i st) (fun x => ∀ st', x = .ok st' → st'.exectorResults.length = n) := by
  induction jobs generalizing i st with
  | nil =>
    refine returns_pure _ ?_
    intro st' h'
    cases h'
    exact hn
  | cons job rest ih =>
    unfold jobLoop
    split
    · refine returns_bind (commandLoop_keeps job i _ _ ps n job.Commands st hn) ?_
      intro ex hex
      split
      · refine returns_pure _ ?_
        intro st' h'
        cases h'
      · exact ih _ _ hex
      · exact ih _ _ hex
    · exact returns_panic _ _

/-! ## The part of `RunJobs` after the loops -/

set_option maxHeartbeats 1000000 in
theorem finalStatus_reported (j0 : Job) (rest : List Job) (jobId : String) (rf rt : Bool)
    (cid : Int) (r0 : DiggerExecutorResult) (rs : List DiggerExecutorResult)
    (ap : AppliesPerProject) (n : Int) (hpr : j0.PullRequestNumber = some n) :
    Holds (finalStatus (j0 :: rest) jobId rf rt cid ⟨r0 :: rs, ap⟩) []
      (jobStatusReported j0 r0 jobId rt) := by
  unfold finalStatus
  simp only [hpr]
  repeat' first
    | rw [prog_bind_assoc]
    | rw [prog_pure_bind]
    | rw [prog_panic_bind]
    | rw [prog_fatal_bind]
    | (refine (holds_perform_bind _ _ _ _).2 ?_; intro _)
    | rw [holds_pure]
    | rw [holds_panic]
    | rw [holds_fatal]
    | split
  all_goals simp [jobStatusReported, Event.flushAnswer, Call.isReportProjectJobStatus]

theorem finalStatus_head {σ : Type} (h : Handler σ) (s : σ) (jobs : List Job) (jobId : String)
    (rf rt : Bool) (cid : Int) (st : LoopState)
    (hc : st.appliesPerProject.all (fun e => e.2) = true ∧ rf = true) :
    ∃ t, trace h (finalStatus jobs jobId rf rt cid st) s = ⟨.Flush, (h .Flush s).1⟩ :: t := by
  unfold finalStatus
  simp only [hc, and_self, if_true, trace, exec_perform_bind]
  exact ⟨_, rfl⟩

theorem finalStatus_skip {σ : Type} (h : Handler σ) (s : σ) (jobs : List Job) (jobId : String)
    (rf rt : Bool) (cid : Int) (st : LoopState)
    (hc : ¬ (st.appliesPerProject.all (fun e => e.2) = true ∧ rf = true)) :
    trace h (finalStatus jobs jobId rf rt cid st) s = [] := by
  unfold finalStatus
  simp only [hc, if_false, trace, exec_pure]

theorem filter_calls_of_count {P : Call → Bool} {t : List Event} (h0 : countCalls P t ≤ 0) :
    (t.map Event.call).filter P = [] := by
  induction t with
  | nil => rfl
  | cons e t ih =>
    simp only [countCalls, List.countP_cons] at h0
    cases hP : P e.call
    · simp only [hP, Bool.false_eq_true, if_false, Nat.add_zero] at h0
      simp [hP, ih h0]
    · simp [hP] at h0

theorem calls_afterDefer_flush {σ α : Type} (h : Handler σ) (x : Res α × σ × List Event) :
    ((afterDefer h (do let _ ← perform .Flush; pure ()) x).2.2.map Event.call).filter
        Call.isReportProjectJobStatus =
      (x.2.2.map Event.call).filter Call.isReportProjectJobStatus := by
  rcases x with ⟨res, s, t⟩
  cases res <;>
    simp [afterDefer, exec_perform_bind, Call.isReportProjectJobStatus]

theorem trace_RunJobsBody {σ : Type} (h : Handler σ) (s : σ) (jobs : List Job) (ps : Bool)
    (jobId : String) (rf rt : Bool) (cid : Int) (res : Res (Except GoError LoopState)) (s1 : σ)
    (t1 : List Event)
    (hloop : exec h (jobLoop ps jobs 0 ⟨List.replicate jobs.length {}, []⟩) s = (res, s1, t1)) :
    (exec h (RunJobsBody jobs ps jobId rf rt cid) s).2.2 =
      t1 ++ afterLoops h jobs jobId rf rt cid res s1 := by
  unfold RunJobsBody
  simp only [exec_bind, hloop]
  cases res with
  | ok a => cases a <;> simp [andThen, trace, afterLoops]
  | panic m => simp [andThen, afterLoops]
  | fatal m => simp [andThen, afterLoops]

/-- The `ReportProjectJobStatus` calls of `RunJobs` are those of the part after
the loops. -/
theorem jobStatus_calls_RunJobs {σ : Type} (h : Handler σ) (s : σ) (jobs : List Job) (ps : Bool)
    (jobId : String) (rf rt : Bool) (cid : Int) (res : Res (Except GoError LoopState)) (s1 : σ)
    (t1 : List Event)
    (hloop : exec h (jobLoop ps jobs 0 ⟨List.replicate jobs.length {}, []⟩) s = (res, s1, t1)) :
    (calls h (RunJobs jobs ps jobId rf rt cid) s).filter Call.isReportProjectJobStatus =
      ((afterLoops h jobs jobId rf rt cid res s1).map Event.call).filter
        Call.isReportProjectJobStatus := by
  have hb := (bounded_jobLoop "" ps jobs 0 ⟨List.replicate jobs.length {}, []⟩).exec h s
  rw [hloop] at hb
  have h1 := filter_calls_of_count hb.2
  simp only [List.nil_append] at h1
  rw [calls, trace, exec_RunJobs, calls_afterDefer_flush,
    trace_RunJobsBody h s jobs ps jobId rf rt cid res s1 t1 hloop, List.map_append,
    List.filter_append, h1, List.nil_append]

theorem jobStatus_calls_afterLoops {σ : Type} (h : Handler σ) (s1 : σ) (j0 : Job)
    (rest : List Job) (jobId : String) (rf rt : Bool) (cid : Int) (n : Int)
    (hpr : j0.PullRequestNumber = some n) (st : LoopState)
    (hlen : st.exectorResults.length = (j0 :: rest).length) :
    ∃ r0 rs, st.exectorResults = r0 :: rs ∧
      ((afterLoops h (j0 :: rest) jobId rf rt cid (.ok (.ok st)) s1).map Event.call).filter
          Call.isReportProjectJobStatus =
        if st.appliesPerProject.all (fun e => e.2) = true ∧ rf = true then
          match (h .Flush s1).1 with
          | .ok (_, url) =>
            [.ReportProjectJobStatus (replaceSlash j0.Namespace) j0.ProjectName jobId "succeeded"
              r0.PlanResult url (if rt then r0.TerraformOutput else "")]
          | .error _ => []
        else [] := by
  rcases st with ⟨results, ap⟩
  cases results with
  | nil => simp at hlen
  | cons r0 rs =>
    refine ⟨r0, rs, rfl, ?_⟩
    by_cases hc : ap.all (fun e => e.2) = true ∧ rf = true
    · obtain ⟨t, ht⟩ := finalStatus_head h s1 (j0 :: rest) jobId rf rt cid ⟨r0 :: rs, ap⟩ hc
      have hp := (finalStatus_reported j0 rest jobId rf rt cid r0 rs ap n hpr).exec h s1
      simp only [List.nil_append, jobStatusReported] at hp
      simp only [trace] at ht
      rw [ht] at hp
      rw [if_pos hc]
      simp only [afterLoops, trace]
      rw [ht, hp]
      simp only [List.head?_cons, Option.some_bind, Event.flushAnswer]
      rcases (h .Flush s1).1 with e | ⟨id, url⟩ <;> rfl
    · rw [if_neg hc]
      simp only [afterLoops, finalStatus_skip h s1 (j0 :: rest) jobId rf rt cid ⟨r0 :: rs, ap⟩ hc]
      rfl

/-! ## C9: the final job status -/

/-- C9 (counterexample): with an empty job list, or with a first job that has
no command and no pull request number, and `reportFinalStatusToBackend` true,
the loops finish without error, `allAppliesSuccess` is true and the flush
succeeds, yet `RunJobs` panics before `ReportProjectJobStatus`: its only
calls are the flush and the deferred flush. -/
theorem C9_no_job_status_without_first_job :
    (outcome allowAll (jobLoop false [] 0 ⟨[], []⟩) () = .ok (.ok ⟨[], []⟩) ∧
      calls allowAll (RunJobs [] false "job-1" true false 0) () = [.Flush, .Flush] ∧
      outcome allowAll (RunJobs [] false "job-1" true false 0) () =
        .panic "index out of range [0] with length 0") ∧
    (outcome allowAll (jobLoop false [noPullRequestJob] 0 ⟨[{}], []⟩) () = .ok (.ok ⟨[{}], []⟩) ∧
      calls allowAll (RunJobs [noPullRequestJob] false "job-1" true false 0) () =
        [.Flush, .Flush] ∧
      outcome allowAll (RunJobs [noPullRequestJob] false "job-1" true false 0) () =
        .panic "invalid memory address or nil pointer dereference") :=
  ⟨⟨rfl, rfl, rfl⟩, ⟨rfl, rfl, rfl⟩⟩

/-- C9 (amended): for a non-empty job list whose first job has a pull request
number, let the loops of `RunJobs` end as `res` in the state `s1`.  Then
`RunJobs` calls `ReportProjectJobStatus` at most once; it calls it if and only
if the loops finished without a policy-check error, with variables `st`,
`reportFinalStatusToBackend` is true, every entry of `appliesPerProject` is
true, and the flush of the Reporter made then succeeds; and every such call
carries the status `"succeeded"`, the namespace of the first job with `"/"`
replaced by `"-"`, its project name, the given `jobId`, the comment URL of
that flush, the `PlanResult` of `exectorResults[0]`, and its
`TerraformOutput` when `reportTerraformOutput` is true, `""` otherwise. -/
theorem C9_job_status_reported_once {σ : Type} (h : Handler σ) (s : σ) (j0 : Job)
    (rest : List Job) (n : Int) (ps : Bool) (jobId : String) (rf rt : Bool) (cid : Int)
    (res : Res (Except GoError LoopState)) (s1 : σ) (t1 : List Event)
    (hpr : j0.PullRequestNumber = some n)
    (hloop : exec h (jobLoop ps (j0 :: rest) 0 ⟨List.replicate (j0 :: rest).length {}, []⟩) s =
      (res, s1, t1)) :
    (calls h (RunJobs (j0 :: rest) ps jobId rf rt cid) s).countP
        Call.isReportProjectJobStatus ≤ 1 ∧
    ((∃ c ∈ calls h (RunJobs (j0 :: rest) ps jobId rf rt cid) s,
        c.isReportProjectJobStatus = true) ↔
      ∃ st id url, res = .ok (.ok st) ∧ rf = true ∧
        st.appliesPerProject.all (fun e => e.2) = true ∧ (h .Flush s1).1 = .ok (id, url)) ∧
    ∀ c ∈ calls h (RunJobs (j0 :: rest) ps jobId rf rt cid) s,
      c.isReportProjectJobStatus = true →
      ∃ st id url r0 rs, res = .ok (.ok st) ∧ (h .Flush s1).1 = .ok (id, url) ∧
        st.exectorResults = r0 :: rs ∧
        c = .ReportProjectJobStatus (replaceSlash j0.Namespace) j0.ProjectName jobId "succeeded"
          r0.PlanResult url (if rt then r0.TerraformOutput else "") := by
  have hcount := ((bounded_RunJobs "" (j0 :: rest) ps jobId rf rt cid).exec h s).2
  have hF := jobStatus_calls_RunJobs h s (j0 :: rest) ps jobId rf rt cid res s1 t1 hloop
  have hmem : ∀ c, (c ∈ calls h (RunJobs (j0 :: rest) ps jobId rf rt cid) s ∧
      c.isReportProjectJobStatus = true) ↔
      c ∈ (calls h (RunJobs (j0 :: rest) ps jobId rf rt cid) s).filter
        Call.isReportProjectJobStatus := fun c => List.mem_filter.symm
  refine ⟨by simpa [countCalls, calls, trace, List.countP_map, Function.comp_def] using hcount,
    ?_⟩
  rcases res with (e | st) | m | m
  case ok.ok =>
    have hlen : st.exectorResults.length = (j0 :: rest).length :=
      returns_exec (jobLoop_keeps ps _ (j0 :: rest) 0 ⟨List.replicate (j0 :: rest).length {}, []⟩
        (List.length_replicate _ _)) h s (.ok st) (by rw [hloop]) st rfl
    obtain ⟨r0, rs, hrs, hA⟩ :=
      jobStatus_calls_afterLoops h s1 j0 rest jobId rf rt cid n hpr st hlen
    rw [hA] at hF
    by_cases hc : st.appliesPerProject.all (fun e => e.2) = true ∧ rf = true
    · rw [if_pos hc] at hF
      rcases hfl : (h .Flush s1).1 with e | ⟨id, url⟩
      · rw [hfl] at hF
        simp only at hF
        constructor
        · constructor
          · rintro ⟨c, hc1, hc2⟩
            have := (hmem c).1 ⟨hc1, hc2⟩
            rw [hF] at this
            cases this
          · rintro ⟨_, _, _, _, _, _, h4⟩
            cases h4
        · intro c hc1 hc2
          have := (hmem c).1 ⟨hc1, hc2⟩
          rw [hF] at this
          cases this
      · rw [hfl] at hF
        simp only at hF
        constructor
        · constructor
          · intro _
            exact ⟨st, id, url, rfl, hc.2, hc.1, rfl⟩
          · intro _
            have hin := (hmem (.ReportProjectJobStatus (replaceSlash j0.Namespace) j0.ProjectName
              jobId "succeeded" r0.PlanResult url (if rt then r0.TerraformOutput else ""))).2
              (by rw [hF]; exact List.mem_singleton.2 rfl)
            exact ⟨_, hin.1, hin.2⟩
        · intro c hc1 hc2
          have := (hmem c).1 ⟨hc1, hc2⟩
          rw [hF] at this
          exact ⟨st, id, url, r0, rs, rfl, rfl, hrs, List.mem_singleton.1 this⟩
    · rw [if_neg hc] at hF
      constructor
      · constructor
        · rintro ⟨c, hc1, hc2⟩
          have := (hmem c).1 ⟨hc1, hc2⟩
          rw [hF] at this
          cases this
        · rintro ⟨st', _, _, h1, h2, h3, _⟩
          cases h1
          exact absurd ⟨h3, h2⟩ hc
      · intro c hc1 hc2
        have := (hmem c).1 ⟨hc1, hc2⟩
        rw [hF] at this
        cases this
  all_goals
    simp only [afterLoops, List.map_nil, List.filter_nil] at hF
    constructor
    · constructor
      · rintro ⟨c, hc1, hc2⟩
        have := (hmem c).1 ⟨hc1, hc2⟩
        rw [hF] at this
        cases this
      · rintro ⟨_, _, _, h1, _⟩
        cases h1
    · intro c hc1 hc2
      have := (hmem c).1 ⟨hc1, hc2⟩
      rw [hF] at this
      cases this

/-- C9 (witness): for the plan of `webJob` with `reportFinalStatusToBackend`
true, `RunJobs` reports the job status, once. -/
theorem C9_job_status_reported_once_witness :
    (calls allowAll (RunJobs [webJob] false "job-1" true true 0) ()).countP
        Call.isReportProjectJobStatus ≤ 1 ∧
    ∃ c ∈ calls allowAll (RunJobs [webJob] false "job-1" true true 0) (),
      c.isReportProjectJobStatus = true :=
  ⟨(C9_job_status_reported_once allowAll () webJob [] 1 false "job-1" true true 0 _ () _ rfl
      rfl).1,
    (C9_job_status_reported_once allowAll () webJob [] 1 false "job-1" true true 0 _ () _ rfl
      rfl).2.1.2 ⟨_, "1", "url", rfl, rfl, rfl, rfl⟩⟩

set_option maxHeartbeats 4000000 in
theorem run_plan_status (job : Job) (o r : String) (pr : Option Int) (u ns : String) (ps : Bool)
    (ap : AppliesPerProject) :
    Holds (run "mantis plan" job o r pr u ns ps ap) [] (planStatusSet job) := by
  unfold run
  simp only [runSwitch_plan]
  unfold runPlan reportPolicyError reportTerraformPlanOutput reportEmptyPlanOutput
  dsimp only
  repeat' first
    | rw [prog_bind_assoc]
    | rw [prog_pure_bind]
    | rw [prog_panic_bind]
    | rw [prog_fatal_bind]
    | (refine (holds_perform_bind _ _ _ _).2 ?_; intro _)
    | rw [holds_pure]
    | rw [holds_panic]
    | rw [holds_fatal]
    | split
  all_goals intro h1 h2 rr ap1 h3
  all_goals try cases h3
  all_goals simp only [List.nil_append, List.cons_append, List.any_cons, List.any_nil,
    Event.statusFailed, Call.isCommitStatus, Bool.or_false, Bool.false_or, Bool.or_self,
    Bool.true_or, Bool.or_true, Bool.true_eq_false, Bool.false_eq_true] at h1 h2
  all_goals refine ⟨_, rfl, ?_, ?_, ?_⟩
  all_goals simp_all [lastStatus, Call.statusFor, failWith]

theorem statusFailed_of_none {t : List Event}
    (h : ∀ n st c e, (⟨.SetStatus n st c, some e⟩ : Event) ∉ t) :
    t.any Event.statusFailed = false := by
  cases hb : t.any Event.statusFailed with
  | false => rfl
  | true =>
    obtain ⟨e, he, hp⟩ := List.any_eq_true.1 hb
    rcases e with ⟨c, r⟩
    cases c <;> simp only [Event.statusFailed, Bool.false_eq_true] at hp
    rename_i n st ctx
    cases r with
    | none => simp at hp
    | some err => exact absurd he (h n st ctx err)

theorem none_of_statusFailed {t : List Event} (h : t.any Event.statusFailed = false)
    (n : Int) (st c e : String) : (⟨.SetStatus n st c, some e⟩ : Event) ∉ t := by
  intro hm
  rw [any_of_mem hm rfl] at h
  cases h

/-! ## C11: the commit status of a plan -/

/-- C11 (counterexample): with every `SetStatus` call succeeding, a plan that
the plan policy rejects makes `run` return an error while the last status
set for `web/plan` is `"pending"`, not `"failure"`; and when `Plan` performs
no plan, `run` returns a nil error while the last status set is `"pending"`,
not `"success"`. -/
theorem C11_plan_status_stays_pending :
    (∃ rr ap, outcome planRejected
        (run "mantis plan" webJob "o" "r" (some 1) "alice" "o/r" false []) () = .ok (rr, ap) ∧
      rr.err = some (.format "Plan is not allowed") ∧
      (trace planRejected (run "mantis plan" webJob "o" "r" (some 1) "alice" "o/r" false [])
        ()).any Event.statusFailed = false ∧
      lastStatus "web/plan" (trace planRejected
        (run "mantis plan" webJob "o" "r" (some 1) "alice" "o/r" false []) ()) =
        some "pending") ∧
    (∃ rr ap, outcome planSkipped
        (run "mantis plan" webJob "o" "r" (some 1) "alice" "o/r" false []) () = .ok (rr, ap) ∧
      rr.err = none ∧
      (trace planSkipped (run "mantis plan" webJob "o" "r" (some 1) "alice" "o/r" false [])
        ()).any Event.statusFailed = false ∧
      lastStatus "web/plan" (trace planSkipped
        (run "mantis plan" webJob "o" "r" (some 1) "alice" "o/r" false []) ()) =
        some "pending") :=
  ⟨⟨_, _, rfl, rfl, rfl, by decide⟩, ⟨_, _, rfl, rfl, rfl, by decide⟩⟩

/-- C11 (amended): in every execution of `run` for `"mantis plan"` that sets
the status `"pending"` of `<project>/plan`, in which no `SetStatus` call fails
and `run` returns, `Plan` is called once, and the last status set for
`<project>/plan` is `"failure"` when `Plan` failed (`run` then returns an
error), `"success"` when the plan was performed and `run` returns a nil
error, and still `"pending"` when `Plan` performed no plan (`run` then
returns a nil error). -/
theorem C11_plan_status_follows_plan {σ : Type} (h : Handler σ) (s : σ) (job : Job)
    (o r : String) (pr : Option Int) (u ns : String) (ps : Bool) (ap : AppliesPerProject)
    (rr : RunReturn) (ap1 : AppliesPerProject)
    (hret : outcome h (run "mantis plan" job o r pr u ns ps ap) s = .ok (rr, ap1))
    (hpend : ∃ n, (⟨.SetStatus n "pending" (job.ProjectName ++ "/plan"), none⟩ : Event) ∈
      trace h (run "mantis plan" job o r pr u ns ps ap) s)
    (hset : ∀ n st c e, (⟨.SetStatus n st c, some e⟩ : Event) ∉
      trace h (run "mantis plan" job o r pr u ns ps ap) s) :
    ∃ p : PlanAnswer,
      (trace h (run "mantis plan" job o r pr u ns ps ap) s).filterMap Event.planAnswer = [p] ∧
      (p.err ≠ none → rr.err ≠ none ∧
        lastStatus (job.ProjectName ++ "/plan")
          (trace h (run "mantis plan" job o r pr u ns ps ap) s) = some "failure") ∧
      (p.err = none → p.planPerformed = false → rr.err = none ∧
        lastStatus (job.ProjectName ++ "/plan")
          (trace h (run "mantis plan" job o r pr u ns ps ap) s) = some "pending") ∧
      (p.planPerformed = true → rr.err = none →
        lastStatus (job.ProjectName ++ "/plan")
          (trace h (run "mantis plan" job o r pr u ns ps ap) s) = some "success") := by
  have hpath := (run_plan_status job o r pr u ns ps ap).exec h s
  simp only [List.nil_append] at hpath
  obtain ⟨n, hn⟩ := hpend
  exact hpath (statusFailed_of_none hset) (any_of_mem hn rfl) rr ap1 hret

/-- C11 (witness): the plan of `webJob` with collaborators that allow and
perform everything ends with the status `"success"` of `web/plan`. -/
theorem C11_plan_status_follows_plan_witness :
    ∃ p : PlanAnswer,
      (trace allowAll (run "mantis plan" webJob "o" "r" (some 1) "alice" "o/r" false [])
        ()).filterMap Event.planAnswer = [p] ∧
      p.planPerformed = true ∧
      lastStatus "web/plan"
        (trace allowAll (run "mantis plan" webJob "o" "r" (some 1) "alice" "o/r" false []) ()) =
        some "success" := by
  obtain ⟨p, hp, _, _, h3⟩ := C11_plan_status_follows_plan allowAll () webJob "o" "r" (some 1)
    "alice" "o/r" false []
    { result := some { TerraformOutput := "plan",
                       PlanResult := some { PlanSummary := ⟨1, 0, 0⟩, TerraformJson := "{}" } },
      output := "plan", planJson := "{}", err := none } [] rfl
    ⟨1, by repeat (first | exact List.Mem.head _ | apply List.Mem.tail)⟩
    (none_of_statusFailed rfl)
  have hp2 : p = ⟨some ⟨1, 0, 0⟩, true, true, "plan", "{}", none⟩ := by
    have : [p] = [⟨some ⟨1, 0, 0⟩, true, true, "plan", "{}", none⟩] := hp.symm.trans rfl
    exact List.head_eq_of_cons_eq this
  subst hp2
  exact ⟨_, rfl, rfl, h3 rfl rfl⟩

/-! ## C12: the commit status of a refused apply -/

/-- C12 (counterexample): on a pull request that is neither merged nor
mergeable, `run` for `"mantis apply"` does call `SetStatus`: it sets
`web/apply` to `"pending"` before it asks whether the pull request is merged. -/
theorem C12_refused_apply_sets_pending :
    (calls notMergeable (run "mantis apply" applyJob "o" "r" (some 1) "alice" "o/r" false [])
        ()).filter Call.isCommitStatus = [.SetStatus 1 "pending" "web/apply"] ∧
    ¬ (∀ c ∈ calls notMergeable
        (run "mantis apply" applyJob "o" "r" (some 1) "alice" "o/r" false []) (),
      c.isCommitStatus = false) := by
  refine ⟨rfl, fun hall => ?_⟩
  have := hall (.SetStatus 1 "pending" "web/apply")
    (by repeat (first | exact List.Mem.head _ | apply List.Mem.tail))
  cases this

/-- C12 (amended): in every execution of `run` for `"mantis apply"` in which
`IsMerged` and `IsMergeable` both answer `(false, nil)`, `run` makes exactly
one `SetStatus` call: the one that sets `<project>/apply` to `"pending"`,
made before the two checks; it makes none after the refusal, so the last
status set for `<project>/apply` is `"pending"`. -/
theorem C12_refused_apply_leaves_pending {σ : Type} (h : Handler σ) (s : σ) (job : Job)
    (o r : String) (pr : Option Int) (u ns : String) (ps : Bool) (ap : AppliesPerProject)
    (hMerged : ∃ n, (⟨.IsMerged n, .ok false⟩ : Event) ∈
      trace h (run "mantis apply" job o r pr u ns ps ap) s)
    (hMergeable : ∃ n, (⟨.IsMergeable n, .ok false⟩ : Event) ∈
      trace h (run "mantis apply" job o r pr u ns ps ap) s) :
    ∃ n, job.PullRequestNumber = some n ∧
      (calls h (run "mantis apply" job o r pr u ns ps ap) s).filter Call.isCommitStatus =
        [.SetStatus n "pending" (job.ProjectName ++ "/apply")] ∧
      (∃ pre post, calls h (run "mantis apply" job o r pr u ns ps ap) s =
          pre ++ .SetStatus n "pending" (job.ProjectName ++ "/apply") ::
            .IsMerged n :: .IsMergeable n :: post ∧
        (∀ c ∈ pre, c.isCommitStatus = false) ∧ ∀ c ∈ post, c.isCommitStatus = false) ∧
      lastStatus (job.ProjectName ++ "/apply")
        (trace h (run "mantis apply" job o r pr u ns ps ap) s) = some "pending" := by
  obtain ⟨n1, hm1⟩ := hMerged
  obtain ⟨n2, hm2⟩ := hMergeable
  have hpath := (run_apply_refused job o r pr u ns ps ap).exec h s
  simp only [List.nil_append] at hpath
  obtain ⟨_, n, f, hpr, hcalls⟩ := hpath (any_of_mem hm1 rfl) (any_of_mem hm2 rfl)
  have hc : calls h (run "mantis apply" job o r pr u ns ps ap) s = _ := hcalls
  have hlast : ∀ t : List Event, t.map Event.call =
      [.CheckAccessPolicy o r job.ProjectName job.ProjectDir "mantis apply"
          job.PullRequestNumber u [],
        .PopulateAwsCredentialsEnvVarsForJob job,
        .SendUsageRecord u job.EventName "apply",
        .SetStatus n "pending" (job.ProjectName ++ "/apply"),
        .IsMerged n, .IsMergeable n, .SupportsMarkdown, .Report notMergeableComment f] →
      lastStatus (job.ProjectName ++ "/apply") t = some "pending" := by
    intro t ht
    rcases t with _ | ⟨e1, _ | ⟨e2, _ | ⟨e3, _ | ⟨e4, _ | ⟨e5, _ | ⟨e6, _ | ⟨e7, _ | ⟨e8, _ | ⟨e9, t⟩⟩⟩⟩⟩⟩⟩⟩⟩ <;>
      simp only [List.map_cons, List.map_nil, List.cons.injEq, reduceCtorEq, and_false,
        false_and, and_true] at ht
    obtain ⟨h1, h2, h3, h4, h5, h6, h7, h8⟩ := ht
    simp [lastStatus, h1, h2, h3, h4, h5, h6, h7, h8, Call.statusFor]
  refine ⟨n, hpr, by rw [hc]; rfl,
    ⟨[_, _, _], [_, _], hc, ?_, ?_⟩, hlast _ hcalls⟩
  · intro c hm
    simp only [List.mem_cons, List.mem_singleton, List.not_mem_nil, or_false] at hm
    rcases hm with rfl | rfl | rfl <;> rfl
  · intro c hm
    simp only [List.mem_cons, List.mem_singleton, List.not_mem_nil, or_false] at hm
    rcases hm with rfl | rfl <;> rfl

/-- C12 (witness): the refused apply of `applyJob` leaves `web/apply` at
`"pending"`. -/
theorem C12_refused_apply_leaves_pending_witness :
    lastStatus "web/apply"
      (trace notMergeable (run "mantis apply" applyJob "o" "r" (some 1) "alice" "o/r" false [])
        ()) = some "pending" := by
  obtain ⟨_, _, _, _, hl⟩ := C12_refused_apply_leaves_pending notMergeable () applyJob "o" "r"
    (some 1) "alice" "o/r" false []
    ⟨1, by repeat (first | exact List.Mem.head _ | apply List.Mem.tail)⟩
    ⟨1, by repeat (first | exact List.Mem.head _ | apply List.Mem.tail)⟩
  exact hl

theorem runSwitch_unknown (command : String) (job : Job) (o r : String) (pr : Option Int)
    (n : Int) (u ns : String) (ps : Bool) (ap : AppliesPerProject)
    (hc : command ∉ ["mantis plan", "mantis test", "mantis apply", "mantis destroy",
      "mantis lock", "mantis unlock", "mantis drift-detect"]) :
    runSwitch command job o r pr n u ns ps ap =
      pure (failWith ("Command \x27" ++ command ++ "\x27 is not supported") "", ap) := by
  simp only [List.mem_cons, List.mem_singleton, List.not_mem_nil, or_false, not_or] at hc
  obtain ⟨h1, h2, h3, h4, h5, h6, _⟩ := hc
  simp [runSwitch, h1, h2, h3, h4, h5, h6]

theorem run_unknown_calls (command : String) (job : Job) (o r : String) (pr : Option Int)
    (u ns : String) (ps : Bool) (ap : AppliesPerProject)
    (hc : command ∉ ["mantis plan", "mantis test", "mantis apply", "mantis destroy",
      "mantis lock", "mantis unlock", "mantis drift-detect"]) :
    Holds (run command job o r pr u ns ps ap) [] noOperation := by
  unfold run
  simp only [runSwitch_unknown _ _ _ _ _ _ _ _ _ _ hc]
  unfold reportPolicyError
  dsimp only
  repeat' first
    | rw [prog_bind_assoc]
    | rw [prog_pure_bind]
    | (refine (holds_perform_bind _ _ _ _).2 ?_; intro _)
    | rw [holds_pure]
    | rw [holds_panic]
    | rw [holds_fatal]
    | split
  all_goals
    intro e he
    simp only [List.nil_append, List.cons_append, List.mem_cons, List.mem_singleton,
      List.not_mem_nil, or_false] at he
    rcases he with rfl | rfl | rfl <;> exact ⟨rfl, rfl, rfl, rfl⟩

/-! ## C13: commands outside the closed set -/

/-- C13 (counterexample): when the access check denies the command `"plan"`,
`run` returns the policy error, whose message is
`"User alice is not allowed to perform action: plan. Check your policies :x:"`
and not `"Command 'plan' is not supported"`. -/
theorem C13_denied_unknown_command_has_policy_error :
    outcome denyAll (run "plan" webJob "o" "r" (some 1) "alice" "o/r" false []) () =
      .ok ({ result := none, output := policyMessage "alice" "plan", planJson := "",
             err := some (.text
              "User alice is not allowed to perform action: plan. Check your policies :x:") },
        []) ∧
    GoError.message
      (.text "User alice is not allowed to perform action: plan. Check your policies :x:") ≠
      some "Command \x27plan\x27 is not supported" := by
  refine ⟨rfl, ?_⟩
  decide

/-- C13 (amended): let `command` be none of `"mantis plan"`, `"mantis test"`,
`"mantis apply"`, `"mantis destroy"`, `"mantis lock"`, `"mantis unlock"`,
`"mantis drift-detect"`.  In every execution of `run` for it, no call is an
IaC, lock, plan-store or commit-status operation.  And when the access check
of `run` allows the command, the AWS credentials are populated and the job has
a pull request number, `run` makes these two calls only and returns a nil
result, the output `"Command '<command>' is not supported"` and the error
`fmt.Errorf` of that text, whose message is that text when the command has no
`%`. -/
theorem C13_unknown_command_not_supported {σ : Type} (h : Handler σ) (s : σ) (command : String)
    (job : Job) (o r : String) (pr : Option Int) (u ns : String) (ps : Bool)
    (ap : AppliesPerProject)
    (hc : command ∉ ["mantis plan", "mantis test", "mantis apply", "mantis destroy",
      "mantis lock", "mantis unlock", "mantis drift-detect"]) :
    (∀ c ∈ calls h (run command job o r pr u ns ps ap) s,
      c.isIaC = false ∧ c.isLock = false ∧ c.isPlanStore = false ∧ c.isCommitStatus = false) ∧
    ((h (.CheckAccessPolicy o r job.ProjectName job.ProjectDir command job.PullRequestNumber u
        []) s).1 = .ok true →
      (h (.PopulateAwsCredentialsEnvVarsForJob job)
        (h (.CheckAccessPolicy o r job.ProjectName job.ProjectDir command job.PullRequestNumber
          u []) s).2).1 = none →
      job.PullRequestNumber ≠ none →
      outcome h (run command job o r pr u ns ps ap) s =
        .ok ({ result := none, output := "Command \x27" ++ command ++ "\x27 is not supported",
               planJson := "",
               err := some (.format ("Command \x27" ++ command ++ "\x27 is not supported")) },
          ap) ∧
      calls h (run command job o r pr u ns ps ap) s =
        [.CheckAccessPolicy o r job.ProjectName job.ProjectDir command job.PullRequestNumber u
            [],
          .PopulateAwsCredentialsEnvVarsForJob job] ∧
      ('%' ∉ command.data →
        GoError.message (.format ("Command \x27" ++ command ++ "\x27 is not supported")) =
          some ("Command \x27" ++ command ++ "\x27 is not supported"))) := by
  constructor
  · intro c hcm
    obtain ⟨e, he, rfl⟩ := List.mem_map.1 hcm
    have hp := (run_unknown_calls command job o r pr u ns ps ap hc).exec h s
    simp only [List.nil_append] at hp
    exact hp e he
  · intro hacc hcreds hpr
    obtain ⟨n, hn⟩ := Option.ne_none_iff_exists'.1 hpr
    refine ⟨?_, ?_, ?_⟩
    · simp [outcome, run, exec_perform_bind, hacc, hcreds, hn,
        runSwitch_unknown _ _ _ _ _ _ _ _ _ _ hc, failWith]
    · simp [calls, trace, run, exec_perform_bind, hacc, hcreds, hn,
        runSwitch_unknown _ _ _ _ _ _ _ _ _ _ hc]
    · intro hpc
      simp [GoError.message, String.data_append, hpc]

/-- C13 (witness): `"Mantis Plan"` and `"plan"` are rejected. -/
theorem C13_unknown_command_not_supported_witness :
    outcome allowAll (run "Mantis Plan" webJob "o" "r" (some 1) "alice" "o/r" false []) () =
      .ok ({ result := none, output := "Command \x27Mantis Plan\x27 is not supported",
             planJson := "",
             err := some (.format "Command \x27Mantis Plan\x27 is not supported") }, []) ∧
    outcome allowAll (run "plan" webJob "o" "r" (some 1) "alice" "o/r" false []) () =
      .ok ({ result := none, output := "Command \x27plan\x27 is not supported",
             planJson := "",
             err := some (.format "Command \x27plan\x27 is not supported") }, []) ∧
    GoError.message (.format "Command \x27plan\x27 is not supported") =
      some "Command \x27plan\x27 is not supported" :=
  ⟨((C13_unknown_command_not_supported allowAll () "Mantis Plan" webJob "o" "r" (some 1) "alice"
      "o/r" false [] (by decide)).2 rfl rfl (by decide)).1,
    ((C13_unknown_command_not_supported allowAll () "plan" webJob "o" "r" (some 1) "alice"
      "o/r" false [] (by decide)).2 rfl rfl (by decide)).1,
    ((C13_unknown_command_not_supported allowAll () "plan" webJob "o" "r" (some 1) "alice"
      "o/r" false [] (by decide)).2 rfl rfl (by decide)).2.2 (by decide)⟩

/-! ## C14: an unknown command in a batch -/

/-- C14 (counterexample): for the job `unknownCommandJob`, whose command
`"mantis upgrade"` passes the access checks, `RunJobs` returns
`(false, true, nil)` and `RunJob` returns `nil`: neither returns an error. -/
theorem C14_unknown_command_returns_no_error :
    outcome allowAll (RunJobs [unknownCommandJob] false "job-1" false false 0) () =
      .ok (false, true, none) ∧
    outcome allowAll (RunJob unknownCommandJob "o/r" "alice" "o" "r" false) () = .ok none :=
  ⟨rfl, rfl⟩

/-- C14 (amended): let the first command `c` of a job be outside the closed
command set.  In `RunJobs` on the batch of that job, when `c` passes the access
check of the loop and that of `run`, the AWS credentials are populated and the
job has a pull request number, the run is reported to the backend as
`"FAILED"` with the output `"Command '<c>' is not supported"`, the rest of
the job's commands is skipped, and the call returns `allAppliesSuccess = false`,
`atLeastOneApply = true` and a nil error.  In `RunJob`, when `c` passes the
access check and the credentials are populated, nothing else is done for `c`:
the loop goes on with the next command, and the call returns `nil` when `c`
is the only command. -/
theorem C14_unknown_command_fails_job_only {σ : Type} (h : Handler σ) (s : σ) (job : Job)
    (c : String) (rest : List String)
    (hc : c ∉ ["mantis plan", "mantis test", "mantis apply", "mantis destroy",
      "mantis lock", "mantis unlock", "mantis drift-detect"])
    (hcmds : job.Commands = c :: rest) :
    (∀ (a b : List Char) (more : List (List Char)) (n : Int) (ps : Bool) (jobId : String)
        (rf rt : Bool) (cid : Int),
      splitSlash job.Namespace.data = a :: b :: more →
      job.PullRequestNumber = some n →
      (h (.CheckAccessPolicy (String.mk a) (String.mk b) job.ProjectName job.ProjectDir c
        job.PullRequestNumber job.RequestedBy []) s).1 = .ok true →
      (h (.CheckAccessPolicy (String.mk a) (String.mk b) job.ProjectName job.ProjectDir c
        job.PullRequestNumber job.RequestedBy [])
        (h (.CheckAccessPolicy (String.mk a) (String.mk b) job.ProjectName job.ProjectDir c
          job.PullRequestNumber job.RequestedBy []) s).2).1 = .ok true →
      (h (.PopulateAwsCredentialsEnvVarsForJob job)
        (h (.CheckAccessPolicy (String.mk a) (String.mk b) job.ProjectName job.ProjectDir c
          job.PullRequestNumber job.RequestedBy [])
          (h (.CheckAccessPolicy (String.mk a) (String.mk b) job.ProjectName job.ProjectDir c
            job.PullRequestNumber job.RequestedBy []) s).2).2).1 = none →
      outcome h (RunJobs [job] ps jobId rf rt cid) s = .ok (false, true, none) ∧
      calls h (RunJobs [job] ps jobId rf rt cid) s =
        [.CheckAccessPolicy (String.mk a) (String.mk b) job.ProjectName job.ProjectDir c
            job.PullRequestNumber job.RequestedBy [],
          .CheckAccessPolicy (String.mk a) (String.mk b) job.ProjectName job.ProjectDir c
            job.PullRequestNumber job.RequestedBy [],
          .PopulateAwsCredentialsEnvVarsForJob job,
          .ReportProjectRun (String.mk a ++ "-" ++ String.mk b) job.ProjectName "FAILED" c
            ("Command \x27" ++ c ++ "\x27 is not supported"),
          .Flush]) ∧
    (∀ (repo u o r : String) (dn : Bool),
      (h (.CheckAccessPolicy o r job.ProjectName job.ProjectDir c none u []) s).1 = .ok true →
      (h (.PopulateAwsCredentialsEnvVarsForJob job)
        (h (.CheckAccessPolicy o r job.ProjectName job.ProjectDir c none u []) s).2).1 = none →
      exec h (RunJob job repo u o r dn) s =
        ((exec h (RunJobCommands job repo u o r dn rest)
            (h (.PopulateAwsCredentialsEnvVarsForJob job)
              (h (.CheckAccessPolicy o r job.ProjectName job.ProjectDir c none u []) s).2).2).1,
          (exec h (RunJobCommands job repo u o r dn rest)
            (h (.PopulateAwsCredentialsEnvVarsForJob job)
              (h (.CheckAccessPolicy o r job.ProjectName job.ProjectDir c none u []) s).2).2).2.1,
          ⟨.CheckAccessPolicy o r job.ProjectName job.ProjectDir c none u [], .ok true⟩ ::
            ⟨.PopulateAwsCredentialsEnvVarsForJob job, none⟩ ::
            (exec h (RunJobCommands job repo u o r dn rest)
              (h (.PopulateAwsCredentialsEnvVarsForJob job)
                (h (.CheckAccessPolicy o r job.ProjectName job.ProjectDir c none u [])
                  s).2).2).2.2) ∧
      (rest = [] → outcome h (RunJob job repo u o r dn) s = .ok none)) := by
  have hc' := hc
  simp only [List.mem_cons, List.mem_singleton, List.not_mem_nil, or_false, not_or] at hc'
  obtain ⟨h1, _, h3, h4, _, _, h7⟩ := hc'
  constructor
  · intro a b more n ps jobId rf rt cid hsplit hpr hacc1 hacc2 hcreds
    have hrun : exec h (run c job (String.mk a) (String.mk b) job.PullRequestNumber
        job.RequestedBy job.Namespace ps [])
        (h (.CheckAccessPolicy (String.mk a) (String.mk b) job.ProjectName job.ProjectDir c
          job.PullRequestNumber job.RequestedBy []) s).2 =
        (.ok (failWith ("Command \x27" ++ c ++ "\x27 is not supported") "", []),
          (h (.PopulateAwsCredentialsEnvVarsForJob job)
            (h (.CheckAccessPolicy (String.mk a) (String.mk b) job.ProjectName job.ProjectDir c
              job.PullRequestNumber job.RequestedBy [])
              (h (.CheckAccessPolicy (String.mk a) (String.mk b) job.ProjectName job.ProjectDir
                c job.PullRequestNumber job.RequestedBy []) s).2).2).2,
          [⟨.CheckAccessPolicy (String.mk a) (String.mk b) job.ProjectName job.ProjectDir c
              job.PullRequestNumber job.RequestedBy [], .ok true⟩,
            ⟨.PopulateAwsCredentialsEnvVarsForJob job, none⟩]) := by
      simp only [run, exec_perform_bind, hacc2, hcreds, hpr,
        runSwitch_unknown _ _ _ _ _ _ _ _ _ _ hc, exec_pure]
    have hstep := commandLoop_failed_step h s job 0 (String.mk a) (String.mk b) ps c rest
      { exectorResults := List.replicate [job].length {}, appliesPerProject := [] } hacc1
      _ _ _ _ hrun (.format ("Command \x27" ++ c ++ "\x27 is not supported")) rfl
    constructor
    · simp only [outcome, exec_RunJobs, RunJobsBody, exec_bind, jobLoop, hsplit, hcmds, hstep]
      simp [andThen, finalStatus, mapSet, afterDefer, exec_perform_bind, failWith]
    · simp only [calls, trace, exec_RunJobs, RunJobsBody, exec_bind, jobLoop, hsplit, hcmds,
        hstep]
      simp [andThen, finalStatus, mapSet, afterDefer, exec_perform_bind, failWith]
  · intro repo u o r dn hacc hcreds
    constructor
    · simp only [RunJob, hcmds, RunJobCommands, exec_perform_bind, hacc, hcreds, h1, h3, h4, h7,
        if_false]
    · intro hrest
      subst hrest
      simp only [outcome, RunJob, hcmds, RunJobCommands, exec_perform_bind, hacc, hcreds, h1, h3,
        h4, h7, if_false, exec_pure]

/-- C14 (witness): the batch of `unknownCommandJob` is not stopped by an
error: `RunJobs` returns `(false, true, nil)` and `RunJob` returns `nil`. -/
theorem C14_unknown_command_fails_job_only_witness :
    outcome allowAll (RunJobs [unknownCommandJob] false "job-1" false false 0) () =
      .ok (false, true, none) ∧
    outcome allowAll (RunJob unknownCommandJob "o/r" "alice" "o" "r" false) () = .ok none :=
  ⟨((C14_unknown_command_fails_job_only allowAll () unknownCommandJob "mantis upgrade" []
      (by decide) rfl).1 ['o'] ['r'] [] 1 false "job-1" false false 0 rfl rfl rfl rfl rfl).1,
    ((C14_unknown_command_fails_job_only allowAll () unknownCommandJob "mantis upgrade" []
      (by decide) rfl).2 "o/r" "alice" "o" "r" false rfl rfl).2 rfl⟩

theorem runDriftDetection_gated (o r projectName u ev exNs exProj : String) (notification : Bool) :
    Holds (runDriftDetection o r projectName u ev exNs exProj notification) []
      (driftGated projectName exNs exProj notification) := by
  unfold runDriftDetection
  dsimp only
  repeat' first
    | rw [prog_bind_assoc]
    | rw [prog_pure_bind]
    | (refine (holds_perform_bind _ _ _ _).2 ?_; intro _)
    | rw [holds_pure]
    | rw [holds_panic]
    | rw [holds_fatal]
    | split
  all_goals refine ⟨_, rfl, ?_, ?_, ?_⟩
  all_goals simp_all [driftSkipMessage, Event.planAnswer, Call.isPlan, Call.isSend]

theorem not_mem_of_filter_nil {P : Call → Bool} {l : List Call} (h : l.filter P = [])
    (c : Call) (hc : c ∈ l) : P c = false := by
  cases hP : P c with
  | false => rfl
  | true =>
    have : c ∈ l.filter P := List.mem_filter.2 ⟨hc, hP⟩
    rw [h] at this
    cases this

/-! ## C20: drift detection and the drift policy -/

/-- C20: in every execution of `runDriftDetection` the drift policy is
checked once, with an answer `d`, and the IaC `Plan` is called if and only if
`d` is `(true, nil)`.  When `d` is `(false, nil)` the result is the skip
message with a nil error and no notification is sent.  When `d` is
`(true, nil)`, `Plan` is called once, with an answer `p`, and if `p` has no
error the result is `(p.plan, nil)` and the `Send` calls are: the one call
`Send(projectName, p.plan)` when the plan was performed, is not empty and a
notification is configured, and none otherwise.  Whenever a `Send` is made,
whatever it answers, the result has a nil error. -/
theorem C20_drift_detection_gated {σ : Type} (h : Handler σ) (s : σ)
    (o r projectName u ev exNs exProj : String) (notification : Bool) :
    ∃ d, (trace h (runDriftDetection o r projectName u ev exNs exProj notification)
        s).filterMap Event.driftAnswer = [d] ∧
      ((∃ c ∈ calls h (runDriftDetection o r projectName u ev exNs exProj notification) s,
          c.isPlan = true) ↔ d = .ok true) ∧
      (d = .ok false →
        outcome h (runDriftDetection o r projectName u ev exNs exProj notification) s =
          .ok ("skipping this drift application since it is not enabled for this project",
            none) ∧
        ∀ c ∈ calls h (runDriftDetection o r projectName u ev exNs exProj notification) s,
          c.isSend = false) ∧
      (d = .ok true → ∃ p : PlanAnswer,
        (trace h (runDriftDetection o r projectName u ev exNs exProj notification)
          s).filterMap Event.planAnswer = [p] ∧
        (p.err = none →
          outcome h (runDriftDetection o r projectName u ev exNs exProj notification) s =
            .ok (p.plan, none) ∧
          (calls h (runDriftDetection o r projectName u ev exNs exProj notification)
            s).filter Call.isSend =
            if p.planPerformed = true ∧ p.isNonEmptyPlan = true ∧ notification = true
            then [.Send projectName p.plan] else [])) ∧
      ((∃ c ∈ calls h (runDriftDetection o r projectName u ev exNs exProj notification) s,
          c.isSend = true) →
        ∃ out, outcome h (runDriftDetection o r projectName u ev exNs exProj notification) s =
          .ok (out, none)) := by
  have hpath := (runDriftDetection_gated o r projectName u ev exNs exProj notification).exec h s
  simp only [List.nil_append] at hpath
  obtain ⟨d, hd, h1, h2, h3⟩ := hpath
  refine ⟨d, hd, ⟨?_, ?_⟩, ?_, ?_, ?_⟩
  · rintro ⟨c, hc, hp⟩
    by_contra hne
    have := not_mem_of_filter_nil (h2 hne).1 c hc
    rw [hp] at this
    cases this
  · intro hdt
    obtain ⟨p, _, hplan, _⟩ := h1 hdt
    have hm : Call.Plan exNs exProj ∈ ((exec h (runDriftDetection o r projectName u ev exNs
        exProj notification) s).2.2.map Event.call).filter Call.isPlan := by
      rw [hplan]
      exact List.mem_singleton.2 rfl
    exact ⟨_, (List.mem_filter.1 hm).1, rfl⟩
  · intro hdf
    refine ⟨h3 hdf, not_mem_of_filter_nil (h2 ?_).2⟩
    rw [hdf]
    simp
  · intro hdt
    obtain ⟨p, hp, _, hok, _⟩ := h1 hdt
    exact ⟨p, hp, hok⟩
  · rintro ⟨c, hc, hp⟩
    by_cases hdt : d = .ok true
    · obtain ⟨p, _, _, hok, herr⟩ := h1 hdt
      by_cases hpe : p.err = none
      · exact ⟨_, (hok hpe).1⟩
      · have := not_mem_of_filter_nil (herr hpe).2 c hc
        rw [hp] at this
        cases this
    · have := not_mem_of_filter_nil (h2 hdt).2 c hc
      rw [hp] at this
      cases this

/-- C20 (witness): with the drift policy enabled, a performed non-empty plan
and a notification that cannot be sent, `runDriftDetection` plans, sends the
plan once, and returns it with a nil error. -/
theorem C20_drift_detection_gated_witness :
    calls sendFails (runDriftDetection "o" "r" "web" "alice" "schedule" "o/r" "web" true) () =
      [.SendUsageRecord "alice" "schedule" "drift-detect", .CheckDriftPolicy "o" "r" "web",
        .Plan "o/r" "web", .Send "web" "plan"] ∧
    ∃ out, outcome sendFails
      (runDriftDetection "o" "r" "web" "alice" "schedule" "o/r" "web" true) () =
      .ok (out, none) := by
  obtain ⟨_, _, _, _, _, hs⟩ := C20_drift_detection_gated sendFails () "o" "r" "web" "alice"
    "schedule" "o/r" "web" true
  exact ⟨rfl, hs ⟨.Send "web" "plan",
    by repeat (first | exact List.Mem.head _ | apply List.Mem.tail), rfl⟩⟩

/-! ## The order of the jobs of a batch -/

theorem leastBy_mem {less : String → String → Bool} {l : List String} {x : String}
    (h : leastBy less l = some x) : x ∈ l := by
  induction l generalizing x with
  | nil => simp [leastBy] at h
  | cons a l ih =>
    simp only [leastBy] at h
    cases hl : leastBy less l with
    | none =>
      simp only [hl, Option.some.injEq] at h
      exact h ▸ List.mem_cons_self _ _
    | some y =>
      simp only [hl] at h
      by_cases hy : less y a = true
      · simp only [hy, if_true, Option.some.injEq] at h
        exact h ▸ List.mem_cons_of_mem _ (ih hl)
      · simp only [hy, Bool.false_eq_true, if_false, Option.some.injEq] at h
        exact h ▸ List.mem_cons_self _ _

theorem leastBy_some {less : String → String → Bool} {l : List String} (h : l ≠ []) :
    ∃ x, leastBy less l = some x := by
  cases l with
  | nil => exact absurd rfl h
  | cons a l =>
    simp only [leastBy]
    cases leastBy less l with
    | none => exact ⟨a, rfl⟩
    | some y =>
      by_cases hy : less y a = true
      · exact ⟨y, by simp [hy]⟩
      · exact ⟨a, by simp [hy]⟩

theorem leastBy_least {l : List String} {x : String}
    (h : leastBy (fun s s2 => decide (s.data < s2.data)) l = some x) :
    ∀ y ∈ l, ¬ y < x := by
  induction l generalizing x with
  | nil => simp [leastBy] at h
  | cons a l ih =>
    simp only [leastBy] at h
    cases hl : leastBy (fun s s2 => decide (s.data < s2.data)) l with
    | none =>
      simp only [hl, Option.some.injEq] at h
      subst h
      cases l with
      | nil =>
        intro y hy
        simp only [List.mem_singleton] at hy
        subst hy
        exact lt_irrefl _
      | cons b l =>
        obtain ⟨z, hz⟩ := @leastBy_some (fun s s2 => decide (s.data < s2.data)) _
          (List.cons_ne_nil b l)
        rw [hz] at hl
        cases hl
    | some m =>
      simp only [hl] at h
      have hm := ih hl
      by_cases hma : m < a
      · have hd : decide (m.data < a.data) = true := by
          simpa [String.lt_iff_toList_lt] using hma
        simp only [hd, if_true, Option.some.injEq] at h
        subst h
        intro y hy
        rcases List.mem_cons.1 hy with rfl | hy
        · exact lt_asymm hma
        · exact hm y hy
      · have hd : ¬ decide (m.data < a.data) = true := by
          simpa [String.lt_iff_toList_lt] using hma
        simp only [hd, Bool.false_eq_true, if_false, Option.some.injEq] at h
        subst h
        intro y hy
        rcases List.mem_cons.1 hy with rfl | hy
        · exact lt_irrefl _
        · intro hya
          exact hma (lt_of_le_of_lt (not_lt.1 (hm y hy)) hya)

theorem isReady_iff (edges : List (String × String)) (remaining : List String) (x : String) :
    isReady edges remaining x = true ↔ ∀ e ∈ edges, e.2 = x → e.1 ∉ remaining := by
  simp only [isReady, List.all_eq_true, Bool.not_eq_true', Bool.and_eq_false_imp, beq_iff_eq,
    List.contains_eq_any_beq, List.any_eq_false, beq_iff_eq]
  constructor
  · intro h e he hx hm
    exact h e he hx e.1 hm rfl
  · intro h e he hx z hz hez
    exact h e he hx (hez ▸ hz)

theorem isReady_congr (edges : List (String × String)) {l l' : List String}
    (h : ∀ z, z ∈ l ↔ z ∈ l') (x : String) : isReady edges l x = isReady edges l' x := by
  rw [Bool.eq_iff_iff, isReady_iff, isReady_iff]
  constructor
  · intro hl e he hx hm
    exact hl e he hx ((h _).2 hm)
  · intro hl e he hx hm
    exact hl e he hx ((h _).1 hm)

theorem exists_min_rank (rank : String → Nat) (l : List String) (hl : l ≠ []) :
    ∃ x ∈ l, ∀ y ∈ l, rank x ≤ rank y := by
  induction l with
  | nil => exact absurd rfl hl
  | cons a l ih =>
    by_cases hnil : l = []
    · subst hnil
      exact ⟨a, List.mem_cons_self _ _, fun y hy => by
        rw [List.mem_singleton.1 hy]⟩
    · obtain ⟨m, hm, hmin⟩ := ih hnil
      by_cases ham : rank a ≤ rank m
      · refine ⟨a, List.mem_cons_self _ _, fun y hy => ?_⟩
        rcases List.mem_cons.1 hy with rfl | hy
        · exact Nat.le_refl _
        · exact Nat.le_trans ham (hmin y hy)
      · refine ⟨m, List.mem_cons_of_mem _ hm, fun y hy => ?_⟩
        rcases List.mem_cons.1 hy with rfl | hy
        · exact Nat.le_of_lt (Nat.lt_of_not_le ham)
        · exact hmin y hy

theorem exists_ready (edges : List (String × String)) (rank : String → Nat)
    (hrank : ∀ e ∈ edges, rank e.1 < rank e.2) (remaining : List String)
    (hne : remaining ≠ []) :
    remaining.filter (isReady edges remaining) ≠ [] := by
  obtain ⟨x, hx, hmin⟩ := exists_min_rank rank remaining hne
  have hr : isReady edges remaining x = true := by
    rw [isReady_iff]
    intro e he hex hm
    have h1 := hrank e he
    have h2 := hmin e.1 hm
    rw [hex] at h1
    exact absurd h1 (Nat.not_lt.2 h2)
  intro hnil
  have : x ∈ remaining.filter (isReady edges remaining) := List.mem_filter.2 ⟨hx, hr⟩
  rw [hnil] at this
  cases this

theorem sortFrom_spec (edges : List (String × String)) (rank : String → Nat)
    (hrank : ∀ e ∈ edges, rank e.1 < rank e.2) (fuel : Nat) (remaining : List String)
    (hnd : remaining.Nodup) (hlen : remaining.length ≤ fuel) :
    ∃ order, sortFrom edges (fun s s2 => decide (s.data < s2.data)) fuel remaining =
        some order ∧
      order.Perm remaining ∧
      (∀ e ∈ edges, e.1 ∈ remaining → e.2 ∈ remaining → Before e.1 e.2 order) ∧
      ∀ pre x post, order = pre ++ x :: post → ∀ y ∈ post,
        isReady edges (x :: post) y = true → ¬ y < x := by
  induction fuel generalizing remaining with
  | zero =>
    have hnil : remaining = [] := List.length_eq_zero.1 (Nat.le_zero.1 hlen)
    subst hnil
    refine ⟨[], by simp [sortFrom], List.Perm.refl _, ?_, ?_⟩
    · intro e _ h1
      cases h1
    · intro pre x post h
      cases pre <;> cases h
  | succ fuel ih =>
    by_cases hnil : remaining = []
    · subst hnil
      refine ⟨[], by simp [sortFrom], List.Perm.refl _, ?_, ?_⟩
      · intro e _ h1
        cases h1
      · intro pre x post h
        cases pre <;> cases h
    · obtain ⟨x, hx⟩ := @leastBy_some (fun s s2 => decide (s.data < s2.data)) _
        (exists_ready edges rank hrank remaining hnil)
      have hxf := leastBy_mem hx
      obtain ⟨hxr, hxready⟩ := List.mem_filter.1 hxf
      have hlen' : (remaining.erase x).length ≤ fuel := by
        rw [List.length_erase_of_mem hxr]
        omega
      obtain ⟨order, hsort, hperm, hbefore, htie⟩ := ih (remaining.erase x) (hnd.erase x) hlen'
      have hmem : ∀ z, z ∈ order ↔ z ≠ x ∧ z ∈ remaining := fun z =>
        (hperm.mem_iff).trans hnd.mem_erase_iff
      refine ⟨x :: order, by simp [sortFrom, hnil, hx, hsort], ?_, ?_, ?_⟩
      · exact (List.Perm.cons x hperm).trans (List.perm_cons_erase hxr).symm
      · intro e he h1 h2
        have hne2 : e.2 ≠ x := fun h => (isReady_iff _ _ _).1 hxready e he h h1
        by_cases h1x : e.1 = x
        · exact ⟨[], order, by rw [h1x]; rfl, (hmem _).2 ⟨hne2, h2⟩⟩
        · obtain ⟨l1, l2, hl, hv⟩ := hbefore e he (hnd.mem_erase_iff.2 ⟨h1x, h1⟩)
            (hnd.mem_erase_iff.2 ⟨hne2, h2⟩)
          exact ⟨x :: l1, l2, by rw [hl]; rfl, hv⟩
      · intro pre x' post h y hy hready
        cases pre with
        | nil =>
          simp only [List.nil_append, List.cons.injEq] at h
          obtain ⟨h1, h2⟩ := h
          subst h1 h2
          have hcongr : isReady edges remaining y = isReady edges (x :: order) y :=
            isReady_congr edges (fun z => by
              rw [List.mem_cons, hmem]
              constructor
              · intro hz
                by_cases hzx : z = x
                · exact Or.inl hzx
                · exact Or.inr ⟨hzx, hz⟩
              · rintro (hz | hz)
                · exact hz ▸ hxr
                · exact hz.2) y
          have hyf : y ∈ remaining.filter (isReady edges remaining) :=
            List.mem_filter.2 ⟨((hmem y).1 hy).2, by rw [hcongr]; exact hready⟩
          exact leastBy_least hx y hyf
        | cons p pre =>
          simp only [List.cons_append, List.cons.injEq] at h
          exact htie pre x' post h.2 y hy hready

theorem foldl_append_filter (node : String) (project acc : List Job) :
    project.foldl (fun sortedCommands command =>
      if command.ProjectName = node then sortedCommands ++ [command] else sortedCommands) acc =
      acc ++ project.filter (fun j => j.ProjectName = node) := by
  induction project generalizing acc with
  | nil => simp
  | cons j project ih =>
    by_cases hj : j.ProjectName = node
    · simp [List.foldl_cons, ih, hj, List.filter_cons]
    · simp [List.foldl_cons, ih, hj, List.filter_cons]

theorem foldl_nodes (project : List Job) (order : List String) (acc : List Job) :
    order.foldl (fun sortedCommands node =>
      project.foldl (fun sortedCommands command =>
        if command.ProjectName = node then sortedCommands ++ [command] else sortedCommands)
        sortedCommands) acc =
      acc ++ order.flatMap (fun node => project.filter (fun j => j.ProjectName = node)) := by
  simp only [foldl_append_filter]
  induction order generalizing acc with
  | nil => simp
  | cons node order ih =>
    simp only [List.foldl_cons, ih, List.flatMap_cons, List.append_assoc]

theorem name_mem_of_mem_flatMap {project : List Job} {order : List String} {j : Job}
    (h : j ∈ order.flatMap (fun node => project.filter (fun j => j.ProjectName = node))) :
    j.ProjectName ∈ order := by
  obtain ⟨node, hn, hj⟩ := List.mem_flatMap.1 h
  have := (List.mem_filter.1 hj).2
  simp only [decide_eq_true_eq] at this
  exact this ▸ hn

/-! ## C15: jobs sorted by dependency -/

/-- C15: for every dependency graph without cycle (and with distinct vertex
keys) and every job list, `SortedCommandsByDependency` returns: the jobs of
the projects taken in the order `order` of the stable topological sort, which
lists every project of the graph once; whenever the graph has an edge
`u → v`, the returned list splits in two parts with every returned job of `u`
in the first and every returned job of `v` in the second; and a project `x`
comes before every later project `y` that is ready at the time `x` is taken
(no edge leads to `y` from `x` or a later project) only if `x < y`, the
ties being broken by the lexicographic order of the names. -/
theorem C15_jobs_in_dependency_order (project : List Job) (g : DependencyGraph)
    (hnd : g.vertices.Nodup) (hac : g.Acyclic) :
    ∃ order, StableTopologicalSort g (fun s s2 => decide (s.data < s2.data)) = some order ∧
      order.Perm g.vertices ∧
      SortedCommandsByDependency project g =
        .ok (order.flatMap (fun node => project.filter (fun j => j.ProjectName = node))) ∧
      (∀ u v, (u, v) ∈ g.edges → ∃ l1 l2,
        SortedCommandsByDependency project g = .ok (l1 ++ l2) ∧
        (∀ j ∈ l1, j.ProjectName ≠ v) ∧ (∀ j ∈ l2, j.ProjectName ≠ u)) ∧
      (∀ pre x post, order = pre ++ x :: post → ∀ y ∈ post,
        isReady g.edges (x :: post) y = true → x < y) := by
  obtain ⟨rank, hrank⟩ := hac
  obtain ⟨order, hsort, hperm, hbefore, htie⟩ :=
    sortFrom_spec g.edges rank hrank g.vertices.length g.vertices hnd (Nat.le_refl _)
  have hond : order.Nodup := (hperm.nodup_iff).2 hnd
  have hout : SortedCommandsByDependency project g =
      .ok (order.flatMap (fun node => project.filter (fun j => j.ProjectName = node))) := by
    simp only [SortedCommandsByDependency, StableTopologicalSort, hsort, foldl_nodes,
      List.nil_append]
  refine ⟨order, hsort, hperm, hout, ?_, ?_⟩
  · intro u v he
    by_cases hu : u ∈ g.vertices
    · by_cases hv : v ∈ g.vertices
      · obtain ⟨l1, l2, hl, hv2⟩ := hbefore (u, v) he hu hv
        subst hl
        have hnd2 : (l1 ++ [u] ++ l2).Nodup := by simpa using hond
        have hdisj := List.disjoint_of_nodup_append hnd2
        refine ⟨(l1 ++ [u]).flatMap (fun node => project.filter (fun j => j.ProjectName = node)),
          l2.flatMap (fun node => project.filter (fun j => j.ProjectName = node)), ?_, ?_, ?_⟩
        · rw [hout, ← List.flatMap_append]
          simp
        · intro j hj hjv
          exact hdisj (hjv ▸ name_mem_of_mem_flatMap hj) hv2
        · intro j hj hju
          exact hdisj (List.mem_append_right _ (List.mem_singleton.2 rfl))
            (hju ▸ name_mem_of_mem_flatMap hj)
      · refine ⟨_, [], by rw [hout, List.append_nil], ?_, ?_⟩
        · intro j hj hjv
          exact hv (hperm.mem_iff.1 (hjv ▸ name_mem_of_mem_flatMap hj))
        · intro j hj
          cases hj
    · refine ⟨[], _, by rw [hout, List.nil_append], ?_, ?_⟩
      · intro j hj
        cases hj
      · intro j hj hju
        exact hu (hperm.mem_iff.1 (hju ▸ name_mem_of_mem_flatMap hj))
  · intro pre x post hord y hy hready
    have hnlt := htie pre x post hord y hy hready
    have hne : x ≠ y := by
      rintro rfl
      rw [hord] at hond
      have := (List.nodup_append.1 hond).2.1
      exact (List.nodup_cons.1 this).1 hy
    exact lt_of_le_of_ne (not_lt.1 hnlt) hne

/-- C15 (witness): for the graph `A → B`, `A → C` and jobs of `A`, `B` and `C`
in any input order, the jobs come out in the order `A`, `B`, `C`. -/
theorem C15_jobs_in_dependency_order_witness :
    SortedCommandsByDependency [projectJob "C", projectJob "B", projectJob "A"] abcGraph =
      .ok [projectJob "A", projectJob "B", projectJob "C"] ∧
    SortedCommandsByDependency [projectJob "C", projectJob "A", projectJob "B"] abcGraph =
      .ok [projectJob "A", projectJob "B", projectJob "C"] ∧
    SortedCommandsByDependency [projectJob "B", projectJob "C", projectJob "A"] abcGraph =
      .ok [projectJob "A", projectJob "B", projectJob "C"] ∧
    SortedCommandsByDependency [projectJob "B", projectJob "A", projectJob "C"] abcGraph =
      .ok [projectJob "A", projectJob "B", projectJob "C"] ∧
    SortedCommandsByDependency [projectJob "A", projectJob "C", projectJob "B"] abcGraph =
      .ok [projectJob "A", projectJob "B", projectJob "C"] ∧
    SortedCommandsByDependency [projectJob "A", projectJob "B", projectJob "C"] abcGraph =
      .ok [projectJob "A", projectJob "B", projectJob "C"] := by
  obtain ⟨order, hs, _, hout, _, _⟩ := C15_jobs_in_dependency_order
    [projectJob "C", projectJob "B", projectJob "A"] abcGraph (by decide)
    ⟨fun s => if s = "A" then 0 else 1, by decide⟩
  have ho : order = ["A", "B", "C"] := Option.some.inj (hs.symm.trans (by decide))
  subst ho
  exact ⟨hout.trans (by decide), by decide, by decide, by decide, by decide, by decide⟩

section Backend
open Controllers

/-! ## C16: approving twice -/

/-- C16 (counterexample): when the run cannot be serialised, the first
`ApproveRun` on the pending run 7 updates the store and answers 500
`"Could not unmarshall data"`, not 200. -/
theorem C16_approve_answers_500_when_not_serialised :
    (ApproveRun (memoryDb false) 100 (request 1 "7") store).replies =
      [.str 500 "Could not unmarshall data"] ∧
    (ApproveRun (memoryDb false) 100 (request 1 "7") store).updates =
      [{ pendingRun with ApprovalAuthor := "a_user", IsApproved := true, ApprovalDate := 100 }] := by
  decide

theorem atoi_empty : Controllers.Atoi "" = none := by decide

/-- C16 (amended): for a run of the caller's organisation with status
`RunPendingApproval` and `IsApproved = false`, let the update of the first
`ApproveRun` (at the time `t1`) succeed, the store then hold the updated run,
and that run be serialised as `j`.  Then the first call answers 200 with `j`
after one update, of the run with `IsApproved = true`,
`ApprovalAuthor = "a_user"` and `ApprovalDate = t1`; and a second call (at the
time `t2`) answers 200 with `j` again, makes no update and leaves the store
as it was after the first call, `ApprovalDate` still being `t1`. -/
theorem C16_approve_twice_is_idempotent {σ : Type} (db : Database σ) (t1 t2 : Nat)
    (c : Context) (s s1 : σ) (runId : Int) (k : Nat) (org : Organisation) (run : DiggerRun)
    (j : String)
    (hid : Atoi (c.Param "run_id") = some runId) (hk : c.currentOrg = some k)
    (horg : db.FirstOrganisation s k = .ok org)
    (hget : db.GetDiggerRun s (toUint runId) = .ok run)
    (hown : run.Repo.OrganisationID = org.ID) (hst : run.Status = .RunPendingApproval)
    (hna : run.IsApproved = false)
    (hupd : db.UpdateDiggerRun s
      { run with ApprovalAuthor := "a_user", IsApproved := true, ApprovalDate := t1 } = (none, s1))
    (horg1 : db.FirstOrganisation s1 k = .ok org)
    (hget1 : db.GetDiggerRun s1 (toUint runId) =
      .ok { run with ApprovalAuthor := "a_user", IsApproved := true, ApprovalDate := t1 })
    (hjson : db.MapToJsonStruct s1
      { run with ApprovalAuthor := "a_user", IsApproved := true, ApprovalDate := t1 } = .ok j) :
    ((ApproveRun db t1 c s).replies = [.json 200 (.run j)] ∧
      (ApproveRun db t1 c s).updates =
        [{ run with ApprovalAuthor := "a_user", IsApproved := true, ApprovalDate := t1 }] ∧
      (ApproveRun db t1 c s).panicked = false ∧
      (ApproveRun db t1 c s).db = s1) ∧
    ((ApproveRun db t2 c (ApproveRun db t1 c s).db).replies = [.json 200 (.run j)] ∧
      (ApproveRun db t2 c (ApproveRun db t1 c s).db).updates = [] ∧
      (ApproveRun db t2 c (ApproveRun db t1 c s).db).panicked = false ∧
      (ApproveRun db t2 c (ApproveRun db t1 c s).db).db = (ApproveRun db t1 c s).db ∧
      db.GetDiggerRun (ApproveRun db t2 c (ApproveRun db t1 c s).db).db (toUint runId) =
        .ok { run with ApprovalAuthor := "a_user", IsApproved := true, ApprovalDate := t1 }) := by
  have hne : c.Param "run_id" ≠ "" := by
    intro h
    rw [h, atoi_empty] at hid
    cases hid
  rcases run with ⟨id, repo, st, approved, author, date⟩
  simp only at hown hst hna hupd hget1 hjson
  subst hst hna
  have h1 : ApproveRun db t1 c s = ⟨[.json 200 (.run j)],
      [⟨id, repo, .RunPendingApproval, true, "a_user", t1⟩], false, s1⟩ := by
    simp [ApproveRun, hne, hid, hk, lookupOrganisation, horg, hget, hown, hupd, hjson]
  have h2 : ApproveRun db t2 c s1 = ⟨[.json 200 (.run j)], [], false, s1⟩ := by
    simp [ApproveRun, hne, hid, hk, lookupOrganisation, horg1, hget1, hown, hjson]
  rw [h1]
  simp [h2, hget1]

/-- C16 (witness): the run 7 of the spec's scenario approved at the times 100
and 200: both calls answer 200 with the same run, approved at 100. -/
theorem C16_approve_twice_is_idempotent_witness :
    (ApproveRun (memoryDb true) 100 (request 1 "7") store).replies =
      [.json 200 (.run "run 7 PendingApproval approved=true by=a_user at=100")] ∧
    (ApproveRun (memoryDb true) 200 (request 1 "7")
      (ApproveRun (memoryDb true) 100 (request 1 "7") store).db).replies =
      [.json 200 (.run "run 7 PendingApproval approved=true by=a_user at=100")] ∧
    (ApproveRun (memoryDb true) 200 (request 1 "7")
      (ApproveRun (memoryDb true) 100 (request 1 "7") store).db).updates = [] :=
  have h := C16_approve_twice_is_idempotent (memoryDb true) 100 200 (request 1 "7") store
    { store with runs := [{ pendingRun with ApprovalAuthor := "a_user", IsApproved := true,
                                            ApprovalDate := 100 }, appliedRun] }
    7 1 { ID := 1 } pendingRun "run 7 PendingApproval approved=true by=a_user at=100"
    (by decide) rfl rfl rfl rfl rfl rfl rfl rfl rfl rfl
  ⟨h.1.1, h.2.1, h.2.2.1⟩

/-! ## C17: only a run that is pending approval is approved -/

/-- C17: for every run that `ApproveRun` fetches whose status is not
`RunPendingApproval`, the handler writes one reply, with a code other than
200, makes no `UpdateDiggerRun`, does not panic and leaves the store as it
was, so every field of the record is unchanged; and when the caller's
organisation exists and owns the run, the reply is 400
`"Approval not possible for run (<id>) because status is <status>"`. -/
theorem C17_only_pending_run_is_approved {σ : Type} (db : Database σ) (now : Nat) (c : Context)
    (s : σ) (runId : Int) (run : DiggerRun)
    (hid : Atoi (c.Param "run_id") = some runId)
    (hget : db.GetDiggerRun s (toUint runId) = .ok run)
    (hst : run.Status ≠ .RunPendingApproval) :
    (∃ code body, (ApproveRun db now c s).replies = [.str code body] ∧ code ≠ 200) ∧
    (ApproveRun db now c s).updates = [] ∧
    (ApproveRun db now c s).panicked = false ∧
    (ApproveRun db now c s).db = s ∧
    db.GetDiggerRun (ApproveRun db now c s).db (toUint runId) = .ok run ∧
    (∀ k org, c.currentOrg = some k → db.FirstOrganisation s k = .ok org →
      run.Repo.OrganisationID = org.ID →
      (ApproveRun db now c s).replies =
        [.str 400 ("Approval not possible for run (" ++ toString run.ID ++
          ") because status is " ++ run.Status.text)]) := by
  have hne : c.Param "run_id" ≠ "" := by
    intro h
    rw [h, atoi_empty] at hid
    cases hid
  unfold ApproveRun lookupOrganisation
  simp only [hne, if_false, hid, hget]
  cases hk : c.currentOrg with
  | none => simp [replied, hget]
  | some k =>
    cases ho : db.FirstOrganisation s k with
    | error e =>
      cases e <;> simp [replied, hget, ho] <;>
        (intro k2 org2 hk2 ho2
         subst hk2
         rw [ho] at ho2
         cases ho2)
    | ok org =>
      by_cases hown : run.Repo.OrganisationID = org.ID
      · simp [replied, hown, hst, hget, ho]
      · simp [replied, hown, hget, ho]
        intro k2 org2 hk2 ho2
        subst hk2
        rw [ho] at ho2
        cases ho2
        exact hown

/-- C17 (witness): the applied run 8 is not approved: the handler answers 400
and the store is as before. -/
theorem C17_only_pending_run_is_approved_witness :
    (ApproveRun (memoryDb true) 100 (request 1 "8") store).replies =
      [.str 400 "Approval not possible for run (8) because status is Applied"] ∧
    (ApproveRun (memoryDb true) 100 (request 1 "8") store).updates = [] ∧
    (ApproveRun (memoryDb true) 100 (request 1 "8") store).db = store :=
  have h := C17_only_pending_run_is_approved (memoryDb true) 100 (request 1 "8") store 8
    appliedRun (by decide) rfl (by decide)
  ⟨h.2.2.2.2.2 1 { ID := 1 } rfl rfl rfl, h.2.1, h.2.2.2.1⟩

/-! ## C18: the status of an approved run -/

/-- C18 (counterexample): after the successful `ApproveRun` on the run 7,
whose status is `RunPendingApproval`, the run in the store is approved and
its status is still `RunPendingApproval`, not `RunApproved`. -/
theorem C18_approved_run_stays_pending :
    (ApproveRun (memoryDb true) 100 (request 1 "7") store).replies =
      [.json 200 (.run "run 7 PendingApproval approved=true by=a_user at=100")] ∧
    (memoryDb true).GetDiggerRun (ApproveRun (memoryDb true) 100 (request 1 "7") store).db 7 =
      .ok { pendingRun with ApprovalAuthor := "a_user", IsApproved := true,
                            ApprovalDate := 100 } ∧
    ({ pendingRun with ApprovalAuthor := "a_user", IsApproved := true,
                       ApprovalDate := 100 } : DiggerRun).Status ≠ .RunApproved :=
  ⟨rfl, rfl, by decide⟩

/-- C18 (amended): `ApproveRun` does not change the status of the run.  For
the run that it fetches, every run that it passes to `UpdateDiggerRun` is the
fetched run with `ApprovalAuthor = "a_user"`, `IsApproved = true` and
`ApprovalDate = now`, so with the status of the fetched run; and when the
handler answers 200, that status is `RunPendingApproval`, and the update has
been made if the run was not approved yet. -/
theorem C18_approve_keeps_status {σ : Type} (db : Database σ) (now : Nat) (c : Context)
    (s : σ) (runId : Int) (run : DiggerRun)
    (hid : Atoi (c.Param "run_id") = some runId)
    (hget : db.GetDiggerRun s (toUint runId) = .ok run) :
    (∀ r ∈ (ApproveRun db now c s).updates,
      r = { run with ApprovalAuthor := "a_user", IsApproved := true, ApprovalDate := now } ∧
      r.Status = run.Status) ∧
    ((∃ j, Reply.json 200 (.run j) ∈ (ApproveRun db now c s).replies) →
      run.Status = .RunPendingApproval ∧
      (run.IsApproved = false → (ApproveRun db now c s).updates =
        [{ run with ApprovalAuthor := "a_user", IsApproved := true, ApprovalDate := now }])) := by
  have hne : c.Param "run_id" ≠ "" := by
    intro h
    rw [h, atoi_empty] at hid
    cases hid
  rcases run with ⟨id, repo, st, approved, author, date⟩
  unfold ApproveRun lookupOrganisation
  simp only [hne, if_false, hid, hget]
  cases hk : c.currentOrg with
  | none => simp [replied]
  | some k =>
    cases ho : db.FirstOrganisation s k with
    | error e => cases e <;> simp [replied, ho]
    | ok org =>
      by_cases hown : repo.OrganisationID = org.ID
      · by_cases hst : st = .RunPendingApproval
        · subst hst
          by_cases hna : approved = false
          · subst hna
            rcases hu : db.UpdateDiggerRun s ⟨id, repo, .RunPendingApproval, true, "a_user", now⟩
              with ⟨err, s1⟩
            cases err <;>
              cases hj : db.MapToJsonStruct s1
                ⟨id, repo, .RunPendingApproval, true, "a_user", now⟩ <;>
              simp [replied, hown, hu, hj, ho]
          · cases hj : db.MapToJsonStruct s ⟨id, repo, .RunPendingApproval, approved, author, date⟩ <;>
              simp [replied, hown, hna, hj, ho]
        · simp [replied, hown, hst, ho]
      · simp [replied, hown, ho]

/-- C18 (witness): the approval of the pending run 7 passes one run to the
store, and its status is `RunPendingApproval`. -/
theorem C18_approve_keeps_status_witness :
    (ApproveRun (memoryDb true) 100 (request 1 "7") store).updates ≠ [] ∧
    ∀ r ∈ (ApproveRun (memoryDb true) 100 (request 1 "7") store).updates,
      r.Status = .RunPendingApproval :=
  ⟨by decide,
   fun r hr => ((C18_approve_keeps_status (memoryDb true) 100 (request 1 "7") store 7 pendingRun
    (by decide) rfl).1 r hr).2⟩

/-! ## C19: records of another organisation -/

/-- C19: let the organisation of the caller exist (`org`).  When the path
parameter is a number and the run fetched for it belongs to a repository of
another organisation, `RunDetails` and `ApproveRun` write the one reply 403
`"Not allowed to access this resource"`, pass no run to `UpdateDiggerRun`
and leave the store as it was; when the project fetched for the path
parameter belongs to another organisation, `RunsForProject` writes the one
reply 403 `"No access to this project"`.  A reply written with `c.String`
carries no run. -/
theorem C19_other_organisation_is_forbidden {σ : Type} (db : Database σ) (now : Nat)
    (c : Context) (s : σ) (k : Nat) (org : Organisation)
    (hk : c.currentOrg = some k) (ho : db.FirstOrganisation s k = .ok org) :
    (∀ (runId : Int) (run : DiggerRun), Atoi (c.Param "run_id") = some runId →
      db.GetDiggerRun s (toUint runId) = .ok run → run.Repo.OrganisationID ≠ org.ID →
      Controllers.RunDetails db c s =
        ⟨[.str 403 "Not allowed to access this resource"], [], false, s⟩ ∧
      ApproveRun db now c s =
        ⟨[.str 403 "Not allowed to access this resource"], [], false, s⟩) ∧
    (∀ (projectId : Int) (project : Project), Atoi (c.Param "project_id") = some projectId →
      db.GetProject s (toUint projectId) = .ok project → project.OrganisationID ≠ org.ID →
      RunsForProject db c s = ⟨[.str 403 "No access to this project"], [], false, s⟩) := by
  refine ⟨fun runId run hid hget hown => ?_, fun projectId project hid hget hown => ?_⟩
  · have hne : c.Param "run_id" ≠ "" := by
      intro h
      rw [h, atoi_empty] at hid
      cases hid
    constructor
    · unfold Controllers.RunDetails lookupOrganisation
      simp only [hne, if_false, hid, hk, ho, hget]
      simp [replied, hown]
    · unfold ApproveRun lookupOrganisation
      simp only [hne, if_false, hid, hk, ho, hget]
      simp [replied, hown]
  · have hne : c.Param "project_id" ≠ "" := by
      intro h
      rw [h, atoi_empty] at hid
      cases hid
    unfold RunsForProject lookupOrganisation
    simp only [hne, if_false, hid, hk, ho, hget]
    simp [replied, hown]

/-- C19 (witness): organisation 2 asks for the run 7 and for the project 3 of
organisation 1. -/
theorem C19_other_organisation_is_forbidden_witness :
    (Controllers.RunDetails (memoryDb true) (request 2 "7") store).replies =
      [.str 403 "Not allowed to access this resource"] ∧
    (ApproveRun (memoryDb true) 100 (request 2 "7") store).replies =
      [.str 403 "Not allowed to access this resource"] ∧
    (ApproveRun (memoryDb true) 100 (request 2 "7") store).updates = [] ∧
    (RunsForProject (memoryDb true) (request 2 "3") store).replies =
      [.str 403 "No access to this project"] :=
  have h7 := (C19_other_organisation_is_forbidden (memoryDb true) 100 (request 2 "7") store 2
    { ID := 2 } rfl rfl).1 7 pendingRun (by decide) rfl (by decide)
  have h3 := (C19_other_organisation_is_forbidden (memoryDb true) 100 (request 2 "3") store 2
    { ID := 2 } rfl rfl).2 3
    { ID := 3, Name := "web", OrganisationID := 1, Repo := { ID := 1, OrganisationID := 1 } }
    (by decide) rfl (by decide)
  ⟨congrArg Handled.replies h7.1, congrArg Handled.replies h7.2,
   congrArg Handled.updates h7.2, congrArg Handled.replies h3⟩

end Backend

/-! ## The jobs that the sort keeps -/

theorem count_filter_name (project : List Job) (node : String) (j : Job) :
    (project.filter (fun j => j.ProjectName = node)).count j =
      if j.ProjectName = node then project.count j else 0 := by
  by_cases h : j.ProjectName = node
  · rw [if_pos h]
    exact List.count_filter (by simpa using h)
  · rw [if_neg h]
    refine List.count_eq_zero.2 (fun hm => h ?_)
    simpa using (List.mem_filter.1 hm).2

theorem count_flatMap_nodes (project : List Job) (order : List String) (j : Job) :
    (order.flatMap (fun node => project.filter (fun j => j.ProjectName = node))).count j =
      order.count j.ProjectName * project.count j := by
  induction order with
  | nil => simp
  | cons node order ih =>
    rw [List.flatMap_cons, List.count_append, ih, count_filter_name, List.count_cons]
    by_cases h : j.ProjectName = node
    · have h2 : (node == j.ProjectName) = true := by simpa using h.symm
      rw [if_pos h, if_pos h2]
      ring
    · have h2 : ¬ (node == j.ProjectName) = true := by
        simpa using fun h3 : node = j.ProjectName => h h3.symm
      rw [if_neg h, if_neg h2]
      ring

theorem filter_flatMap_nodes (project : List Job) (P : String) (order : List String)
    (hnd : order.Nodup) :
    (order.flatMap (fun node => project.filter (fun j => j.ProjectName = node))).filter
        (fun j => j.ProjectName = P) =
      if P ∈ order then project.filter (fun j => j.ProjectName = P) else [] := by
  induction order with
  | nil => simp
  | cons node order ih =>
    obtain ⟨hn, hnd2⟩ := List.nodup_cons.1 hnd
    rw [List.flatMap_cons, List.filter_append, ih hnd2, List.filter_filter]
    by_cases h : node = P
    · subst h
      have : (fun a : Job => (decide (a.ProjectName = node) && decide (a.ProjectName = node))) =
          fun a : Job => decide (a.ProjectName = node) := by
        funext a
        simp
      rw [this, if_neg hn, List.append_nil, if_pos (List.mem_cons_self _ _)]
    · have hnil : project.filter
          (fun a : Job => (decide (a.ProjectName = P) && decide (a.ProjectName = node))) = [] := by
        refine List.filter_eq_nil_iff.2 (fun a _ ha => h ?_)
        simp only [Bool.and_eq_true, decide_eq_true_eq] at ha
        exact ha.2.symm.trans ha.1
      rw [hnil, List.nil_append]
      by_cases hP : P ∈ order
      · rw [if_pos hP, if_pos (List.mem_cons_of_mem _ hP)]
      · rw [if_neg hP, if_neg (fun hm => hP ((List.mem_cons.1 hm).resolve_left (Ne.symm h)))]

/-! ## C23: the jobs that `SortedCommandsByDependency` returns -/

/-- C23: for every dependency graph without cycle (and with distinct vertex
keys) and every job list, `SortedCommandsByDependency` returns a list `sorted`
that is the concatenation, over the vertices in the order `order` of the
sort, of the input jobs of that project in their input order.  Every job
occurs in `sorted` as often as in the input when its `ProjectName` is a vertex
and not at all otherwise; the jobs of one vertex are in `sorted` in their input
order; `sorted` is a permutation of the input jobs whose project is a vertex;
and it is a permutation of the input exactly when the project of every job is
a vertex. -/
theorem C23_sorted_jobs_grouped_by_vertex (project : List Job) (g : DependencyGraph)
    (hnd : g.vertices.Nodup) (hac : g.Acyclic) :
    ∃ order sorted,
      StableTopologicalSort g (fun s s2 => decide (s.data < s2.data)) = some order ∧
      order.Perm g.vertices ∧
      SortedCommandsByDependency project g = .ok sorted ∧
      sorted = order.flatMap (fun node => project.filter (fun j => j.ProjectName = node)) ∧
      (∀ j, sorted.count j = if j.ProjectName ∈ g.vertices then project.count j else 0) ∧
      (∀ P ∈ g.vertices, sorted.filter (fun j => j.ProjectName = P) =
        project.filter (fun j => j.ProjectName = P)) ∧
      sorted.Perm (project.filter (fun j => j.ProjectName ∈ g.vertices)) ∧
      (sorted.Perm project ↔ ∀ j ∈ project, j.ProjectName ∈ g.vertices) := by
  obtain ⟨rank, hrank⟩ := hac
  obtain ⟨order, hsort, hperm, _, _⟩ :=
    sortFrom_spec g.edges rank hrank g.vertices.length g.vertices hnd (Nat.le_refl _)
  have hond : order.Nodup := (hperm.nodup_iff).2 hnd
  have hout : SortedCommandsByDependency project g =
      .ok (order.flatMap (fun node => project.filter (fun j => j.ProjectName = node))) := by
    simp only [SortedCommandsByDependency, StableTopologicalSort, hsort, foldl_nodes,
      List.nil_append]
  have hcount : ∀ j : Job,
      (order.flatMap (fun node => project.filter (fun j => j.ProjectName = node))).count j =
        if j.ProjectName ∈ g.vertices then project.count j else 0 := by
    intro j
    rw [count_flatMap_nodes]
    by_cases hj : j.ProjectName ∈ g.vertices
    · rw [if_pos hj, List.count_eq_one_of_mem hond (hperm.mem_iff.2 hj), Nat.one_mul]
    · rw [if_neg hj, List.count_eq_zero.2 (fun hm => hj (hperm.mem_iff.1 hm)), Nat.zero_mul]
  have hkept : (order.flatMap (fun node => project.filter (fun j => j.ProjectName = node))).Perm
      (project.filter (fun j => j.ProjectName ∈ g.vertices)) := by
    refine List.perm_iff_count.2 (fun j => ?_)
    rw [hcount]
    by_cases hj : j.ProjectName ∈ g.vertices
    · rw [if_pos hj]
      exact (List.count_filter (by simpa using hj)).symm
    · rw [if_neg hj]
      refine (List.count_eq_zero.2 (fun hm => hj ?_)).symm
      simpa using (List.mem_filter.1 hm).2
  refine ⟨order, _, hsort, hperm, hout, rfl, hcount, ?_, hkept, ?_⟩
  · intro P hP
    rw [filter_flatMap_nodes project P order hond, if_pos (hperm.mem_iff.2 hP)]
  · constructor
    · intro hp j hj
      exact hperm.mem_iff.1 (name_mem_of_mem_flatMap (hp.mem_iff.2 hj))
    · intro hall
      have : project.filter (fun j => j.ProjectName ∈ g.vertices) = project :=
        List.filter_eq_self.2 (fun j hj => by simpa using hall j hj)
      rw [this] at hkept
      exact hkept

/-- C23 (witness): for the graph `A → B`, `A → C` the jobs of `B`, `D`, `A`,
`B` come out as the job of `A` and the two jobs of `B`; the job of `D`, which
is not a vertex, is dropped. -/
theorem C23_sorted_jobs_grouped_by_vertex_witness :
    SortedCommandsByDependency
      [projectJob "B", projectJob "D", projectJob "A", { projectJob "B" with Commands := [] }]
      abcGraph =
      .ok [projectJob "A", projectJob "B", { projectJob "B" with Commands := [] }] := by
  obtain ⟨order, sorted, hs, _, hout, heq, _, _, _, _⟩ := C23_sorted_jobs_grouped_by_vertex
    [projectJob "B", projectJob "D", projectJob "A", { projectJob "B" with Commands := [] }]
    abcGraph (by decide) ⟨fun s => if s = "A" then 0 else 1, by decide⟩
  have ho : order = ["A", "B", "C"] := Option.some.inj (hs.symm.trans (by decide))
  subst ho
  rw [hout, heq]
  decide

/-! ## The panics of `RunJobs` -/

theorem panicsOnly_pure {α : Type} (a : α) (M : String → Prop) :
    PanicsOnly (pure a : Prog α) M := trivial

theorem panicsOnly_fatal {α : Type} (m : String) (M : String → Prop) :
    PanicsOnly (Prog.fatal m : Prog α) M := trivial

theorem panicsOnly_panic {α : Type} {m : String} {M : String → Prop} (h : M m) :
    PanicsOnly (Prog.panic m : Prog α) M := h

theorem panicsOnly_perform_bind {β : Type} {M : String → Prop} (c : Call) (f : Resp c → Prog β)
    (hf : ∀ a, PanicsOnly (f a) M) : PanicsOnly (perform c >>= f) M := hf

theorem panicsOnly_bind {α β : Type} {p : Prog α} {f : α → Prog β} {R : α → Prop}
    {M : String → Prop} (hp : PanicsOnly p M) (hr : Returns p R)
    (hf : ∀ a, R a → PanicsOnly (f a) M) : PanicsOnly (p >>= f) M := by
  induction p with
  | ret a => exact hf a hr
  | panic m => exact hp
  | fatal m => trivial
  | call c k ih => exact fun r => ih r (hp r) (hr r)

theorem panicsOnly_mono {α : Type} {p : Prog α} {M N : String → Prop} (hmn : ∀ m, M m → N m)
    (hp : PanicsOnly p M) : PanicsOnly p N := by
  induction p with
  | ret a => trivial
  | panic m => exact hmn m hp
  | fatal m => trivial
  | call c k ih => exact fun r => ih r (hp r)

theorem panicsOnly_withDefer {α : Type} {d : Prog Unit} {p : Prog α} {M : String → Prop}
    (hd : PanicsOnly d M) (hp : PanicsOnly p M) : PanicsOnly (withDefer d p) M := by
  induction p with
  | ret a =>
    show PanicsOnly (d >>= fun _ => Prog.ret a) M
    exact panicsOnly_bind hd (returns_any d) (fun _ _ => trivial)
  | panic m =>
    show PanicsOnly (d >>= fun _ => Prog.panic m) M
    exact panicsOnly_bind hd (returns_any d) (fun _ _ => hp)
  | fatal m => trivial
  | call c k ih => exact fun r => ih r (hp r)

theorem panicsOnly_exec {σ α : Type} {p : Prog α} {M : String → Prop} (hp : PanicsOnly p M)
    (h : Handler σ) (s : σ) (m : String) (hm : (exec h p s).1 = .panic m) : M m := by
  induction p generalizing s with
  | ret a => simp at hm
  | panic m0 =>
    simp only [exec_panic, Res.panic.injEq] at hm
    exact hm ▸ hp
  | fatal m0 => simp at hm
  | call c k ih => exact ih _ (hp _) _ (by simpa [exec_call] using hm)

theorem panicsOnly_run (c : String) (job : Job) (o r : String) (pr : Option Int)
    (u ns : String) (ps : Bool) (ap : AppliesPerProject) :
    PanicsOnly (run c job o r pr u ns ps ap) (fun m => m ≠ indexZeroOutOfRange) := by
  unfold run runSwitch runPlan runApply reportPolicyError reportApplyMergeabilityError
    reportTerraformPlanOutput reportEmptyPlanOutput
  dsimp only
  repeat' first
    | rw [prog_bind_assoc]
    | rw [prog_pure_bind]
    | rw [prog_panic_bind]
    | rw [prog_fatal_bind]
    | exact panicsOnly_pure _ _
    | exact panicsOnly_fatal _ _
    | exact panicsOnly_panic (by decide)
    | (refine panicsOnly_perform_bind _ _ ?_; intro _)
    | split

theorem panicsOnly_commandLoop (job : Job) (i : Nat) (o r : String) (ps : Bool)
    (cmds : List String) (st : LoopState) :
    PanicsOnly (commandLoop job i o r ps cmds st) (fun m => m ≠ indexZeroOutOfRange) := by
  induction cmds generalizing st with
  | nil => exact panicsOnly_pure _ _
  | cons c rest ih =>
    unfold commandLoop reportPolicyError ReportRunData
    dsimp only
    refine panicsOnly_perform_bind _ _ ?_
    intro allowed
    split
    · exact panicsOnly_pure _ _
    · repeat' first
        | rw [prog_bind_assoc]
        | rw [prog_pure_bind]
        | exact ih _
        | (refine panicsOnly_perform_bind _ _ ?_; intro _)
        | split
    · refine panicsOnly_bind (panicsOnly_run _ _ _ _ _ _ _ _ _) (returns_any _) ?_
      intro rr _
      repeat' first
        | rw [prog_bind_assoc]
        | rw [prog_pure_bind]
        | exact ih _
        | exact panicsOnly_pure _ _
        | exact panicsOnly_panic (by decide)
        | (refine panicsOnly_perform_bind _ _ ?_; intro _)
        | split

theorem panicsOnly_jobLoop (ps : Bool) (jobs : List Job) (i : Nat) (st : LoopState) :
    PanicsOnly (jobLoop ps jobs i st) (fun m => m ≠ indexZeroOutOfRange) := by
  induction jobs generalizing i st with
  | nil => exact panicsOnly_pure _ _
  | cons job rest ih =>
    unfold jobLoop
    split
    · refine panicsOnly_bind (panicsOnly_commandLoop _ _ _ _ _ _ _) (returns_any _) ?_
      intro ex _
      split
      · exact panicsOnly_pure _ _
      · exact ih _ _
      · exact ih _ _
    · exact panicsOnly_panic (by decide)

theorem panicsOnly_finalStatus (j0 : Job) (rest : List Job) (jobId : String) (rf rt : Bool)
    (cid : Int) (st : LoopState) (hlen : st.exectorResults.length = (j0 :: rest).length) :
    PanicsOnly (finalStatus (j0 :: rest) jobId rf rt cid st)
      (fun m => m ≠ indexZeroOutOfRange) := by
  rcases st with ⟨results, ap⟩
  cases results with
  | nil => simp at hlen
  | cons r0 rs =>
    unfold finalStatus
    dsimp only
    repeat' first
      | rw [prog_bind_assoc]
      | rw [prog_pure_bind]
      | exact panicsOnly_pure _ _
      | exact panicsOnly_panic (by decide)
      | (refine panicsOnly_perform_bind _ _ ?_; intro _)
      | split

theorem panicsOnly_RunJobs (j0 : Job) (rest : List Job) (ps : Bool) (jobId : String)
    (rf rt : Bool) (cid : Int) :
    PanicsOnly (RunJobs (j0 :: rest) ps jobId rf rt cid) (fun m => m ≠ indexZeroOutOfRange) := by
  unfold RunJobs
  refine panicsOnly_withDefer (panicsOnly_perform_bind _ _ (fun _ => panicsOnly_pure _ _)) ?_
  unfold RunJobsBody
  dsimp only
  refine panicsOnly_bind (panicsOnly_jobLoop _ _ _ _)
    (jobLoop_keeps ps (j0 :: rest).length (j0 :: rest) 0 _ (by simp)) ?_
  intro x hx
  cases x with
  | error e => exact panicsOnly_pure _ _
  | ok st => exact panicsOnly_finalStatus j0 rest jobId rf rt cid st (hx st rfl)

/-! ## C24: `RunJobs` on the empty job list -/

/-- C24: whatever the collaborators answer, `RunJobs` on the empty job list
with `reportFinalStatusToBackend = false` returns `(true, false, nil)` and its
only call is the deferred flush of the Reporter; with
`reportFinalStatusToBackend = true` and a flush that succeeds it ends in the
panic of an index `0` out of range, after that flush and the deferred one; and
on a job list that is not empty `RunJobs` never ends in that panic, so the
accesses `jobs[0]` and `exectorResults[0]` are out of range exactly for the
empty job list. -/
theorem C24_empty_job_list {σ : Type} (h : Handler σ) (s : σ) (planStorage : Bool)
    (jobId : String) (reportTerraformOutput : Bool) (prCommentId : Int) :
    (outcome h (RunJobs [] planStorage jobId false reportTerraformOutput prCommentId) s =
        .ok (true, false, none) ∧
      calls h (RunJobs [] planStorage jobId false reportTerraformOutput prCommentId) s =
        [.Flush]) ∧
    (∀ x, (h .Flush s).1 = .ok x →
      outcome h (RunJobs [] planStorage jobId true reportTerraformOutput prCommentId) s =
        .panic indexZeroOutOfRange ∧
      calls h (RunJobs [] planStorage jobId true reportTerraformOutput prCommentId) s =
        [.Flush, .Flush]) ∧
    (∀ (jobs : List Job) (reportFinalStatusToBackend : Bool), jobs ≠ [] →
      outcome h (RunJobs jobs planStorage jobId reportFinalStatusToBackend reportTerraformOutput
        prCommentId) s ≠ .panic indexZeroOutOfRange) := by
  refine ⟨⟨rfl, rfl⟩, ?_, ?_⟩
  · intro x hx
    rcases x with ⟨a, b⟩
    have hrun : exec h (RunJobs [] planStorage jobId true reportTerraformOutput prCommentId) s =
        (.panic indexZeroOutOfRange, (h .Flush (h .Flush s).2).2,
          [⟨.Flush, (h .Flush s).1⟩, ⟨.Flush, (h .Flush (h .Flush s).2).1⟩]) := by
      show exec h (Prog.call .Flush _) s = _
      rw [exec_call]
      simp only [hx]
      rfl
    simp only [outcome, calls, trace, hrun, List.map_cons, List.map_nil, and_self]
  · intro jobs rf hne hp
    cases jobs with
    | nil => exact hne rfl
    | cons j0 rest =>
      exact panicsOnly_exec (panicsOnly_RunJobs j0 rest planStorage jobId rf
        reportTerraformOutput prCommentId) h s _ hp rfl

/-- C24 (witness): with collaborators that allow everything and a flush that
succeeds, `RunJobs` with `reportFinalStatusToBackend = true` panics on the
empty job list, and not on the list of the one job `webJob`. -/
theorem C24_empty_job_list_witness :
    outcome allowAll (RunJobs [] false "job-1" true false 0) () =
      .panic indexZeroOutOfRange ∧
    outcome allowAll (RunJobs [webJob] false "job-1" true false 0) () ≠
      .panic indexZeroOutOfRange :=
  ⟨((C24_empty_job_list allowAll () false "job-1" false 0).2.1 ("1", "url") rfl).1,
   (C24_empty_job_list allowAll () false "job-1" false 0).2.2 [webJob] true
     (List.cons_ne_nil _ _)⟩

/-! ## The verdict of the plan policy in the apply path -/

theorem ignoresVerdict_pure {α : Type} (a : α) : IgnoresVerdict (pure a : Prog α) := trivial

theorem ignoresVerdict_panic {α : Type} (m : String) :
    IgnoresVerdict (Prog.panic m : Prog α) := trivial

theorem ignoresVerdict_fatal {α : Type} (m : String) :
    IgnoresVerdict (Prog.fatal m : Prog α) := trivial

theorem ignoresVerdict_perform_bind {β : Type} (c : Call) (f : Resp c → Prog β)
    (hc : ∀ r, f r = f (withoutVerdict c r)) (hf : ∀ r, IgnoresVerdict (f r)) :
    IgnoresVerdict (perform c >>= f) := fun r => ⟨hc r, hf r⟩

theorem exec_ignoresVerdict {σ α : Type} {p : Prog α} (hp : IgnoresVerdict p)
    {h1 h2 : Handler σ} (hh : SameButVerdict h1 h2) (s : σ) :
    (exec h1 p s).1 = (exec h2 p s).1 ∧ (exec h1 p s).2.1 = (exec h2 p s).2.1 ∧
      (exec h1 p s).2.2.map Event.withoutVerdict = (exec h2 p s).2.2.map Event.withoutVerdict := by
  induction p generalizing s with
  | ret a => exact ⟨rfl, rfl, rfl⟩
  | panic m => exact ⟨rfl, rfl, rfl⟩
  | fatal m => exact ⟨rfl, rfl, rfl⟩
  | call c k ih =>
    obtain ⟨ha, hs⟩ := hh c s
    have hk : k (h1 c s).1 = k (h2 c s).1 := by
      rw [(hp (h1 c s).1).1, (hp (h2 c s).1).1, ha]
    obtain ⟨i1, i2, i3⟩ := ih (h1 c s).1 (hp (h1 c s).1).2 (h1 c s).2
    simp only [exec_call]
    rw [← hs, ← hk]
    refine ⟨i1, i2, ?_⟩
    simp only [List.map_cons, i3, Event.withoutVerdict, ha]

theorem ignoresVerdict_run_apply (job : Job) (o r : String) (pr : Option Int)
    (u ns : String) (ps : Bool) (ap : AppliesPerProject) :
    IgnoresVerdict (run "mantis apply" job o r pr u ns ps ap) := by
  unfold run
  simp only [runSwitch_apply]
  unfold runApply reportPolicyError reportApplyMergeabilityError
  dsimp only
  repeat' first
    | rw [prog_bind_assoc]
    | rw [prog_pure_bind]
    | rw [prog_panic_bind]
    | rw [prog_fatal_bind]
    | exact ignoresVerdict_pure _
    | exact ignoresVerdict_panic _
    | exact ignoresVerdict_fatal _
    | (refine ignoresVerdict_perform_bind _ _ (fun _ => rfl) ?_; intro _)
    | (refine ignoresVerdict_perform_bind _ _
        (fun x => by rcases x with _ | ⟨_, _⟩ <;> rfl) ?_; intro _)
    | split

/-! ## C21: the verdict of `CheckPlanPolicy` before an apply -/

/-- C21: let the collaborators `h1` and `h2` answer every call identically
except for the allowed/denied boolean of `CheckPlanPolicy`.  Then the two
executions of `run` for `"mantis apply"` from the same state end in the same
outcome (the same result, with the same `appliesPerProject`) and the same
collaborator state, make the same calls in the same order, and get the same
answers but for that boolean. -/
theorem C21_plan_verdict_does_not_influence_apply {σ : Type} (h1 h2 : Handler σ) (s : σ)
    (hsame : SameButVerdict h1 h2) (job : Job) (SCMOrganisation SCMrepository : String)
    (PRNumber : Option Int) (requestedBy projectNamespace : String) (planStorage : Bool)
    (appliesPerProject : AppliesPerProject) :
    outcome h1 (run "mantis apply" job SCMOrganisation SCMrepository PRNumber requestedBy
        projectNamespace planStorage appliesPerProject) s =
      outcome h2 (run "mantis apply" job SCMOrganisation SCMrepository PRNumber requestedBy
        projectNamespace planStorage appliesPerProject) s ∧
    (exec h1 (run "mantis apply" job SCMOrganisation SCMrepository PRNumber requestedBy
        projectNamespace planStorage appliesPerProject) s).2.1 =
      (exec h2 (run "mantis apply" job SCMOrganisation SCMrepository PRNumber requestedBy
        projectNamespace planStorage appliesPerProject) s).2.1 ∧
    calls h1 (run "mantis apply" job SCMOrganisation SCMrepository PRNumber requestedBy
        projectNamespace planStorage appliesPerProject) s =
      calls h2 (run "mantis apply" job SCMOrganisation SCMrepository PRNumber requestedBy
        projectNamespace planStorage appliesPerProject) s ∧
    (trace h1 (run "mantis apply" job SCMOrganisation SCMrepository PRNumber requestedBy
        projectNamespace planStorage appliesPerProject) s).map Event.withoutVerdict =
      (trace h2 (run "mantis apply" job SCMOrganisation SCMrepository PRNumber requestedBy
        projectNamespace planStorage appliesPerProject) s).map Event.withoutVerdict := by
  obtain ⟨e1, e2, e3⟩ := exec_ignoresVerdict (ignoresVerdict_run_apply job SCMOrganisation
    SCMrepository PRNumber requestedBy projectNamespace planStorage appliesPerProject) hsame s
  refine ⟨e1, e2, ?_, e3⟩
  have hc := congrArg (List.map Event.call) e3
  simpa [calls, trace, Event.withoutVerdict, Function.comp_def] using hc

/-- C21 (witness): with a plan store, the stored plan is rejected by the
collaborators `planStored` and allowed by `planStoredAllowed`, with the same
violation; both executions of `"mantis apply"` for `applyJob` return the same
result and make the same calls, among them the apply. -/
theorem C21_plan_verdict_does_not_influence_apply_witness :
    (trace planStored (run "mantis apply" applyJob "o" "r" (some 1) "alice" "o/r" true []) ()
      ).filterMap Event.planDenied = [["rule A"]] ∧
    (trace planStoredAllowed (run "mantis apply" applyJob "o" "r" (some 1) "alice" "o/r" true [])
      ()).filterMap Event.planDenied = [] ∧
    outcome planStored (run "mantis apply" applyJob "o" "r" (some 1) "alice" "o/r" true []) () =
      outcome planStoredAllowed
        (run "mantis apply" applyJob "o" "r" (some 1) "alice" "o/r" true []) () ∧
    calls planStored (run "mantis apply" applyJob "o" "r" (some 1) "alice" "o/r" true []) () =
      calls planStoredAllowed
        (run "mantis apply" applyJob "o" "r" (some 1) "alice" "o/r" true []) () ∧
    Call.Apply "o/r" "web" ∈
      calls planStored (run "mantis apply" applyJob "o" "r" (some 1) "alice" "o/r" true []) () :=
  have h := C21_plan_verdict_does_not_influence_apply planStored planStoredAllowed ()
    (fun c s => by cases c <;> exact ⟨rfl, rfl⟩) applyJob "o" "r" (some 1) "alice" "o/r" true []
  ⟨rfl, rfl, h.1, h.2.2.1, by decide⟩

/-! ## The entries of `appliesPerProject` and the events of a batch -/

theorem append_apply_inj (x P : String) : x ++ "/apply" = P ++ "/apply" ↔ x = P := by
  constructor
  · intro h
    have hd := congrArg String.data h
    simp only [String.data_append] at hd
    exact String.ext (List.append_cancel_right hd)
  · intro h
    rw [h]

theorem plan_ne_apply (x P : String) : x ++ "/plan" ≠ P ++ "/apply" := by
  intro h
  have hd := congrArg (fun s => s.data.reverse) h
  simp only [String.data_append, List.reverse_append] at hd
  have h2 := congrArg List.head? hd
  simp at h2

theorem mapGet_mapSet_ne (m : AppliesPerProject) (k P : String) (v : Bool) (h : k ≠ P) :
    mapGet (mapSet m k v) P = mapGet m P := by
  induction m with
  | nil => simp [mapSet, mapGet, h]
  | cons e m ih =>
    rcases e with ⟨k1, v1⟩
    simp only [mapSet]
    split
    · rename_i hk
      subst hk
      simp [mapGet, h]
    · simp [mapGet, ih]

set_option maxHeartbeats 4000000 in
theorem run_verdicts (c : String) (job : Job) (o r : String) (pr : Option Int)
    (u ns : String) (ps : Bool) (ap : AppliesPerProject) :
    Holds (run c job o r pr u ns ps ap) [] (runVerdicts job ap) := by
  unfold run runSwitch runPlan runApply reportPolicyError reportApplyMergeabilityError
    reportTerraformPlanOutput reportEmptyPlanOutput
  dsimp only
  repeat' first
    | rw [prog_bind_assoc]
    | rw [prog_pure_bind]
    | rw [prog_panic_bind]
    | rw [prog_fatal_bind]
    | (refine (holds_perform_bind _ _ _ _).2 ?_; intro _)
    | rw [holds_pure]
    | rw [holds_panic]
    | rw [holds_fatal]
    | split
  all_goals intro rr ap1 h1
  all_goals try cases h1
  all_goals exact ⟨fun P hP => ⟨(by first
      | exact rfl
      | exact mapGet_mapSet_ne _ _ _ _ hP
      | (rw [mapGet_mapSet_ne _ _ _ _ hP, mapGet_mapSet_ne _ _ _ _ hP])),
    (by
      simp only [List.nil_append, List.cons_append, List.mem_cons, List.mem_nil_iff, or_false,
        forall_eq_or_imp, forall_eq, List.not_mem_nil, IsEmpty.forall_iff, implies_true, and_true]
      simp [Event.verdictFor, Event.appliedFor, Event.marksFailure,
        Event.deniedFor, Event.failedFor, Event.applyDispatchedFor, hP, plan_ne_apply,
        append_apply_inj])⟩,
    (by
      intro h2
      first
        | exact absurd h2 (Option.some_ne_none _)
        | (simp only [List.nil_append, List.cons_append, List.foldl_cons, List.foldl_nil]
           simp [verdictStep, Event.verdictFor, Event.appliedFor, Event.marksFailure,
             Event.deniedFor, Event.failedFor, Event.applyDispatchedFor, plan_ne_apply,
             append_apply_inj, mapGet_mapSet, *])),
    (by
      simp only [List.nil_append, List.cons_append, List.mem_cons, List.mem_nil_iff, or_false,
        exists_eq_or_imp, exists_eq_left, List.not_mem_nil, false_and, exists_false]
      simp [Event.appliedFor, Event.applyDispatchedFor])⟩


theorem foldl_verdictStep_of_none (P : String) (t : List Event) (acc : Option Bool)
    (h : ∀ e ∈ t, e.verdictFor P = none) : t.foldl (verdictStep P) acc = acc := by
  induction t generalizing acc with
  | nil => rfl
  | cons e t ih =>
    rw [List.foldl_cons, ih _ (fun e' he' => h e' (List.mem_cons_of_mem _ he'))]
    simp [verdictStep, h e (List.mem_cons_self _ _)]

theorem appliedFor_of_verdict {P : String} {e : Event} (h : e.appliedFor P = true) :
    e.verdictFor P ≠ none := by
  simp [Event.verdictFor, h]

theorem marksFailure_of_verdict {P : String} {e : Event} (h : e.marksFailure P = true) :
    e.verdictFor P ≠ none := by
  unfold Event.verdictFor
  split
  · simp
  · simp [h]

theorem verdict_none_iff {P : String} {e : Event} :
    e.verdictFor P = none ↔ e.appliedFor P = false ∧ e.marksFailure P = false := by
  unfold Event.verdictFor
  cases e.appliedFor P <;> cases e.marksFailure P <;> simp

/-- One step of the loops: the events `t1` of a command of the project `Pj`
that say nothing about another project. -/
theorem verdictsRecorded_step (Pj : String) {ap ap1 : AppliesPerProject} {t t1 : List Event}
    (h : verdictsRecorded ap t)
    (hother : ∀ P, Pj ≠ P → mapGet ap1 P = mapGet ap P ∧ ∀ e ∈ t1, e.verdictFor P = none)
    (hown : mapGet ap1 Pj = t1.foldl (verdictStep Pj) (mapGet ap Pj))
    (happ : (∃ e ∈ t1, e.appliedFor Pj = true) → ∃ e ∈ t1, e.marksFailure Pj = true) :
    verdictsRecorded ap1 (t ++ t1) := by
  constructor
  · intro P
    unfold lastVerdict
    rw [List.foldl_append]
    by_cases hP : Pj = P
    · subst hP
      rw [hown, h.1 Pj]
      rfl
    · rw [(hother P hP).1, foldl_verdictStep_of_none P t1 _ (hother P hP).2, h.1 P]
      rfl
  · rintro P ⟨e, he, hap⟩
    rcases List.mem_append.1 he with he | he
    · obtain ⟨e1, h1, h2⟩ := h.2 P ⟨e, he, hap⟩
      exact ⟨e1, List.mem_append_left _ h1, h2⟩
    · by_cases hP : Pj = P
      · subst hP
        obtain ⟨e1, h1, h2⟩ := happ ⟨e, he, hap⟩
        exact ⟨e1, List.mem_append_right _ h1, h2⟩
      · exact absurd ((hother P hP).2 e he) (appliedFor_of_verdict hap)

theorem verdictsRecorded_neutral {ap : AppliesPerProject} {t t1 : List Event}
    (h : verdictsRecorded ap t) (hn : ∀ e ∈ t1, ∀ P, e.verdictFor P = none) :
    verdictsRecorded ap (t ++ t1) := by
  refine verdictsRecorded_step "" h (fun P _ => ⟨rfl, fun e he => hn e he P⟩) ?_ ?_
  · rw [foldl_verdictStep_of_none _ _ _ (fun e he => hn e he _)]
  · rintro ⟨e, he, hap⟩
    exact absurd (hn e he _) (appliedFor_of_verdict hap)

theorem holds_ReportRunData_neutral (planJson : String) (jobId : Int) :
    Holds (ReportRunData planJson jobId) []
      (fun t _ => ∀ e ∈ t, ∀ P, e.verdictFor P = none) := by
  unfold ReportRunData
  repeat' first
    | rw [prog_bind_assoc]
    | rw [prog_pure_bind]
    | (refine (holds_perform_bind _ _ _ _).2 ?_; intro _)
    | rw [holds_pure]
    | split
  all_goals
    simp only [List.nil_append, List.cons_append, List.mem_cons, List.mem_nil_iff, or_false,
      forall_eq_or_imp, forall_eq, List.not_mem_nil, IsEmpty.forall_iff, implies_true, and_true]
  all_goals simp [Event.verdictFor, Event.appliedFor, Event.marksFailure,
      Event.deniedFor, Event.failedFor, Event.applyDispatchedFor]

theorem commandLoop_verdicts (job : Job) (i : Nat) (o r : String) (ps : Bool)
    (cmds : List String) (st : LoopState) (t : List Event)
    (hrec : verdictsRecorded st.appliesPerProject t) :
    Holds (commandLoop job i o r ps cmds st) t
      (fun t1 res => ∀ ex, res = .ok ex → ex.recorded t1) := by
  induction cmds generalizing st t with
  | nil =>
    intro ex hex
    cases hex
    exact hrec
  | cons c rest ih =>
    unfold commandLoop
    refine (holds_perform_bind _ _ _ _).2 ?_
    intro allowed
    split
    · intro ex hex
      cases hex
      trivial
    · rw [holds_bind]
      refine Holds.after (holds_reportPolicyError _ _ _) _ ?_
      rintro t1 res ⟨hres, f, r1, r2, ht1⟩
      subst hres ht1
      show Holds (commandLoop job i o r ps rest _) _ _
      rw [List.append_assoc]
      refine ih _ _ (verdictsRecorded_step job.ProjectName hrec ?_ ?_ ?_)
      · intro P hP
        refine ⟨mapGet_mapSet_ne _ _ _ _ hP, ?_⟩
        simp [Event.verdictFor, Event.appliedFor, Event.marksFailure,
          Event.deniedFor, Event.failedFor, Event.applyDispatchedFor, hP]
      · simp [mapGet_mapSet, verdictStep, Event.verdictFor, Event.appliedFor, Event.marksFailure,
          Event.deniedFor, Event.failedFor, Event.applyDispatchedFor]
      · simp [Event.appliedFor]
    · rw [holds_bind]
      refine Holds.after (run_verdicts c job o r job.PullRequestNumber job.RequestedBy
        job.Namespace ps st.appliesPerProject) _ ?_
      intro t1 res hrun
      cases res with
      | panic m =>
        intro ex hex
        cases hex
      | fatal m =>
        intro ex hex
        cases hex
      | ok x =>
        rcases x with ⟨rr, ap1⟩
        obtain ⟨hother, hown, happ⟩ := hrun rr ap1 rfl
        have hchk : ∀ P, Event.verdictFor P
            (⟨.CheckAccessPolicy o r job.ProjectName job.ProjectDir c job.PullRequestNumber
              job.RequestedBy [], .ok true⟩ : Event) = none := by
          intro P
          simp [Event.verdictFor, Event.appliedFor, Event.marksFailure,
            Event.deniedFor, Event.failedFor, Event.applyDispatchedFor]
        simp only [bindPost]
        split
        · refine (holds_perform_bind _ _ _ _).2 ?_
          intro rep
          have hrec1 : verdictsRecorded (mapSet ap1 job.ProjectName false)
              (t ++ ([(⟨.CheckAccessPolicy o r job.ProjectName job.ProjectDir c
                  job.PullRequestNumber job.RequestedBy [], .ok true⟩ : Event)] ++
                (t1 ++ [(⟨.ReportProjectRun (o ++ "-" ++ r) job.ProjectName "FAILED" c
                  rr.output, rep⟩ : Event)]))) := by
            refine verdictsRecorded_step job.ProjectName hrec ?_ ?_ ?_
            · intro P hP
              refine ⟨(mapGet_mapSet_ne _ _ _ _ hP).trans (hother P hP).1, ?_⟩
              intro e he
              simp only [List.mem_append, List.mem_singleton] at he
              rcases he with he | he | he
              · exact he ▸ hchk P
              · exact (hother P hP).2 e he
              · subst he
                simp [Event.verdictFor, Event.appliedFor, Event.marksFailure,
                  Event.deniedFor, Event.failedFor, Event.applyDispatchedFor, hP]
            · rw [mapGet_mapSet, List.foldl_append, List.foldl_append]
              simp [verdictStep, Event.verdictFor, Event.appliedFor, Event.marksFailure,
                Event.deniedFor, Event.failedFor, Event.applyDispatchedFor]
            · intro _
              exact ⟨_, List.mem_append_right _ (List.mem_append_right _
                (List.mem_singleton.2 rfl)),
                by simp [Event.marksFailure, Event.failedFor]⟩
          split
          · intro ex hex
            cases hex
            simpa only [List.append_assoc] using hrec1
          · intro ex hex
            cases hex
            simpa only [List.append_assoc] using hrec1
        · rename_i herr
          split
          · intro ex hex
            cases hex
          · refine (holds_perform_bind _ _ _ _).2 ?_
            intro rd
            rw [holds_bind]
            refine Holds.after (holds_ReportRunData_neutral _ _) _ ?_
            intro t2 res2 hn
            cases res2 with
            | panic m =>
              intro ex hex
              cases hex
            | fatal m =>
              intro ex hex
              cases hex
            | ok x2 =>
              show Holds (commandLoop job i o r ps rest _) _ _
              simp only [List.append_assoc]
              refine ih _ _ (verdictsRecorded_step job.ProjectName hrec ?_ ?_ ?_)
              · intro P hP
                refine ⟨(hother P hP).1, ?_⟩
                intro e he
                simp only [List.mem_append, List.mem_singleton] at he
                rcases he with he | he | he | he
                · exact he ▸ hchk P
                · exact (hother P hP).2 e he
                · subst he
                  simp [Event.verdictFor, Event.appliedFor, Event.marksFailure,
                    Event.deniedFor, Event.failedFor, Event.applyDispatchedFor]
                · exact hn e he P
              · rw [List.foldl_append, List.foldl_append, List.foldl_append,
                  foldl_verdictStep_of_none _ t2 _ (fun e he => hn e he _)]
                simp only [List.foldl_cons, List.foldl_nil, verdictStep, hchk]
                rw [← hown herr]
                simp [Event.verdictFor, Event.appliedFor, Event.marksFailure,
                  Event.deniedFor, Event.failedFor, Event.applyDispatchedFor]
              · rintro ⟨e, he, hap⟩
                simp only [List.mem_append, List.mem_singleton] at he
                rcases he with he | he | he | he
                · exact absurd (he ▸ hchk _) (appliedFor_of_verdict hap)
                · obtain ⟨e1, h1, h2⟩ := happ ⟨e, he, hap⟩
                  exact ⟨e1, List.mem_append_right _ (List.mem_append_left _ h1),
                    by simp [Event.marksFailure, h2]⟩
                · subst he
                  simp [Event.appliedFor] at hap
                · exact absurd (hn e he _) (appliedFor_of_verdict hap)


theorem jobLoop_verdicts (ps : Bool) (jobs : List Job) (i : Nat) (st : LoopState)
    (t : List Event) (hrec : verdictsRecorded st.appliesPerProject t) :
    Holds (jobLoop ps jobs i st) t
      (fun t1 res => ∀ st1, res = .ok (.ok st1) → verdictsRecorded st1.appliesPerProject t1) := by
  induction jobs generalizing i st t with
  | nil =>
    intro st1 h1
    cases h1
    exact hrec
  | cons job rest ih =>
    unfold jobLoop
    split
    · rw [holds_bind]
      refine Holds.mono ?_ (commandLoop_verdicts job i _ _ ps job.Commands st t hrec)
      intro t1 res hres
      cases res with
      | panic m =>
        intro st1 h1
        cases h1
      | fatal m =>
        intro st1 h1
        cases h1
      | ok ex =>
        have hex := hres ex rfl
        cases ex with
        | returned e =>
          intro st1 h1
          cases h1
        | finished st1 => exact ih _ _ _ hex
        | broke st1 => exact ih _ _ _ hex
    · intro st1 h1
      cases h1

theorem finalStatus_verdicts (jobs : List Job) (jobId : String) (rf rt : Bool) (cid : Int)
    (st : LoopState) :
    Holds (finalStatus jobs jobId rf rt cid st) []
      (fun t res => (∀ e ∈ t, ∀ P, e.verdictFor P = none) ∧
        ∀ a b, res = .ok (a, b, none) →
          a = st.appliesPerProject.all (fun e => e.2) ∧
          b = decide (st.appliesPerProject.length > 0)) := by
  unfold finalStatus
  dsimp only
  repeat' first
    | rw [prog_bind_assoc]
    | rw [prog_pure_bind]
    | rw [prog_panic_bind]
    | rw [prog_fatal_bind]
    | (refine (holds_perform_bind _ _ _ _).2 ?_; intro _)
    | rw [holds_pure]
    | rw [holds_panic]
    | rw [holds_fatal]
    | split
  all_goals exact ⟨by
      simp only [List.nil_append, List.cons_append, List.mem_cons, List.mem_nil_iff, or_false,
        forall_eq_or_imp, forall_eq, List.not_mem_nil, IsEmpty.forall_iff, implies_true,
        and_true]
      try simp [Event.verdictFor, Event.appliedFor, Event.marksFailure,
        Event.deniedFor, Event.failedFor, Event.applyDispatchedFor],
    by
      intro a b hab
      cases hab <;> exact ⟨rfl, rfl⟩⟩

theorem verdictsRecorded_nil : verdictsRecorded [] [] := by
  refine ⟨fun P => rfl, ?_⟩
  rintro P ⟨e, he, _⟩
  cases he

theorem RunJobsBody_verdicts (jobs : List Job) (ps : Bool) (jobId : String) (rf rt : Bool)
    (cid : Int) : Holds (RunJobsBody jobs ps jobId rf rt cid) [] batchVerdicts := by
  unfold RunJobsBody
  dsimp only
  rw [holds_bind]
  refine Holds.mono ?_ (jobLoop_verdicts ps jobs 0 ⟨List.replicate jobs.length {}, []⟩ []
    verdictsRecorded_nil)
  intro t res hres
  cases res with
  | panic m =>
    intro a b hab
    cases hab
  | fatal m =>
    intro a b hab
    cases hab
  | ok x =>
    cases x with
    | error e =>
      intro a b hab
      cases hab
    | ok st =>
      have hrec := hres st rfl
      refine Holds.after (finalStatus_verdicts jobs jobId rf rt cid st) t ?_
      intro t1 res1 h1 a b hab
      exact ⟨st.appliesPerProject, verdictsRecorded_neutral hrec h1.1, h1.2 a b hab⟩

theorem lastVerdict_split (P : String) (t : List Event) (acc : Option Bool) (v : Bool)
    (h : t.foldl (verdictStep P) acc = some v) :
    (∃ t1 e t2, t = t1 ++ e :: t2 ∧ e.verdictFor P = some v ∧
        ∀ e1 ∈ t2, e1.verdictFor P = none) ∨
      (acc = some v ∧ ∀ e ∈ t, e.verdictFor P = none) := by
  induction t generalizing acc with
  | nil => exact Or.inr ⟨h, fun e he => by cases he⟩
  | cons e t ih =>
    rw [List.foldl_cons] at h
    rcases ih _ h with ⟨t1, e1, t2, ht, hv, hn⟩ | ⟨hacc, hn⟩
    · exact Or.inl ⟨e :: t1, e1, t2, by rw [ht]; rfl, hv, hn⟩
    · cases hv : e.verdictFor P with
      | none =>
        simp only [verdictStep, hv] at hacc
        refine Or.inr ⟨hacc, ?_⟩
        intro e1 he1
        rcases List.mem_cons.1 he1 with h1 | h1
        · exact h1 ▸ hv
        · exact hn e1 h1
      | some w =>
        simp only [verdictStep, hv, Option.some.injEq] at hacc
        exact Or.inl ⟨[], e, t, rfl, hacc ▸ hv, hn⟩

theorem lastVerdict_ne_none (P : String) (t : List Event) (e : Event) (he : e ∈ t)
    (hv : e.verdictFor P ≠ none) : lastVerdict P t ≠ none := by
  intro hnone
  unfold lastVerdict at hnone
  suffices hs : ∀ acc, t.foldl (verdictStep P) acc = none → ∀ e ∈ t, e.verdictFor P = none from
    hv (hs none hnone e he)
  clear he hv hnone
  induction t with
  | nil =>
    intro acc _ e he
    cases he
  | cons e0 t ih =>
    intro acc hacc e1 he1
    rw [List.foldl_cons] at hacc
    have hrest := ih _ hacc
    rcases List.mem_cons.1 he1 with h1 | h1
    · subst h1
      cases hv : e1.verdictFor P with
      | none => rfl
      | some w =>
        have hkeep : ∀ (l : List Event) (x : Bool), (∀ e ∈ l, e.verdictFor P = none) →
            l.foldl (verdictStep P) (some x) = some x :=
          fun l x hl => foldl_verdictStep_of_none P l _ hl
        have : verdictStep P acc e1 = some w := by simp [verdictStep, hv]
        rw [this, hkeep t w hrest] at hacc
        cases hacc
    · exact hrest e1 h1

theorem applied_of_verdict_true {P : String} {e : Event} (h : e.verdictFor P = some true) :
    ∃ ns a, e = (⟨.Apply ns P, a⟩ : Event) ∧ a.applyPerformed = true ∧ a.err = none := by
  have happ : e.appliedFor P = true := by
    unfold Event.verdictFor at h
    split at h
    · assumption
    · split at h <;> simp at h
  rcases e with ⟨c, a⟩
  cases c <;> simp only [Event.appliedFor, Bool.false_eq_true] at happ
  rename_i ns p
  simp only [decide_eq_true_eq] at happ
  obtain ⟨h1, h2, h3⟩ := happ
  subst h1
  exact ⟨ns, a, rfl, h2, h3⟩

theorem mapGet_ne_false_of_all (ap : AppliesPerProject) (P : String)
    (h : ap.all (fun e => e.2) = true) : mapGet ap P ≠ some false := by
  induction ap with
  | nil => simp [mapGet]
  | cons e ap ih =>
    rcases e with ⟨k, v⟩
    simp only [List.all_cons, Bool.and_eq_true] at h
    simp only [mapGet]
    split
    · simpa using h.1
    · exact ih h.2

theorem length_pos_iff_mapGet (ap : AppliesPerProject) :
    ap.length > 0 ↔ ∃ P, mapGet ap P ≠ none := by
  cases ap with
  | nil => simp [mapGet]
  | cons e ap =>
    rcases e with ⟨k, v⟩
    simp only [List.length_cons, gt_iff_lt, Nat.zero_lt_succ, true_iff]
    exact ⟨k, by simp [mapGet]⟩

theorem exec_afterDefer_flush_ok {σ α : Type} (h : Handler σ) (x : Res α × σ × List Event)
    (a : α) (hx : (afterDefer h (do let _ ← perform .Flush; pure ()) x).1 = .ok a) :
    x.1 = .ok a ∧
      (afterDefer h (do let _ ← perform .Flush; pure ()) x).2.2 =
        x.2.2 ++ [⟨.Flush, (h .Flush x.2.1).1⟩] := by
  rcases x with ⟨res, s, t⟩
  cases res <;> simp_all [afterDefer, exec_perform_bind]

/-! ## C22: what `allAppliesSuccess` and `atLeastOneApply` say -/

/-- C22: let `RunJobs` return `(true, atLeastOneApply, nil)`.  Then for every
project `P` for which the execution has an event of a command that was denied
by an access check, that failed in `run` (the run reported as `"FAILED"`), or
that was a `"mantis apply"` that reached the dispatch (the commit status
`"pending"` of `<P>/apply`), the execution has an `Apply` of `P` that was
performed and returned no error, after which there is no such event for `P`;
and `atLeastOneApply` is true exactly when the execution has such an event for
some project. -/
theorem C22_all_applies_success_is_sound {σ : Type} (h : Handler σ) (s : σ) (jobs : List Job)
    (planStorage : Bool) (jobId : String)
    (reportFinalStatusToBackend reportTerraformOutput : Bool) (prCommentId : Int)
    (atLeastOneApply : Bool)
    (hret : outcome h (RunJobs jobs planStorage jobId reportFinalStatusToBackend
      reportTerraformOutput prCommentId) s = .ok (true, atLeastOneApply, none)) :
    (∀ P, (∃ e ∈ trace h (RunJobs jobs planStorage jobId reportFinalStatusToBackend
          reportTerraformOutput prCommentId) s, e.marksFailure P = true) →
      ∃ t1 ns a t2, trace h (RunJobs jobs planStorage jobId reportFinalStatusToBackend
          reportTerraformOutput prCommentId) s = t1 ++ (⟨.Apply ns P, a⟩ : Event) :: t2 ∧
        a.applyPerformed = true ∧ a.err = none ∧ ∀ e ∈ t2, e.marksFailure P = false) ∧
    (atLeastOneApply = true ↔
      ∃ P, ∃ e ∈ trace h (RunJobs jobs planStorage jobId reportFinalStatusToBackend
        reportTerraformOutput prCommentId) s, e.marksFailure P = true) := by
  simp only [outcome, trace, exec_RunJobs] at hret ⊢
  obtain ⟨hbody, htrace⟩ := exec_afterDefer_flush_ok h _ _ hret
  rw [htrace]
  have hpath := (RunJobsBody_verdicts jobs planStorage jobId reportFinalStatusToBackend
    reportTerraformOutput prCommentId).exec h s
  simp only [List.nil_append] at hpath
  obtain ⟨ap, ⟨hval, hdisp⟩, hall, hlen⟩ := hpath true atLeastOneApply hbody
  have hfl : ∀ (x : Resp .Flush) (P : String),
      Event.marksFailure P (⟨.Flush, x⟩ : Event) = false := fun _ _ => rfl
  generalize (h .Flush (exec h (RunJobsBody jobs planStorage jobId reportFinalStatusToBackend
    reportTerraformOutput prCommentId) s).2.1).1 = fl
  generalize (exec h (RunJobsBody jobs planStorage jobId reportFinalStatusToBackend
    reportTerraformOutput prCommentId) s).2.2 = t at hval hdisp ⊢
  have hmem : ∀ P, (∃ e ∈ t ++ [(⟨.Flush, fl⟩ : Event)], e.marksFailure P = true) →
      ∃ e ∈ t, e.marksFailure P = true := by
    rintro P ⟨e, he, hm⟩
    rcases List.mem_append.1 he with he | he
    · exact ⟨e, he, hm⟩
    · rw [List.mem_singleton.1 he, hfl] at hm
      cases hm
  constructor
  · intro P hP
    obtain ⟨e, he, hm⟩ := hmem P hP
    have hne := lastVerdict_ne_none P t e he (marksFailure_of_verdict hm)
    have hnf := mapGet_ne_false_of_all ap P hall.symm
    rw [hval P] at hnf
    have htrue : lastVerdict P t = some true := by
      cases hl : lastVerdict P t with
      | none => exact absurd hl hne
      | some v =>
        cases v
        · exact absurd hl hnf
        · rfl
    rcases lastVerdict_split P t none true htrue with ⟨t1, e1, t2, ht, hv, hn⟩ | ⟨hacc, _⟩
    · obtain ⟨ns, a, he1, hperf, herr⟩ := applied_of_verdict_true hv
      refine ⟨t1, ns, a, t2 ++ [(⟨.Flush, fl⟩ : Event)], ?_, hperf, herr, ?_⟩
      · rw [ht, he1, List.append_assoc, List.cons_append]
      · intro e2 he2
        rcases List.mem_append.1 he2 with he2 | he2
        · exact (verdict_none_iff.1 (hn e2 he2)).2
        · rw [List.mem_singleton.1 he2]
          exact hfl _ _
    · cases hacc
  · rw [hlen, decide_eq_true_eq, length_pos_iff_mapGet]
    constructor
    · rintro ⟨P, hP⟩
      rw [hval P] at hP
      have hex : ∃ e ∈ t, e.verdictFor P ≠ none := by
        by_contra hcon
        refine hP (foldl_verdictStep_of_none P t none (fun e he => ?_))
        by_contra hv
        exact hcon ⟨e, he, hv⟩
      obtain ⟨e, he, hv⟩ := hex
      have hor : e.appliedFor P = true ∨ e.marksFailure P = true := by
        by_contra hcon
        refine hv (verdict_none_iff.2 ⟨?_, ?_⟩)
        · cases hx : e.appliedFor P
          · rfl
          · exact absurd (Or.inl hx) hcon
        · cases hx : e.marksFailure P
          · rfl
          · exact absurd (Or.inr hx) hcon
      rcases hor with hap | hm
      · obtain ⟨e1, h1, h2⟩ := hdisp P ⟨e, he, hap⟩
        exact ⟨P, e1, List.mem_append_left _ h1, h2⟩
      · exact ⟨P, e, List.mem_append_left _ he, hm⟩
    · rintro ⟨P, hP⟩
      obtain ⟨e, he, hm⟩ := hmem P hP
      refine ⟨P, ?_⟩
      rw [hval P]
      exact lastVerdict_ne_none P t e he (marksFailure_of_verdict hm)

/-- C22 (witness): the batch of the one job `applyJob` with collaborators that
allow and perform everything returns `(true, true, nil)`; the apply of `web`
reached the dispatch, and it was performed without error. -/
theorem C22_all_applies_success_is_sound_witness :
    outcome allowAll (RunJobs [applyJob] false "job-1" false false 0) () =
      .ok (true, true, none) ∧
    ∃ t1 ns a t2, trace allowAll (RunJobs [applyJob] false "job-1" false false 0) () =
        t1 ++ (⟨.Apply ns "web", a⟩ : Event) :: t2 ∧
      a.applyPerformed = true ∧ a.err = none ∧ ∀ e ∈ t2, e.marksFailure "web" = false :=
  ⟨rfl, (C22_all_applies_success_is_sound allowAll () [applyJob] false "job-1" false false 0
    true rfl).1 "web"
    ⟨⟨.SetStatus 1 "pending" "web/apply", none⟩,
      by repeat (first | exact List.Mem.head _ | apply List.Mem.tail), by decide⟩⟩

end Mantis
